import Mathlib

/-!
# dgsh-wrap: invocation rewriting

A shallow embedding of `core-tools/src/dgsh-wrap.c`, of the older variant
`dgsh-wrap.c` at the top of the source tree (namespace `Toplevel`) and of
`write_command` of `core-tools/src/kvstore.c` (namespace `Kvstore`).

* A C string is the list of its characters before the terminating NUL.
* A pointer array (`char **argv`) is a list of cells, `none` being `NULL`.
* `int *fdptr` into a descriptor array is the array together with an index;
  reading a cell past the end of the array is a `Fault.oob`.
* `int` counters (`ninputs`, `noutputs`) are `Int`; `-1` means "arbitrary".
-/

set_option autoImplicit false

namespace DgshWrap

/-- A C string: its characters, the terminating NUL left implicit. -/
abbrev CStr := List Char

/-- An argument vector as the C array of `char *`: `none` is `NULL`. -/
abbrev Argv := List (Option CStr)

/-- Ways in which a run leaves defined behaviour or does not finish. -/
inductive Fault where
  /-- an access past the end of an array -/
  | oob
  /-- a `NULL` pointer used as a string -/
  | null
  /-- the iteration budget of a loop was used up -/
  | timeout
  deriving DecidableEq, Repr

deriving instance DecidableEq for Except

/-- The string `s` as a C string. -/
def cstr (s : String) : CStr := s.toList

/-! ## libc -/

/-- The function `strstr(hay, needle)`: offset of the first occurrence. -/
def strstr : CStr → CStr → Option Nat
  | [], needle => if needle = [] then some 0 else none
  | c :: cs, needle =>
    if needle.isPrefixOf (c :: cs) then some 0
    else (strstr cs needle).map (· + 1)

/-- The function `strrchr(s, c)`: offset of the last occurrence of `c`. -/
def strrchr : CStr → Char → Option Nat
  | [], _ => none
  | x :: xs, c =>
    match strrchr xs c with
    | some i => some (i + 1)
    | none => if x = c then some 0 else none

/-- The function `memmove(buf + dst, buf + src, n)` on a buffer of cells; cells
outside the buffer are not represented. -/
def memmove {α : Type} (buf : List α) (dst src n : Nat) : List α :=
  buf.take dst ++ (buf.drop src).take n ++ buf.drop (dst + n)

/-- The conversion `%d` of `printf`. -/
def fmt_d : Int → CStr
  | Int.ofNat n => Nat.toDigits 10 n
  | Int.negSucc n => '-' :: Nat.toDigits 10 (n + 1)

/-- Successive results of `strtok(s, delim)`, `strtok(NULL, delim)`, ...:
the maximal runs of non-delimiter characters; `cur` is the run being read,
last character first. -/
def strtok_all (delim : CStr) : CStr → CStr → List CStr
  | [], cur => if cur = [] then [] else [cur.reverse]
  | c :: cs, cur =>
    if c ∈ delim then
      (if cur = [] then strtok_all delim cs [] else cur.reverse :: strtok_all delim cs [])
    else strtok_all delim cs (c :: cur)

/-! ## String constants -/

/-- The input marker `"<|"`. -/
def marker_in : CStr := ['<', '|']

/-- The output marker `">|"`. -/
def marker_out : CStr := ['>', '|']

/-- The prefix `"/dev/fd/"`. -/
def dev_fd : CStr := "/dev/fd/".toList

/-- The result of `asprintf("/dev/fd/%d", fd)`. -/
def fd_path (fd : Int) : CStr := dev_fd ++ fmt_d fd

/-! ## remove_from_path -/

/-- The loop `for (start = strptr; start != path && *start != ':'; start--)`,
run on the characters before `strptr`, nearest first; the result is how far
`start` moved back. -/
def back_to_colon : CStr → Option Char → Nat
  | [], _ => 0
  | c :: before, cur =>
    if cur = some ':' then 0 else 1 + back_to_colon before (some c)

/-- The loop `for (end = strptr; *end && *end != ':'; end++)`: how far `end`
moved forward. -/
def forward_to_colon : CStr → Nat
  | [] => 0
  | c :: cs => if c = ':' then 0 else 1 + forward_to_colon cs

/-- The function `remove_from_path(string)` as a function of the value of `PATH`
(`none`: unset) to the value it leaves. -/
def remove_from_path (string : CStr) (env_path : Option CStr) : Option CStr :=
  match env_path with
  | none => none
  | some path =>
    match strstr path string with
    | none => some path
    | some strptr =>
      let start := strptr - back_to_colon (path.take strptr).reverse (path[strptr]?)
      let end_ := strptr + forward_to_colon (path.drop strptr)
      if path[end_]? = none then
        some (path.take start)
      else if path[start]? = some ':' then
        some (memmove path start end_ (path.drop end_).length)
      else
        some (memmove path start (end_ + 1) (path.drop (end_ + 1)).length)

/-! ## Shebang argument handling -/

/-- The vector `[a0, ..., a(n-1)]` as the C array `a0, ..., a(n-1), NULL`. -/
def mkArgv (args : List CStr) : Argv := args.map some ++ [none]

/-- The strings of the first `argc` cells of an array. -/
def argv_strings (argc : Nat) (argv : Argv) : List CStr := (argv.take argc).reduceOption

/-- The delimiters `" \t"` of `split_argv`. -/
def delim : CStr := [' ', '\t']

/-- The `for (;;)` loop of `split_argv`: `p` is the token just returned by
`strtok`, `rest` the tokens the later calls return. The cell `xrealloc` adds is
written by the `memmove` that follows. -/
def split_argv_loop : Nat → Nat → Argv → CStr → List CStr → Nat × Argv
  | argc, i, argv, p, [] => (argc, argv.set i (some p))
  | argc, i, argv, p, q :: rest =>
    let argv := argv.set i (some p)
    let argc := argc + 1
    let argv := argv ++ [none]
    let argv := memmove argv (i + 2) (i + 1) (argc - i - 1)
    split_argv_loop argc (i + 1) argv q rest

/-- The function `split_argv(&argc, &argv)`; `none` when `argv[1]` is `NULL` or
the assertion `p != NULL` fails. -/
def split_argv (argc : Nat) (argv : Argv) : Option (Nat × Argv) :=
  match argv[1]? with
  | some (some a1) =>
    match strtok_all delim a1 [] with
    | [] => none
    | p :: rest => some (split_argv_loop argc 1 (argv.take (argc + 1)) p rest)
  | _ => none

/-- The function `remove_os_script_path(argv, &argc, optind)`. The move reads
`argc - optind` cells from `argv + optind + 2`, the last of which is the cell
after the terminating `NULL`: `beyond` is that cell's content. The result is
the array of the same `argc + 1` cells and the new `argc`. -/
def remove_os_script_path (argv : Argv) (argc optind : Nat) (beyond : Option CStr) :
    Argv × Nat :=
  let mem := memmove (argv ++ [beyond]) (optind + 1) (optind + 2) (argc - optind)
  let argc := argc - 1
  ((mem.set argc none).take argv.length, argc)

/-- The function `remove_absolute_path(s)`: the characters after the last `'/'`
are moved to the front of `s`, the terminating NUL with them. -/
def remove_absolute_path (s : CStr) : CStr :=
  match strrchr s '/' with
  | some p => s.drop (p + 1)
  | none => s

/-! ## Marker replacement -/

/-- The function `process_embedded_io_arg(&arg, special, &fdptr)`: the returned
flag, the new `*arg` and the new `*fdptr` (an index into `fds`). -/
def process_embedded_io_arg (arg special : CStr) (fds : List Int) (fdptr : Nat) :
    Except Fault (Bool × CStr × Nat) :=
  match strstr arg special with
  | none => .ok (false, arg, fdptr)
  | some p =>
    match fds[fdptr]? with
    | none => .error .oob
    | some fd =>
      .ok (true, arg.take p ++ dev_fd ++ fmt_d fd ++ arg.drop (p + special.length), fdptr + 1)

/-- The function `process_standalone_io_arg(&arg, special, &fdptr)`; `special` is
`none` for `NULL`. -/
def process_standalone_io_arg (arg : CStr) (special : Option CStr) (fds : List Int)
    (fdptr : Nat) : Except Fault (CStr × Nat) :=
  if special.isSome ∧ special ≠ some arg then .ok (arg, fdptr)
  else
    match fds[fdptr]? with
    | none => .error .oob
    | some fd => .ok (fd_path fd, fdptr + 1)

/-- The loop `while (process_embedded_io_arg(&argv[i], special, &fdptr)) ;` run for
at most `fuel` calls. -/
def embedded_while (special : CStr) (fds : List Int) : Nat → CStr → Nat →
    Except Fault (CStr × Nat)
  | 0, _, _ => .error .timeout
  | fuel + 1, arg, fdptr =>
    match process_embedded_io_arg arg special fds fdptr with
    | .error e => .error e
    | .ok (false, arg1, fdptr1) => .ok (arg1, fdptr1)
    | .ok (true, arg1, fdptr1) => embedded_while special fds fuel arg1 fdptr1

/-- The loop `for (i = optind + 1; i < argc; i++)` that substitutes `special` in
the listed arguments. Every successful call of `process_embedded_io_arg` reads
one descriptor, so `fds.length + 1` calls are never used up. -/
def substitute_args (embedded_args : Bool) (special : CStr) (fds : List Int) :
    List CStr → Nat → Except Fault (List CStr × Nat)
  | [], fdptr => .ok ([], fdptr)
  | a :: rest, fdptr =>
    match (if embedded_args then embedded_while special fds (fds.length + 1) a fdptr
           else process_standalone_io_arg a (some special) fds fdptr) with
    | .error e => .error e
    | .ok (a1, fdptr1) =>
      match substitute_args embedded_args special fds rest fdptr1 with
      | .error e => .error e
      | .ok (rest1, fdptr2) => .ok (a1 :: rest1, fdptr2)

/-- The loop `for (i = argc; i < argc + n; i++)` that fills the added cells. -/
def supply_args (fds : List Int) : Nat → Nat → Except Fault (List CStr × Nat)
  | 0, fdptr => .ok ([], fdptr)
  | n + 1, fdptr =>
    match process_standalone_io_arg [] none fds fdptr with
    | .error e => .error e
    | .ok (a1, fdptr1) =>
      match supply_args fds n fdptr1 with
      | .error e => .error e
      | .ok (rest1, fdptr2) => .ok (a1 :: rest1, fdptr2)

/-- The function `increment_channels(&var)`; `none` is `exit(1)`. -/
def increment_channels (var : Int) : Option Int :=
  if var = -1 then none else some (var + 1)

/-! ## getopt -/

/-- One argument of the form `-abc` read by `getopt` with the option string
`"+ei:Io:OSsx"`: the characters after the dash and the argument that follows
it, if any. The results are the `(ch, optarg)` pairs returned, up to the first
`'?'`, whether the following argument was taken as `optarg`, and whether `'?'`
was returned. -/
def getopt_cluster : CStr → Option CStr → List (Char × CStr) × Bool × Bool
  | [], _ => ([], false, false)
  | c :: cs, next =>
    if c ∈ ['e', 'I', 'O', 'S', 's', 'x'] then
      let r := getopt_cluster cs next
      ((c, []) :: r.1, r.2.1, r.2.2)
    else if c = 'i' ∨ c = 'o' then
      if cs ≠ [] then ([(c, cs)], false, false)
      else
        match next with
        | some a => ([(c, a)], true, false)
        | none => ([('?', [])], false, true)
    else ([('?', [])], false, true)

/-- All calls of `getopt(argc, argv, "+ei:Io:OSsx")` over the arguments from
`argv[optind]` on: the `(ch, optarg)` pairs returned up to the first `'?'`, and
the final `optind`. The leading `+` stops the scan at the first argument that
is not an option; `--` ends the options. `skip` says that the first listed
argument was already taken as an `optarg`. -/
def getopt_all : List CStr → Nat → Bool → List (Char × CStr) × Nat
  | [], optind, _ => ([], optind)
  | _ :: rest, optind, true => getopt_all rest optind false
  | a :: rest, optind, false =>
    if a = ['-', '-'] then ([], optind + 1)
    else
      match a with
      | '-' :: c :: cs =>
        match getopt_cluster (c :: cs) rest.head? with
        | (evs, _, true) => (evs, optind + 1)
        | (evs, true, false) =>
          let r := getopt_all rest (optind + 2) true
          (evs ++ r.1, r.2)
        | (evs, false, false) =>
          let r := getopt_all rest (optind + 1) false
          (evs ++ r.1, r.2)
      | _ => ([], optind)

/-! ## main -/

/-- The option-dependent variables of `main`. -/
structure Flags where
  nflags : Nat
  negotiation_flags : Bool
  ninputs : Int
  noutputs : Int
  xflag : Bool
  program_from_os : Bool
  program_supplied : Bool
  embedded_args : Bool
  stdin_as_arg : Bool
  stdout_as_arg : Bool
  supply_input_args : Bool
  supply_output_args : Bool
  deriving DecidableEq, Repr

/-- The initial values of the variables of `main`. -/
def init_flags : Flags where
  nflags := 0
  negotiation_flags := false
  ninputs := 1
  noutputs := 1
  xflag := false
  program_from_os := false
  program_supplied := false
  embedded_args := false
  stdin_as_arg := true
  stdout_as_arg := true
  supply_input_args := false
  supply_output_args := false

/-- The body of `switch (ch)` in `main`; `none` is a call of `usage()`. -/
def option_case (f : Flags) (ch : Char) (optarg : CStr) : Option Flags :=
  if ch = 'i' then
    let f := { f with nflags := f.nflags + 1, negotiation_flags := true }
    if optarg = ['0'] then some { f with ninputs := 0 }
    else if optarg = ['a'] then some { f with ninputs := -1, supply_input_args := true }
    else none
  else if ch = 'e' then
    some { f with embedded_args := true, negotiation_flags := true, nflags := f.nflags + 1 }
  else if ch = 'I' then
    some { f with stdin_as_arg := false, negotiation_flags := true, nflags := f.nflags + 1 }
  else if ch = 'o' then
    let f := { f with nflags := f.nflags + 1, negotiation_flags := true }
    if optarg = ['0'] then some { f with noutputs := 0 }
    else if optarg = ['a'] then some { f with noutputs := -1, supply_output_args := true }
    else none
  else if ch = 'O' then
    some { f with stdout_as_arg := false, negotiation_flags := true, nflags := f.nflags + 1 }
  else if ch = 'S' then
    if f.nflags ≠ 0 then none
    else some { f with nflags := f.nflags + 1, program_supplied := true }
  else if ch = 's' then
    if f.nflags ≠ 0 then none
    else some { f with nflags := f.nflags + 1, program_from_os := true }
  else if ch = 'x' then
    some { f with xflag := true }
  else none

/-- The loop `while ((ch = getopt(...)) != -1) switch (ch) ...` over the values
`getopt` returns; `none` is a call of `usage()`. -/
def parse_options : Flags → List (Char × CStr) → Option Flags
  | f, [] => some f
  | f, (ch, optarg) :: rest =>
    match option_case f ch optarg with
    | none => none
    | some f1 => parse_options f1 rest

/-- What `dgsh_negotiate` leaves in `ninputs`, `noutputs`, `input_fds` and
`output_fds`. -/
structure Negotiated where
  ninputs : Int
  noutputs : Int
  input_fds : List Int
  output_fds : List Int
  deriving DecidableEq, Repr

/-- The state of `main` at the call of `dgsh_negotiate`. -/
structure Setup where
  flags : Flags
  optind : Nat
  argv : List CStr
  guest_program_name : CStr
  deriving DecidableEq, Repr

/-- How `main` ends, or where it stands at the call of `dgsh_negotiate`. -/
inductive Before where
  /-- the function `usage()`: `exit(1)` -/
  | exit_usage
  /-- the function `increment_channels`: `exit(1)` -/
  | exit_channels
  /-- a failed `assert` -/
  | aborted
  /-- undefined behaviour, or a loop budget used up -/
  | fault (f : Fault)
  /-- the call `execvp(argv[optind], argv + optind)` under `-x` -/
  | exec (args : List CStr)
  /-- the call `dgsh_negotiate(..., guest_program_name, &ninputs, &noutputs, ...)` -/
  | negotiate (st : Setup)
  deriving DecidableEq, Repr

/-- The loop `for (p = arg; p = strstr(p, special); p += 2) increment_channels(&var)`,
run for at most `fuel` calls of `strstr`. -/
def scan_embedded (special : CStr) : Nat → CStr → Int → Except Before Int
  | 0, _, _ => .error (.fault .timeout)
  | fuel + 1, p, var =>
    match strstr p special with
    | none => .ok var
    | some off =>
      match increment_channels var with
      | none => .error .exit_channels
      | some var1 => scan_embedded special fuel (p.drop (off + 2)) var1

/-- The body of the scanning loop for one argument. Every pass of an embedded
loop moves `p` forward, so `arg.length + 1` calls are never used up. -/
def scan_arg (embedded_args : Bool) (arg : CStr) (ninputs noutputs : Int) :
    Except Before (Int × Int) :=
  if embedded_args then
    match scan_embedded marker_in (arg.length + 1) arg ninputs with
    | .error e => .error e
    | .ok ninputs1 =>
      match scan_embedded marker_out (arg.length + 1) arg noutputs with
      | .error e => .error e
      | .ok noutputs1 => .ok (ninputs1, noutputs1)
  else
    match (if arg = marker_in then increment_channels ninputs else some ninputs) with
    | none => .error .exit_channels
    | some ninputs1 =>
      match (if arg = marker_out then increment_channels noutputs else some noutputs) with
      | none => .error .exit_channels
      | some noutputs1 => .ok (ninputs1, noutputs1)

/-- The loop `for (i = optind + 1; i < argc; i++)` that counts the markers. -/
def scan_args (embedded_args : Bool) : List CStr → Int → Int → Except Before (Int × Int)
  | [], ninputs, noutputs => .ok (ninputs, noutputs)
  | a :: rest, ninputs, noutputs =>
    match scan_arg embedded_args a ninputs noutputs with
    | .error e => .error e
    | .ok (ninputs1, noutputs1) => scan_args embedded_args rest ninputs1 noutputs1

/-- The test `argc >= 2 && argv[1][0] == '-' && tolower(argv[1][1]) == 's'`. -/
def is_shebang_arg (argv : List CStr) : Bool :=
  match argv with
  | _ :: ('-' :: c :: _) :: _ => c = 's' || c = 'S'
  | _ => false

/-- The first part of `main`: the shebang splitting, the option loop, the checks
after it and the processing of the program name. The result is the flags,
`optind`, the vector and `argv[optind]`. `os_splits` stands for
`OS_SPLITS_SHEBANG_ARGS`. The cell after the vector, which
`remove_os_script_path` reads, is taken to hold `NULL`. -/
def main_options (os_splits : Bool) (argv0 : List CStr) :
    Except Before (Flags × Nat × List CStr × CStr) :=
  match (if !os_splits && is_shebang_arg argv0
         then (split_argv argv0.length (mkArgv argv0)).map (fun r => argv_strings r.1 r.2)
         else some argv0) with
  | none => .error .aborted
  | some argv1 =>
    let g := getopt_all (argv1.drop 1) 1 false
    match parse_options init_flags g.1 with
    | none => .error .exit_usage
    | some f =>
      let optind := g.2
      if optind ≥ argv1.length then .error .exit_usage
      else if f.xflag ∧ f.negotiation_flags then .error .exit_usage
      else
        let argv2 :=
          if f.program_supplied ∧ argv1.length > optind then
            let r := remove_os_script_path (mkArgv argv1) argv1.length optind none
            argv_strings r.2 r.1
          else if f.program_from_os then
            match argv1[optind]? with
            | some s => argv1.set optind (remove_absolute_path s)
            | none => argv1
          else argv1
        match argv2[optind]? with
        | none => .error (.fault .null)
        | some prog => .ok (f, optind, argv2, prog)

/-- The function `main` up to the call of `dgsh_negotiate`. -/
def main_before_negotiate (os_splits : Bool) (argv0 : List CStr) : Before :=
  match main_options os_splits argv0 with
  | .error e => e
  | .ok (f, optind, argv2, prog) =>
    if f.xflag then .exec (argv2.drop optind)
    else
      match scan_args f.embedded_args (argv2.drop (optind + 1)) f.ninputs f.noutputs with
      | .error e => e
      | .ok (ninputs, noutputs) =>
        let ninputs := if f.stdin_as_arg ∧ ninputs > 1 then ninputs - 1 else ninputs
        let noutputs := if f.stdout_as_arg ∧ noutputs > 1 then noutputs - 1 else noutputs
        .negotiate
          { flags := { f with ninputs := ninputs, noutputs := noutputs }
            optind := optind
            argv := argv2
            guest_program_name := remove_absolute_path prog }

/-- The number of cells of the array `argv` points to when `dgsh_negotiate` is
called. The vector the system passes and the block `split_argv` allocates have
`argc + 1` cells, the last one holding `NULL`; `remove_os_script_path` lowers
`argc` by one in the same array, which then has one cell more. -/
def argv_cells (st : Setup) : Nat :=
  st.argv.length + 1 + (if st.flags.program_supplied then 1 else 0)

/-- The rewriting of one direction (the input one is lines 501-525 of the
source, the output one lines 526-550): `as_arg` is `stdin_as_arg`, `supply` is
`supply_input_args`, `n` the count and `fds` the descriptors left by the
negotiation, `cells` the number of cells of the array `argv` points to on
entry. The result is the new vector and the final descriptor index.
In the supplying branch the call `memset(argv + argc, 0, (n + 1) * sizeof(char *))`
comes before `argv = nargv` and so writes to the old array: when its `n + 1`
cells do not fit behind `argv + argc` the store leaves the array. -/
def rewrite_direction (as_arg supply embedded_args : Bool) (special : CStr) (optind : Nat)
    (argv : List CStr) (n : Int) (fds : List Int) (cells : Nat) :
    Except Fault (List CStr × Nat) :=
  let fdptr := if as_arg then 0 else 1
  if supply then
    let n := if as_arg then n else n - 1
    if n + 1 < 0 then .error .oob
    else if argv.length + (n + 1).toNat > cells then .error .oob
    else if n < 0 then .ok (argv.take (argv.length - 1), fdptr)
    else
      match supply_args fds n.toNat fdptr with
      | .error e => .error e
      | .ok (added, fdptr1) => .ok (argv ++ added, fdptr1)
  else
    match substitute_args embedded_args special fds (argv.drop (optind + 1)) fdptr with
    | .error e => .error e
    | .ok (rest, fdptr1) => .ok (argv.take (optind + 1) ++ rest, fdptr1)

/-- The input half of the rewriting in `main`. -/
def rewrite_inputs (st : Setup) (r : Negotiated) : Except Fault (List CStr × Nat) :=
  rewrite_direction st.flags.stdin_as_arg st.flags.supply_input_args st.flags.embedded_args
    marker_in st.optind st.argv r.ninputs r.input_fds (argv_cells st)

/-- The output half of the rewriting in `main`, on the vector the input half
left. When the input half supplied arguments, `argv` points to the block it
allocated, which has `argc + 1` cells; otherwise to the array `main` had at the
negotiation. -/
def rewrite_outputs (st : Setup) (argv : List CStr) (r : Negotiated) :
    Except Fault (List CStr × Nat) :=
  rewrite_direction st.flags.stdout_as_arg st.flags.supply_output_args st.flags.embedded_args
    marker_out st.optind argv r.noutputs r.output_fds
    (if st.flags.supply_input_args then argv.length + 1 else argv_cells st)

/-- The function `main` after `dgsh_negotiate` has returned: the vector
`argv + optind` passed to `execvp`. -/
def main_after_negotiate (st : Setup) (r : Negotiated) : Except Fault (List CStr) :=
  match rewrite_inputs st r with
  | .error e => .error e
  | .ok (argv1, _) =>
    match rewrite_outputs st argv1 r with
    | .error e => .error e
    | .ok (argv2, _) => .ok (argv2.drop st.optind)

/-- The function `main`, with `dgsh_negotiate` as a parameter: the title and the
requested counts go in, the resolved counts and descriptors come out (the
library ends the process itself when the negotiation fails). The call
`remove_from_path("libexec/dgsh")` at the start changes the environment only and
is `remove_from_path` above. -/
def main (os_splits : Bool) (dgsh_negotiate : CStr → Int → Int → Negotiated)
    (argv : List CStr) : Before :=
  match main_before_negotiate os_splits argv with
  | .negotiate st =>
    match main_after_negotiate st
        (dgsh_negotiate st.guest_program_name st.flags.ninputs st.flags.noutputs) with
    | .ok args => .exec args
    | .error e => .fault e
  | b => b

/-! ## The top-level variant (`dgsh-wrap.c` at the top of the source tree)

The arrays of this `main` are `char *exec_argv[argc - 1]` and
`char *fds[argc - 2]`; a store behind the last cell of either is a `Fault.oob`.
The diagnostics (`DPRINTF`) are left out. -/

namespace Toplevel

/-- The prefix `"/proc/self/fd/"`. -/
def proc_fd : CStr := "/proc/self/fd/".toList

/-- The result of `sprintf("/proc/self/fd/%d", fd)`. -/
def proc_path (fd : Int) : CStr := proc_fd ++ fmt_d fd

/-- The state of `main` at the call of `dgsh_negotiate`: `none` is a `NULL`
pointer `ninputs` or `noutputs`. -/
structure Setup where
  argc : Nat
  ninputs : Option Int
  noutputs : Option Int
  exec_argv : List CStr
  guest_program_name : CStr
  negotiation_title : CStr
  deriving DecidableEq, Repr

/-- How `main` ends, or where it stands at the call of `dgsh_negotiate`. -/
inductive Before where
  /-- the function `usage()`: `exit(1)` -/
  | exit_usage
  /-- undefined behaviour, or a loop budget used up -/
  | fault (f : Fault)
  /-- the call `dgsh_negotiate(negotiation_title, ninputs, noutputs, &input_fds, NULL)` -/
  | negotiate (st : Setup)
  deriving DecidableEq, Repr

/-- The content of `negotiation_title[100]` after the `snprintf` calls: the
program name and the first two entries of `exec_argv` behind it when
`argc >= 5`, the first one when `argc == 4`, the program name alone otherwise,
cut to 99 characters. An entry that is `NULL` where `%s` needs a string is a
fault. -/
def make_title (argc : Nat) (guest_program_name : CStr) (exec_argv : List CStr) :
    Except Fault CStr :=
  if argc ≥ 5 then
    match exec_argv[1]?, exec_argv[2]? with
    | some e1, some e2 => .ok ((guest_program_name ++ ' ' :: e1 ++ ' ' :: e2).take 99)
    | _, _ => .error .null
  else if argc = 4 then
    match exec_argv[1]? with
    | some e1 => .ok ((guest_program_name ++ ' ' :: e1).take 99)
    | none => .error .null
  else .ok (guest_program_name.take 99)

/-- The pointer `strstr(s, "<|")`, as the rest of `s` from the match on. -/
def strstr_ptr (s : CStr) : Option CStr := (strstr s marker_in).map (fun off => s.drop off)

/-- The loop `while (m) { (*ninputs)++; m += 2; m = strstr(m, "<|"); }` of the
counting pass, run for at most `fuel` passes. -/
def count_while : Nat → Option CStr → Int → Except Fault Int
  | _, none, n => .ok n
  | 0, some _, _ => .error .timeout
  | fuel + 1, some m, n => count_while fuel (strstr_ptr (m.drop 2)) (n + 1)

/-- The body of the counting loop for one entry of `exec_argv`. When `strcmp`
finds the entry equal to `"<|"`, the `||` leaves `m` at `NULL`. -/
def count_arg (arg : CStr) (ninputs : Option Int) : Except Fault (Option Int) :=
  let m := if arg = marker_in then none else strstr_ptr arg
  if arg = marker_in ∨ m.isSome then
    let n := match ninputs with
      | none => 1
      | some n => n
    let n := if m.isNone then n + 1 else n
    match count_while (arg.length + 1) m n with
    | .error e => .error e
    | .ok n1 => .ok (some n1)
  else .ok ninputs

/-- The counting loop `for (k = 0; exec_argv[k] != NULL; k++)`. -/
def count_args : List CStr → Option Int → Except Fault (Option Int)
  | [], ninputs => .ok ninputs
  | a :: rest, ninputs =>
    match count_arg a ninputs with
    | .error e => .error e
    | .ok ninputs1 => count_args rest ninputs1

/-- The function `main` up to the call of `dgsh_negotiate`. A missing `argv[1]`,
a program name that is `NULL`, and a `NULL` argument handed to `strncmp` are
faults. The loop that fills `exec_argv` and the store of `NULL` behind it write
the cells `0 .. exec_argv.length` of an array of `argc - 1` cells. -/
def main_before_negotiate (argv : List CStr) : Before :=
  match argv with
  | a0 :: a1 :: _ =>
    let flags : Option (Option Int × Option Int × Nat × Option CStr) :=
      if a1.head? = some '-' then
        if a1[1]? = some 'd' then
          some (some 0, none, 2, if a1[2]? = some ' ' then some (a1.drop 3) else none)
        else if a1[1]? = some 'm' then
          some (none, some 0, 2, if a1[2]? = some ' ' then some (a1.drop 3) else none)
        else none
      else some (none, none, 1, none)
    match flags with
    | none => .exit_usage
    | some (ninputs, noutputs, pos, guest) =>
      let named : Option (CStr × Nat) :=
        match guest with
        | some g => some (g, pos)
        | none => (argv[pos]?).map (fun g => (g, pos + 1))
      match named with
      | none => .fault .null
      | some (guest_program_name, pos) =>
        let compare_chars : Int := (a0.length : Int) - 9
        let skip : Option Bool :=
          if compare_chars > 0 then
            (argv[pos]?).map (fun a => a.take compare_chars.toNat = a0.take compare_chars.toNat)
          else some false
        match skip with
        | none => .fault .null
        | some skip =>
          let pos := if skip then pos + 1 else pos
          let exec_argv := guest_program_name :: argv.drop pos
          if exec_argv.length + 1 > argv.length - 1 then .fault .oob
          else
            match count_args exec_argv ninputs with
            | .error e => .fault e
            | .ok ninputs1 =>
              match make_title argv.length guest_program_name exec_argv with
              | .error e => .fault e
              | .ok negotiation_title =>
                .negotiate
                  { argc := argv.length
                    ninputs := ninputs1
                    noutputs := noutputs
                    exec_argv := exec_argv
                    guest_program_name := guest_program_name
                    negotiation_title := negotiation_title }
  | _ => .fault .null

/-- The loop `while (m)` of the substituting pass, run for at most `fuel` passes:
`base` is the string at `argv_end` (the entry itself in the first pass), `m` the
offset of the match in it, `acc` the content of `fds[k]`, `n` the index of the
next descriptor. A path that does not fit `proc_fd[20]` is a fault. -/
def subst_while (input_fds : List Int) : Nat → CStr → Option Nat → CStr → Nat →
    Except Fault (CStr × Nat)
  | _, _, none, acc, n => .ok (acc, n)
  | 0, _, some _, _, _ => .error .timeout
  | fuel + 1, base, some off, acc, n =>
    match input_fds[n]? with
    | none => .error .oob
    | some fd =>
      if (proc_path fd).length ≥ 20 then .error .oob
      else
        let argv_start := base.take off
        let argv_end := base.drop (off + 2)
        let acc1 :=
          if acc.length > 0 then acc ++ argv_start ++ proc_path fd
          else argv_start ++ proc_path fd
        let m1 := strstr argv_end marker_in
        let acc2 := if m1.isNone then acc1 ++ argv_end else acc1
        subst_while input_fds fuel argv_end m1 acc2 (n + 1)

/-- The body of the substituting loop for the entry `exec_argv[k]`; `ninputs` is
the count the negotiation left and `fds_cells` the number of cells of the array
`fds`. For an entry with a marker the pointer `malloc` returns is stored in
`fds[k]`: with `k` behind the array the store is a fault. A result that does
not fit the `size` bytes of the block is a fault. -/
def subst_arg (input_fds : List Int) (ninputs : Int) (fds_cells : Nat) (arg : CStr)
    (k n : Nat) : Except Fault (CStr × Nat) :=
  let m := if arg = marker_in then none else strstr arg marker_in
  if arg = marker_in ∨ m.isSome then
    if k ≥ fds_cells then .error .oob
    else
      let size : Int := (arg.length : Int) + 20 * ninputs
      let res : Except Fault (CStr × Nat) :=
        if m.isNone then
          match input_fds[n]? with
          | none => .error .oob
          | some fd => .ok (proc_path fd, n + 1)
        else subst_while input_fds (arg.length + 1) arg m [] n
      match res with
      | .error e => .error e
      | .ok (s, n1) => if (s.length : Int) + 1 > size then .error .oob else .ok (s, n1)
  else .ok (arg, n)

/-- The substituting loop `for (k = 0; exec_argv[k] != NULL; k++)`, from the
entry `k` on. -/
def subst_args (input_fds : List Int) (ninputs : Int) (fds_cells : Nat) :
    List CStr → Nat → Nat → Except Fault (List CStr × Nat)
  | [], _, n => .ok ([], n)
  | a :: rest, k, n =>
    match subst_arg input_fds ninputs fds_cells a k n with
    | .error e => .error e
    | .ok (a1, n1) =>
      match subst_args input_fds ninputs fds_cells rest (k + 1) n1 with
      | .error e => .error e
      | .ok (rest1, n2) => .ok (a1 :: rest1, n2)

/-- The function `main` after `dgsh_negotiate` has returned with the count
`ninputs` and the descriptors `input_fds`: the vector `exec_argv` passed to
`execv` or `execvp`. The array `fds` has `argc - 2` cells. -/
def main_after_negotiate (st : Setup) (ninputs : Int) (input_fds : List Int) :
    Except Fault (List CStr) :=
  match subst_args input_fds ninputs (st.argc - 2) st.exec_argv 0 1 with
  | .error e => .error e
  | .ok (exec_argv, _) => .ok exec_argv

end Toplevel

/-! ## The key-value store client (`kvstore.c`)

The diagnostics (`DPRINTF`, the messages of `err` and `errx`) are left out. -/

namespace Kvstore

/-- The function `isspace` in the C locale. -/
def isspace (c : Char) : Bool :=
  c = ' ' || c = '\t' || c = '\n' || c = '\x0b' || c = '\x0c' || c = '\r'

/-- The value of the decimal digits at the start of a string, after the value
`acc` of the digits already read. -/
def digits_value : CStr → Nat → Nat
  | [], acc => acc
  | c :: cs, acc => if c.isDigit then digits_value cs (10 * acc + (c.toNat - '0'.toNat)) else acc

/-- The function `strtol(s, NULL, 10)` with a 64-bit `long`: white space, an
optional sign, digits; a value out of range is `LONG_MIN` or `LONG_MAX`. -/
def strtol (s : CStr) : Int :=
  match s.dropWhile isspace with
  | '-' :: rest => max (-(2 : Int) ^ 63) (-(digits_value rest 0 : Int))
  | '+' :: rest => min ((2 : Int) ^ 63 - 1) (digits_value rest 0 : Int)
  | rest => min ((2 : Int) ^ 63 - 1) (digits_value rest 0 : Int)

/-- The conversion to a 32-bit `int`, which keeps the low 32 bits. -/
def to_int (v : Int) : Int := (v + 2 ^ 31) % 2 ^ 32 - 2 ^ 31

/-- The function `atoi(s)`, which is `(int) strtol(s, NULL, 10)`. -/
def atoi (s : CStr) : Int := to_int (strtol s)

/-- The values of `errno` that `write_command` tells apart after a failed
`connect`: `ENOENT`, `ECONNREFUSED`, and any other value. -/
inductive Errno where
  | ENOENT
  | ECONNREFUSED
  | other (code : Int)
  deriving DecidableEq, Repr

/-- What the system answers to the calls `write_command` makes. -/
structure World where
  /-- the value of `getenv("KVSTORE_RETRY_LIMIT")` -/
  env_retry_limit : Option CStr
  /-- the result of `socket(AF_UNIX, SOCK_STREAM, 0)`: `none` is `-1` -/
  socket : Option Int
  /-- the result of the `n`-th call of `connect` (from 0): `none` is success,
  `some e` is `-1` with `errno` set to `e` -/
  connect : Nat → Option Errno
  /-- whether `write(s, &cmd, 1)` succeeds -/
  write_ok : Bool

/-- How `write_command` ends. -/
inductive Outcome where
  /-- the calls `err(status, ...)` and `errx(status, ...)`: `exit(status)` -/
  | exit (status : Nat)
  /-- the statement `return s` -/
  | returned (s : Int)
  /-- the iteration budget of the loop was used up -/
  | timeout
  deriving DecidableEq, Repr

/-- A run of `write_command`: how it ends, the calls of `connect` and of
`sleep(1)` it made, the value it leaves in the global `retry_limit`, and the
byte it wrote to the socket. -/
structure Run where
  outcome : Outcome
  connects : Nat
  sleeps : Nat
  retry_limit : Int
  written : Option Char
  deriving DecidableEq, Repr

/-- The size `sizeof(remote.sun_path)` of `struct sockaddr_un` on Linux. -/
def sun_path_size : Nat := 108

/-- The global `retry_limit` after the first statement of `write_command`. -/
def read_retry_limit (env_retry_limit : Option CStr) (retry_limit : Int) : Int :=
  match env_retry_limit with
  | some v => atoi v
  | none => retry_limit

/-- The loop from the label `again` to `goto again`, run for at most `fuel`
calls of `connect`: `counter` is the variable of that name, `n` the number of
calls of `connect` made so far. The result is whether the socket is connected,
and the numbers of calls of `connect` and of `sleep`; `none` when the budget is
used up. `counter++` is evaluated only when the two conditions before it hold,
and wraps at 32 bits. -/
def connect_loop (connect : Nat → Option Errno) (retry_connection : Bool) (retry_limit : Int) :
    Nat → Int → Nat → Option (Bool × Nat × Nat)
  | 0, _, _ => none
  | fuel + 1, counter, n =>
    match connect n with
    | none => some (true, n + 1, n)
    | some e =>
      if retry_connection ∧ (e = .ENOENT ∨ e = .ECONNREFUSED) ∧ counter < retry_limit then
        connect_loop connect retry_connection retry_limit fuel (to_int (counter + 1)) (n + 1)
      else some (false, n + 1, n)

/-- The function `write_command(name, cmd, retry_connection)`, entered with the
global `retry_limit`. The loop is given `retry_limit + 1` calls of `connect`
(one when `retry_limit` is negative), which it never uses up. -/
def write_command (w : World) (retry_limit : Int) (name : CStr) (cmd : Char)
    (retry_connection : Bool) : Run :=
  let retry_limit := read_retry_limit w.env_retry_limit retry_limit
  match w.socket with
  | none => ⟨.exit 1, 0, 0, retry_limit, none⟩
  | some s =>
    if name.length ≥ sun_path_size - 1 then ⟨.exit 6, 0, 0, retry_limit, none⟩
    else
      match connect_loop w.connect retry_connection retry_limit (retry_limit.toNat + 1) 0 0 with
      | none => ⟨.timeout, 0, 0, retry_limit, none⟩
      | some (false, connects, sleeps) => ⟨.exit 2, connects, sleeps, retry_limit, none⟩
      | some (true, connects, sleeps) =>
        if w.write_ok then ⟨.returned s, connects, sleeps, retry_limit, some cmd⟩
        else ⟨.exit 3, connects, sleeps, retry_limit, none⟩

end Kvstore

/-! ## Definitions used to state the properties -/

/-- An argument holds a marker: in standalone mode it is exactly the marker
string, in embedded mode the marker string occurs in it. -/
def arg_has_marker (embedded_args : Bool) (special arg : CStr) : Bool :=
  if embedded_args then (strstr arg special).isSome else arg == special

/-- One of the arguments holds a marker. -/
def has_marker (embedded_args : Bool) (special : CStr) (args : List CStr) : Bool :=
  args.any (arg_has_marker embedded_args special)

/-- The characters a descriptor path is made of. -/
def fd_chars : List Char :=
  ['/', 'd', 'e', 'v', 'f', '-', '0', '1', '2', '3', '4', '5', '6', '7', '8', '9']

/-- The count passed to the negotiation when the initial count 1 met `k` markers
and the standard stream is supplied as an argument. -/
def implicit_adjust (k : Nat) : Int := if 1 ≤ k then k else 1

/-- The vector `main` passes to `getopt`: the one it was given, or the result of
`split_argv` on it; `none` when `split_argv` aborts. -/
def main_split (os_splits : Bool) (argv0 : List CStr) : Option (List CStr) :=
  if !os_splits && is_shebang_arg argv0
  then (split_argv argv0.length (mkArgv argv0)).map (fun r => argv_strings r.1 r.2)
  else some argv0

/-- The flags of an invocation: the `(ch, optarg)` pairs `getopt` returns in
`main`, in order. -/
def main_events (os_splits : Bool) (argv0 : List CStr) : List (Char × CStr) :=
  match main_split os_splits argv0 with
  | none => []
  | some argv1 => (getopt_all (argv1.drop 1) 1 false).1

/-- The number of occurrences of `needle` in a string: the positions at which it
starts. -/
def occurrences (needle : CStr) : CStr → Nat
  | [] => 0
  | c :: cs => (if needle.isPrefixOf (c :: cs) then 1 else 0) + occurrences needle cs

/-- The number of marker occurrences in the arguments: without `-e` the
arguments that are exactly the marker, with `-e` the occurrences of the marker
in all the arguments. -/
def marker_total (embedded_args : Bool) (special : CStr) (args : List CStr) : Nat :=
  if embedded_args then (args.map (occurrences special)).sum else args.count special

/-- The count of a direction after the option loop: that of the last flag `ch`
given (`0` for the argument `"0"`, `-1` otherwise), or `dflt` when none was
given. -/
def last_count (ch : Char) (dflt : Int) : List (Char × CStr) → Int
  | [] => dflt
  | (c, optarg) :: rest =>
    last_count ch (if c = ch then (if optarg = ['0'] then 0 else -1) else dflt) rest

/-- The pieces of a string between the successive occurrences of a marker, found
from the left; `fuel` bounds the number of occurrences looked for. -/
def pieces_fuel (special : CStr) : Nat → CStr → List CStr
  | 0, s => [s]
  | fuel + 1, s =>
    match strstr s special with
    | none => [s]
    | some off => s.take off :: pieces_fuel special fuel (s.drop (off + special.length))

/-- The pieces of a string between the occurrences of a marker. -/
def pieces (special s : CStr) : List CStr := pieces_fuel special s.length s

/-- An argument with the markers between its pieces replaced by the paths
`pfx N` of the descriptors `N` in `ds`, in order. -/
def fill_arg (pfx special arg : CStr) (ds : List Int) : CStr :=
  match pieces special arg with
  | [] => []
  | t0 :: ts => t0 ++ (List.zipWith (fun d t => pfx ++ fmt_d d ++ t) ds ts).flatten

/-- The arguments with every marker occurrence replaced by the path of the next
descriptor of `ds`, from the first argument to the last and from left to right
in each. -/
def fill_args (pfx special : CStr) : List CStr → List Int → List CStr
  | [], _ => []
  | a :: rest, ds =>
    fill_arg pfx special a ds
      :: fill_args pfx special rest (ds.drop ((pieces special a).length - 1))

/-! ## Facts about `strstr` -/

theorem strstr_le_length : ∀ (hay needle : CStr) (p : Nat), strstr hay needle = some p → p ≤ hay.length
  | [], needle, p, h => by
    unfold strstr at h
    split at h <;> simp_all
  | c :: cs, needle, p, h => by
    unfold strstr at h
    split at h
    · simp at h; subst h; simp
    · cases hr : strstr cs needle with
      | none => simp [hr] at h
      | some q =>
        simp [hr] at h
        have := strstr_le_length cs needle q hr
        simp; omega

theorem strstr_found : ∀ (hay needle : CStr) (p : Nat), strstr hay needle = some p →
    needle <+: hay.drop p
  | [], needle, p, h => by
    unfold strstr at h
    split at h <;> simp_all
  | c :: cs, needle, p, h => by
    unfold strstr at h
    split at h
    · rename_i hp
      simp at h; subst h
      simpa [List.isPrefixOf_iff_prefix] using hp
    · cases hr : strstr cs needle with
      | none => simp [hr] at h
      | some q =>
        simp [hr] at h
        subst h
        simpa using strstr_found cs needle q hr

theorem strstr_first : ∀ (hay needle : CStr) (p : Nat), strstr hay needle = some p →
    ∀ q, q < p → ¬ needle <+: hay.drop q
  | [], needle, p, h => by
    unfold strstr at h
    split at h
    · simp at h; subst h; intro q hq; omega
    · simp at h
  | c :: cs, needle, p, h => by
    unfold strstr at h
    split at h
    · simp at h; subst h; intro q hq; omega
    · rename_i hp
      cases hr : strstr cs needle with
      | none => simp [hr] at h
      | some r =>
        simp [hr] at h
        subst h
        intro q hq
        cases q with
        | zero => simpa [List.isPrefixOf_iff_prefix] using hp
        | succ q =>
          simpa using strstr_first cs needle r hr q (by omega)

theorem strstr_none : ∀ (hay needle : CStr), strstr hay needle = none →
    ∀ q, ¬ needle <+: hay.drop q
  | [], needle, h => by
    unfold strstr at h
    split at h
    · simp at h
    · intro q; simpa using ‹¬ needle = []›
  | c :: cs, needle, h => by
    unfold strstr at h
    split at h
    · simp at h
    · rename_i hp
      cases hr : strstr cs needle with
      | some r => simp [hr] at h
      | none =>
        intro q
        cases q with
        | zero => simpa [List.isPrefixOf_iff_prefix] using hp
        | succ q => simpa using strstr_none cs needle hr q

theorem strstr_eq_some_of (hay needle : CStr) (p : Nat) (hp : needle <+: hay.drop p)
    (hfirst : ∀ q, q < p → ¬ needle <+: hay.drop q) :
    strstr hay needle = some p := by
  cases h : strstr hay needle with
  | none => exact absurd hp (strstr_none hay needle h p)
  | some r =>
    have h1 := strstr_found hay needle r h
    have h2 := strstr_first hay needle r h
    rcases Nat.lt_trichotomy r p with hlt | heq | hgt
    · exact absurd h1 (hfirst r hlt)
    · rw [heq]
    · exact absurd hp (h2 p hgt)

theorem strstr_eq_none_of (hay needle : CStr) (h : ∀ q, ¬ needle <+: hay.drop q) :
    strstr hay needle = none := by
  cases hs : strstr hay needle with
  | none => rfl
  | some r => exact absurd (strstr_found hay needle r hs) (h r)

/-! ## remove_from_path -/

theorem forward_to_colon_le : ∀ (s : CStr), forward_to_colon s ≤ s.length
  | [] => by simp [forward_to_colon]
  | c :: cs => by
    have := forward_to_colon_le cs
    unfold forward_to_colon
    split
    · exact Nat.zero_le _
    · simp only [List.length_cons]
      omega

theorem forward_to_colon_no_colon : ∀ (s : CStr), ':' ∉ s → forward_to_colon s = s.length
  | [], _ => by simp [forward_to_colon]
  | c :: cs, h => by
    have hc : c ≠ ':' := fun e => h (by simp [e])
    have ht : ':' ∉ cs := fun e => h (by simp [e])
    simp [forward_to_colon, hc, forward_to_colon_no_colon cs ht]
    omega

/-- When the first occurrence of `string` lies in the last entry of `PATH`, the
value is cut at some point at or before the occurrence. -/
theorem remove_from_path_last (string path : CStr) (p : Nat)
    (hp : strstr path string = some p) (hlast : ':' ∉ path.drop p) :
    ∃ start, start ≤ p ∧ remove_from_path string (some path) = some (path.take start) := by
  have hle := strstr_le_length path string p hp
  have hf := forward_to_colon_no_colon _ hlast
  refine ⟨p - back_to_colon (path.take p).reverse (path[p]?), Nat.sub_le _ _, ?_⟩
  have hend : path[p + forward_to_colon (path.drop p)]? = none := by
    rw [hf, List.getElem?_eq_none_iff]
    simp; omega
  simp only [remove_from_path, hp, hend, if_true]

theorem remove_from_path_no_match (string path : CStr) (h : strstr path string = none) :
    remove_from_path string (some path) = some path := by
  simp [remove_from_path, h]

theorem strstr_take_none (string path : CStr) (p start : Nat)
    (hp : strstr path string = some p) (hs : start ≤ p) (hne : string ≠ []) :
    strstr (path.take start) string = none := by
  apply strstr_eq_none_of
  intro q hq
  have hfirst := strstr_first path string p hp
  have hpre : (path.take start).drop q <+: path.drop q := by
    rw [List.drop_take]
    exact List.take_prefix _ _
  by_cases hqp : q < p
  · exact hfirst q hqp (hq.trans hpre)
  · have : (path.take start).drop q = [] := by
      apply List.drop_eq_nil_of_le
      simp; omega
    rw [this] at hq
    exact hne (List.prefix_nil.mp hq)

/-! ## Descriptor paths hold no marker character -/

theorem digitChar_mem (n : Nat) : Nat.digitChar (n % 10) ∈ fd_chars := by
  have h : n % 10 < 10 := Nat.mod_lt _ (by decide)
  interval_cases (n % 10) <;> decide

theorem toDigitsCore_mem : ∀ (f n : Nat) (acc : List Char), (∀ c ∈ acc, c ∈ fd_chars) →
    ∀ c ∈ Nat.toDigitsCore 10 f n acc, c ∈ fd_chars
  | 0, _, acc, h => by simpa [Nat.toDigitsCore] using h
  | f + 1, n, acc, h => by
    have hacc : ∀ c ∈ Nat.digitChar (n % 10) :: acc, c ∈ fd_chars := by
      intro c hc
      rcases List.mem_cons.mp hc with rfl | hc
      · exact digitChar_mem n
      · exact h c hc
    simp only [Nat.toDigitsCore]
    split
    · exact hacc
    · exact toDigitsCore_mem f (n / 10) _ hacc

theorem fmt_d_mem (fd : Int) : ∀ c ∈ fmt_d fd, c ∈ fd_chars := by
  cases fd with
  | ofNat n =>
    exact toDigitsCore_mem _ _ [] (by simp)
  | negSucc n =>
    intro c hc
    rcases List.mem_cons.mp hc with rfl | hc
    · decide
    · exact toDigitsCore_mem _ _ [] (by simp) c hc

theorem fd_path_mem (fd : Int) : ∀ c ∈ fd_path fd, c ∈ fd_chars := by
  intro c hc
  rcases List.mem_append.mp hc with h | h
  · have hd : ∀ c ∈ dev_fd, c ∈ fd_chars := by decide
    exact hd c h
  · exact fmt_d_mem fd c h

theorem fd_path_ne_nil (fd : Int) : fd_path fd ≠ [] := by
  simp [fd_path, dev_fd]

theorem fd_path_head (fd : Int) : (fd_path fd).head? = some '/' := by
  simp [fd_path, dev_fd]

/-! ## Two-character needles -/

theorem strstr_pair_none_of_not_mem (x y : Char) : ∀ (s : CStr), x ∉ s → strstr s [x, y] = none
  | [], _ => by simp [strstr]
  | c :: cs, h => by
    have hc : x ≠ c := fun e => h (by simp [e])
    have ht : x ∉ cs := fun e => h (by simp [e])
    simp [strstr, List.isPrefixOf, hc, strstr_pair_none_of_not_mem x y cs ht]

theorem strstr_pair_cons_none (x y c : Char) (s : CStr) (h : strstr (c :: s) [x, y] = none) :
    ¬ (x = c ∧ s.head? = some y) ∧ strstr s [x, y] = none := by
  unfold strstr at h
  split at h
  · simp at h
  · rename_i hp
    constructor
    · intro ⟨h1, h2⟩
      apply hp
      cases s with
      | nil => simp at h2
      | cons d ds =>
        simp at h2
        simp [List.isPrefixOf, h1, h2]
    · simpa using h

/-- The needle `[x, y]` is found right after a part that does not hold it. -/
theorem strstr_pair_append (x y : Char) (hxy : x ≠ y) (rest : CStr) : ∀ (a : CStr),
    strstr a [x, y] = none → strstr (a ++ x :: y :: rest) [x, y] = some a.length
  | [], _ => by simp [strstr, List.isPrefixOf]
  | c :: a, h => by
    obtain ⟨h1, h2⟩ := strstr_pair_cons_none x y c a h
    have ih := strstr_pair_append x y hxy rest a h2
    have hp : ¬ List.isPrefixOf [x, y] (c :: (a ++ x :: y :: rest)) = true := by
      intro hp
      cases a with
      | nil =>
        simp [List.isPrefixOf] at hp
        exact hxy hp.2.symm
      | cons d ds =>
        simp [List.isPrefixOf] at hp
        exact h1 ⟨hp.1, by simp [hp.2]⟩
    show strstr (c :: (a ++ x :: y :: rest)) [x, y] = _
    rw [strstr, if_neg hp, ih]
    rfl

/-- Joining two parts that do not hold `[x, y]` gives a part that does not hold
it, unless the first ends in `x` and the second starts with `y`. -/
theorem strstr_pair_append_none (x y : Char) (b : CStr) (hb : strstr b [x, y] = none) :
    ∀ (a : CStr), strstr a [x, y] = none → (a.getLast? ≠ some x ∨ b.head? ≠ some y) →
      strstr (a ++ b) [x, y] = none
  | [], _, _ => by simpa using hb
  | c :: a, h, hj => by
    obtain ⟨h1, h2⟩ := strstr_pair_cons_none x y c a h
    have ih : strstr (a ++ b) [x, y] = none := by
      cases a with
      | nil => simpa using hb
      | cons d ds =>
        apply strstr_pair_append_none x y b hb (d :: ds) h2
        simpa [List.getLast?_cons_cons] using hj
    have hp : ¬ List.isPrefixOf [x, y] (c :: (a ++ b)) = true := by
      intro hp
      cases a with
      | nil =>
        cases b with
        | nil => simp [List.isPrefixOf] at hp
        | cons e es =>
          simp [List.isPrefixOf] at hp
          rcases hj with hj | hj
          · simp [hp.1] at hj
          · simp [hp.2] at hj
      | cons d ds =>
        simp [List.isPrefixOf] at hp
        exact h1 ⟨hp.1, by simp [hp.2]⟩
    show strstr (c :: (a ++ b)) [x, y] = _
    rw [strstr, if_neg hp, ih]
    rfl

/-! ## The embedded replacement loop -/

theorem prefix_drop_cons {d : Int} {ds fds : List Int} {p : Nat} (h : d :: ds <+: fds.drop p) :
    fds[p]? = some d ∧ ds <+: fds.drop (p + 1) := by
  obtain ⟨r, hr⟩ := h
  have hlt : p < fds.length := by
    by_contra hn
    rw [List.drop_eq_nil_of_le (by omega)] at hr
    simp at hr
  have hd : fds.drop p = fds[p] :: fds.drop (p + 1) := List.drop_eq_getElem_cons hlt
  rw [hd] at hr
  injection hr with h1 h2
  refine ⟨?_, ⟨r, h2⟩⟩
  rw [List.getElem?_eq_getElem hlt]
  simp [h1]

theorem process_embedded_at (x y : Char) (hxy : x ≠ y) (t0 rest : CStr) (fds : List Int)
    (fdptr : Nat) (d : Int) (h0 : strstr t0 [x, y] = none) (hd : fds[fdptr]? = some d) :
    process_embedded_io_arg (t0 ++ x :: y :: rest) [x, y] fds fdptr
      = .ok (true, t0 ++ fd_path d ++ rest, fdptr + 1) := by
  have hs := strstr_pair_append x y hxy rest t0 h0
  simp only [process_embedded_io_arg, hs, hd]
  simp [fd_path]

theorem strstr_pair_step (x y : Char) (hx : x ∉ fd_chars) (hy : y ≠ '/') (t0 t : CStr) (d : Int)
    (h0 : strstr t0 [x, y] = none) (ht : strstr t [x, y] = none) :
    strstr (t0 ++ fd_path d ++ t) [x, y] = none := by
  have hxp : x ∉ fd_path d := fun h => hx (fd_path_mem d x h)
  have h1 : strstr (fd_path d ++ t) [x, y] = none := by
    apply strstr_pair_append_none x y t ht _ (strstr_pair_none_of_not_mem x y _ hxp)
    left
    intro hl
    exact hxp (List.mem_of_getLast?_eq_some hl)
  rw [List.append_assoc]
  apply strstr_pair_append_none x y _ h1 _ h0
  right
  rw [List.head?_append_of_ne_nil _ (fd_path_ne_nil d), fd_path_head]
  simp
  exact fun e => hy e.symm

/-- The loop over one argument `t0 m t1 m ... m tk`, for a marker `m = [x, y]`
whose characters cannot be produced by a descriptor path. -/
theorem embedded_while_pair (x y : Char) (hxy : x ≠ y) (hx : x ∉ fd_chars) (hy : y ≠ '/')
    (fds : List Int) : ∀ (ts : List CStr) (ds : List Int) (t0 : CStr) (fdptr fuel : Nat),
    strstr t0 [x, y] = none → (∀ t ∈ ts, strstr t [x, y] = none) →
    ds.length = ts.length → ds <+: fds.drop fdptr → ts.length < fuel →
    embedded_while [x, y] fds fuel (t0 ++ (ts.map ([x, y] ++ ·)).flatten) fdptr
      = .ok (t0 ++ (List.zipWith (fun d t => fd_path d ++ t) ds ts).flatten, fdptr + ts.length)
  | [], ds, t0, fdptr, fuel, h0, _, hl, _, hf => by
    cases fuel with
    | zero => simp at hf
    | succ fuel =>
      have : ds = [] := List.length_eq_zero.mp (by simpa using hl)
      subst this
      simp [embedded_while, process_embedded_io_arg, h0]
  | t :: ts, ds, t0, fdptr, fuel, h0, hts, hl, hp, hf => by
    cases fuel with
    | zero => simp at hf
    | succ fuel =>
      cases ds with
      | nil => simp at hl
      | cons d ds =>
        obtain ⟨hd, hp1⟩ := prefix_drop_cons hp
        have ht : strstr t [x, y] = none := hts t (by simp)
        have hts1 : ∀ u ∈ ts, strstr u [x, y] = none := fun u hu => hts u (by simp [hu])
        have harg : t0 ++ ((t :: ts).map ([x, y] ++ ·)).flatten
            = t0 ++ x :: y :: (t ++ (ts.map ([x, y] ++ ·)).flatten) := by simp
        have ih := embedded_while_pair x y hxy hx hy fds ts ds (t0 ++ fd_path d ++ t) (fdptr + 1)
          fuel (strstr_pair_step x y hx hy t0 t d h0 ht) hts1 (by simpa using hl) hp1
          (by simp at hf; omega)
        rw [harg, embedded_while, process_embedded_at x y hxy t0 _ fds fdptr d h0 hd]
        simp only []
        rw [← List.append_assoc, ih]
        simp [Nat.add_assoc, Nat.add_comm 1]

/-! ## The standalone replacement loop -/

theorem fd_path_ne_marker (x y : Char) (hx : x ≠ '/') (fd : Int) : fd_path fd ≠ [x, y] := by
  intro h
  have := fd_path_head fd
  rw [h] at this
  simp at this
  exact hx this

theorem process_standalone_hit (special : CStr) (fds : List Int) (fdptr : Nat) (d : Int)
    (hd : fds[fdptr]? = some d) :
    process_standalone_io_arg special (some special) fds fdptr = .ok (fd_path d, fdptr + 1) := by
  simp [process_standalone_io_arg, hd]

theorem process_standalone_miss (a special : CStr) (fds : List Int) (fdptr : Nat)
    (h : a ≠ special) :
    process_standalone_io_arg a (some special) fds fdptr = .ok (a, fdptr) := by
  have h1 : special ≠ a := fun e => h e.symm
  simp [process_standalone_io_arg, h1]

/-- The standalone loop over arguments that hold `special` no more often than
there are descriptors left. -/
theorem substitute_standalone (special : CStr) (hsp : ∀ d, fd_path d ≠ special)
    (fds : List Int) : ∀ (args : List CStr) (fdptr : Nat),
    fdptr + args.count special ≤ fds.length →
    ∃ args1, substitute_args false special fds args fdptr
        = .ok (args1, fdptr + args.count special)
      ∧ args1.length = args.length
      ∧ (∀ (i : Nat) (a : CStr), args[i]? = some a → a ≠ special → args1[i]? = some a)
      ∧ (∀ (i : Nat), args[i]? = some special →
          ∃ d, fds[fdptr + (args.take i).count special]? = some d
            ∧ args1[i]? = some (fd_path d))
      ∧ special ∉ args1
      ∧ (∀ o, o ≠ special → (∀ d, fd_path d ≠ o) → args1.count o = args.count o)
  | [], fdptr, _ => ⟨[], by simp [substitute_args]⟩
  | a :: rest, fdptr, hle => by
    by_cases ha : a = special
    · subst ha
      have hc : (a :: rest).count a = rest.count a + 1 := by simp
      have hlt : fdptr < fds.length := by omega
      obtain ⟨rest1, h1, h2, h3, h4, h5, h6⟩ :=
        substitute_standalone a hsp fds rest (fdptr + 1) (by omega)
      refine ⟨fd_path fds[fdptr] :: rest1, ?_, by simp [h2], ?_, ?_, ?_, ?_⟩
      · simp only [substitute_args, Bool.false_eq_true, if_false]
        rw [process_standalone_hit a fds fdptr fds[fdptr] (List.getElem?_eq_getElem hlt)]
        simp only [h1, hc]
        simp [Nat.add_assoc, Nat.add_comm 1]
      · intro i b hi hb
        cases i with
        | zero => simp at hi; exact absurd hi.symm hb
        | succ i => simpa using h3 i b (by simpa using hi) hb
      · intro i hi
        cases i with
        | zero => exact ⟨fds[fdptr], by simp [List.getElem?_eq_getElem hlt], by simp⟩
        | succ i =>
          obtain ⟨d, hd1, hd2⟩ := h4 i (by simpa using hi)
          refine ⟨d, ?_, by simpa using hd2⟩
          have : ((a :: rest).take (i + 1)).count a = (rest.take i).count a + 1 := by simp
          rw [this, ← hd1]
          congr 1
          omega
      · intro hm
        rcases List.mem_cons.mp hm with h | h
        · exact hsp _ h.symm
        · exact h5 h
      · intro o ho hfo
        have e1 : (a == o) = false := by simpa using fun e => ho e.symm
        have e2 : (fd_path fds[fdptr] == o) = false := by simpa using hfo _
        simp [List.count_cons, e1, e2, h6 o ho hfo]
    · have hc : (a :: rest).count special = rest.count special := by
        simp [List.count_cons, ha]
      obtain ⟨rest1, h1, h2, h3, h4, h5, h6⟩ :=
        substitute_standalone special hsp fds rest fdptr (by omega)
      refine ⟨a :: rest1, ?_, by simp [h2], ?_, ?_, ?_, ?_⟩
      · simp only [substitute_args, Bool.false_eq_true, if_false]
        rw [process_standalone_miss a special fds fdptr ha]
        simp only [h1, hc]
      · intro i b hi hb
        cases i with
        | zero => simpa using hi
        | succ i => simpa using h3 i b (by simpa using hi) hb
      · intro i hi
        cases i with
        | zero => simp at hi; exact absurd hi ha
        | succ i =>
          obtain ⟨d, hd1, hd2⟩ := h4 i (by simpa using hi)
          refine ⟨d, ?_, by simpa using hd2⟩
          have : ((a :: rest).take (i + 1)).count special = (rest.take i).count special := by
            simp [List.count_cons, ha]
          rw [this, hd1]
      · intro hm
        rcases List.mem_cons.mp hm with h | h
        · exact ha h.symm
        · exact h5 h
      · intro o ho hfo
        simp [List.count_cons, h6 o ho hfo]

/-! ## `main` without flags -/

theorem increment_channels_nonneg (var : Int) (h : 0 ≤ var) :
    increment_channels var = some (var + 1) := by
  have : var ≠ -1 := by omega
  simp [increment_channels, this]

theorem scan_args_standalone : ∀ (args : List CStr) (ni no : Int), 0 ≤ ni → 0 ≤ no →
    scan_args false args ni no
      = .ok (ni + (args.count marker_in : Nat), no + (args.count marker_out : Nat))
  | [], ni, no, _, _ => by simp [scan_args]
  | a :: rest, ni, no, hi, ho => by
    by_cases h1 : a = marker_in
    · subst h1
      have ih := scan_args_standalone rest (ni + 1) no (by omega) ho
      simp only [scan_args, scan_arg, Bool.false_eq_true, if_false, if_true,
        increment_channels_nonneg ni hi, show marker_in ≠ marker_out by decide, ih]
      simp [List.count_cons, show (marker_in == marker_out) = false by decide]
      omega
    · by_cases h2 : a = marker_out
      · subst h2
        have ih := scan_args_standalone rest ni (no + 1) hi (by omega)
        simp only [scan_args, scan_arg, Bool.false_eq_true, if_false, if_true,
          increment_channels_nonneg no ho, show marker_out ≠ marker_in by decide, ih]
        simp [List.count_cons, show (marker_out == marker_in) = false by decide]
        omega
      · have ih := scan_args_standalone rest ni no hi ho
        simp only [scan_args, scan_arg, Bool.false_eq_true, if_false, h1, h2, ih]
        simp [List.count_cons, h1, h2]

theorem is_shebang_arg_no_dash (w prog : CStr) (args : List CStr) (h : prog.head? ≠ some '-') :
    is_shebang_arg (w :: prog :: args) = false := by
  cases prog with
  | nil => rfl
  | cons c cs =>
    have hc : c ≠ '-' := by simpa using h
    unfold is_shebang_arg
    split
    · rename_i heq
      injection heq with _ heq
      injection heq with heq _
      injection heq with heq _
      exact absurd heq hc
    · rfl

theorem getopt_all_no_dash (prog : CStr) (args : List CStr) (n : Nat)
    (h : prog.head? ≠ some '-') : getopt_all (prog :: args) n false = ([], n) := by
  cases prog with
  | nil => simp [getopt_all]
  | cons c cs =>
    have hc : c ≠ '-' := by simpa using h
    have hne : ¬ (c :: cs = ['-', '-']) := by
      intro e
      injection e with e _
      exact hc e
    unfold getopt_all
    rw [if_neg hne]
    split
    · rename_i heq
      injection heq with heq _
      exact absurd heq hc
    · rfl

/-- Without flags the first part of `main` leaves the vector as it is, with
`optind = 1` and the initial values of the flags. -/
theorem main_options_no_flags (os_splits : Bool) (w prog : CStr) (args : List CStr)
    (h : prog.head? ≠ some '-') :
    main_options os_splits (w :: prog :: args)
      = .ok (init_flags, 1, w :: prog :: args, prog) := by
  simp [main_options, is_shebang_arg_no_dash w prog args h, getopt_all_no_dash prog args 1 h,
    parse_options, init_flags]

theorem main_before_negotiate_no_flags (os_splits : Bool) (w prog : CStr) (args : List CStr)
    (h : prog.head? ≠ some '-') :
    main_before_negotiate os_splits (w :: prog :: args)
      = .negotiate
          { flags := { init_flags with
                        ninputs := implicit_adjust (args.count marker_in)
                        noutputs := implicit_adjust (args.count marker_out) }
            optind := 1
            argv := w :: prog :: args
            guest_program_name := remove_absolute_path prog } := by
  have hs := scan_args_standalone args 1 1 (by decide) (by decide)
  simp only [main_before_negotiate, main_options_no_flags os_splits w prog args h]
  have e1 : init_flags.xflag = false := rfl
  have e2 : init_flags.embedded_args = false := rfl
  have e3 : init_flags.ninputs = 1 := rfl
  have e4 : init_flags.noutputs = 1 := rfl
  have e5 : init_flags.stdin_as_arg = true := rfl
  have e6 : init_flags.stdout_as_arg = true := rfl
  simp only [e1, e2, e3, e4, e5, e6, Bool.false_eq_true, if_false]
  have hd : (w :: prog :: args).drop (1 + 1) = args := rfl
  rw [hd, hs]
  have adj : ∀ k : Nat, (if True ∧ (1 : Int) + (k : Nat) > 1 then (1 : Int) + (k : Nat) - 1
      else (1 : Int) + (k : Nat)) = implicit_adjust k := by
    intro k
    by_cases hk : 1 ≤ k
    · have h1 : True ∧ (1 : Int) + (k : Nat) > 1 := ⟨trivial, by omega⟩
      rw [if_pos h1, implicit_adjust, if_pos hk]
      omega
    · have h1 : ¬ (True ∧ (1 : Int) + (k : Nat) > 1) := fun h => hk (by omega)
      rw [if_neg h1, implicit_adjust, if_neg hk]
      omega
  simp only [adj]

theorem rewrite_direction_in_place (embedded_args : Bool) (special w prog : CStr)
    (args : List CStr) (n : Int) (fds : List Int) (cells : Nat) :
    rewrite_direction true false embedded_args special 1 (w :: prog :: args) n fds cells
      = match substitute_args embedded_args special fds args 0 with
        | .error e => .error e
        | .ok (rest, fdptr1) => .ok (w :: prog :: rest, fdptr1) := by
  simp [rewrite_direction]

theorem getElem?_singleton_some {d e : Int} {j : Nat} (h : [d][j]? = some e) : e = d := by
  cases j with
  | zero => simpa using h.symm
  | succ j => simp at h

/-! ## The scanner -/

theorem strstr_pair_bound (x y : Char) (p : CStr) (off : Nat) (h : strstr p [x, y] = some off) :
    off + 2 ≤ p.length := by
  have hp := strstr_found p [x, y] off h
  have hl := hp.length_le
  simp at hl
  omega

/-- With a count that is not `-1` the embedded counting loop ends within
`p.length + 1` calls of `strstr` and never exits. -/
theorem scan_embedded_counts (x y : Char) : ∀ (fuel : Nat) (p : CStr) (var : Int),
    0 ≤ var → p.length < fuel →
    ∃ v, scan_embedded [x, y] fuel p var = .ok v ∧ var ≤ v
  | 0, _, _, _, hf => by simp at hf
  | fuel + 1, p, var, hv, hf => by
    cases hs : strstr p [x, y] with
    | none => exact ⟨var, by simp [scan_embedded, hs], Int.le_refl _⟩
    | some off =>
      have hb := strstr_pair_bound x y p off hs
      obtain ⟨v, h1, h2⟩ := scan_embedded_counts x y fuel (p.drop (off + 2)) (var + 1)
        (by omega) (by simp; omega)
      refine ⟨v, ?_, by omega⟩
      simp only [scan_embedded, hs, increment_channels_nonneg var hv, h1]

theorem scan_embedded_arbitrary (special : CStr) (fuel : Nat) (p : CStr) :
    scan_embedded special (fuel + 1) p (-1)
      = if (strstr p special).isSome then .error .exit_channels else .ok (-1) := by
  cases hs : strstr p special with
  | none => simp [scan_embedded, hs]
  | some off => simp [scan_embedded, hs, increment_channels]

/-- One direction of the scan of one argument: it exits exactly when the count
is `-1` and the argument holds the marker; otherwise the count stays `-1` or
stays non-negative. -/
theorem scan_step (embedded_args : Bool) (x y : Char) (arg : CStr) (var : Int)
    (hv : -1 ≤ var) :
    let res : Except Before Int :=
      if embedded_args then scan_embedded [x, y] (arg.length + 1) arg var
      else match (if arg = [x, y] then increment_channels var else some var) with
        | none => .error .exit_channels
        | some v => .ok v
    (var = -1 ∧ arg_has_marker embedded_args [x, y] arg = true → res = .error .exit_channels)
    ∧ (¬ (var = -1 ∧ arg_has_marker embedded_args [x, y] arg = true) →
        ∃ v, res = .ok v ∧ (v = -1 ↔ var = -1) ∧ -1 ≤ v) := by
  intro res
  by_cases hm : var = -1
  · subst hm
    cases embedded_args with
    | true =>
      simp only [res, if_true, scan_embedded_arbitrary, arg_has_marker]
      constructor
      · intro h; simp [h.2]
      · intro h
        have : (strstr arg [x, y]).isSome = false := by simpa using h
        exact ⟨-1, by simp [this], by simp, by omega⟩
    | false =>
      simp only [res, Bool.false_eq_true, if_false, arg_has_marker]
      by_cases ha : arg = [x, y]
      · simp [ha, increment_channels]
      · simp [ha]
  · have h0 : 0 ≤ var := by omega
    constructor
    · intro h; exact absurd h.1 hm
    · intro _
      cases embedded_args with
      | true =>
        obtain ⟨v, h1, h2⟩ := scan_embedded_counts x y (arg.length + 1) arg var h0 (by omega)
        exact ⟨v, by simp [res, h1], by constructor <;> intro <;> omega, by omega⟩
      | false =>
        by_cases ha : arg = [x, y]
        · refine ⟨var + 1, by simp [res, ha, increment_channels_nonneg var h0],
            by constructor <;> intro <;> omega, by omega⟩
        · exact ⟨var, by simp [res, ha], by simp, hv⟩

theorem scan_arg_eq (embedded_args : Bool) (arg : CStr) (ninputs noutputs : Int) :
    scan_arg embedded_args arg ninputs noutputs
      = match (if embedded_args then scan_embedded ['<', '|'] (arg.length + 1) arg ninputs
               else match (if arg = ['<', '|'] then increment_channels ninputs
                           else some ninputs) with
                 | none => .error .exit_channels
                 | some v => .ok v) with
        | .error e => .error e
        | .ok ninputs1 =>
          match (if embedded_args then scan_embedded ['>', '|'] (arg.length + 1) arg noutputs
                 else match (if arg = ['>', '|'] then increment_channels noutputs
                             else some noutputs) with
                   | none => .error .exit_channels
                   | some v => .ok v) with
          | .error e => .error e
          | .ok noutputs1 => .ok (ninputs1, noutputs1) := by
  cases embedded_args with
  | true => simp [scan_arg, marker_in, marker_out]
  | false =>
    simp only [scan_arg, marker_in, marker_out, Bool.false_eq_true, if_false]
    cases (if arg = ['<', '|'] then increment_channels ninputs else some ninputs) with
    | none => rfl
    | some v =>
      cases (if arg = ['>', '|'] then increment_channels noutputs else some noutputs) <;> rfl

/-- The scan of one argument exits exactly when a direction whose count is `-1`
meets a marker of that direction. -/
theorem scan_arg_spec (embedded_args : Bool) (arg : CStr) (ni no : Int)
    (hi : -1 ≤ ni) (ho : -1 ≤ no) :
    ((ni = -1 ∧ arg_has_marker embedded_args marker_in arg = true)
        ∨ (no = -1 ∧ arg_has_marker embedded_args marker_out arg = true) →
      scan_arg embedded_args arg ni no = .error .exit_channels)
    ∧ (¬ ((ni = -1 ∧ arg_has_marker embedded_args marker_in arg = true)
        ∨ (no = -1 ∧ arg_has_marker embedded_args marker_out arg = true)) →
      ∃ ni1 no1, scan_arg embedded_args arg ni no = .ok (ni1, no1)
        ∧ (ni1 = -1 ↔ ni = -1) ∧ (no1 = -1 ↔ no = -1) ∧ -1 ≤ ni1 ∧ -1 ≤ no1) := by
  have s1 := scan_step embedded_args '<' '|' arg ni hi
  have s2 := scan_step embedded_args '>' '|' arg no ho
  simp only [] at s1 s2
  rw [scan_arg_eq]
  by_cases c1 : ni = -1 ∧ arg_has_marker embedded_args marker_in arg = true
  · constructor
    · intro _
      rw [s1.1 c1]
    · intro h
      exact absurd (Or.inl c1) h
  · obtain ⟨v1, e1, e2, e3⟩ := s1.2 c1
    rw [e1]
    simp only []
    by_cases c2 : no = -1 ∧ arg_has_marker embedded_args marker_out arg = true
    · constructor
      · intro _
        rw [s2.1 c2]
      · intro h
        exact absurd (Or.inr c2) h
    · obtain ⟨v2, f1, f2, f3⟩ := s2.2 c2
      rw [f1]
      constructor
      · intro h
        rcases h with h | h
        · exact absurd h c1
        · exact absurd h c2
      · intro _
        exact ⟨v1, v2, rfl, e2, f2, e3, f3⟩

/-- The scanning loop exits exactly when a direction whose count is `-1` meets a
marker of that direction in some argument; otherwise it returns counts. -/
theorem scan_args_spec (embedded_args : Bool) : ∀ (args : List CStr) (ni no : Int),
    -1 ≤ ni → -1 ≤ no →
    ((ni = -1 ∧ has_marker embedded_args marker_in args = true)
        ∨ (no = -1 ∧ has_marker embedded_args marker_out args = true) →
      scan_args embedded_args args ni no = .error .exit_channels)
    ∧ (¬ ((ni = -1 ∧ has_marker embedded_args marker_in args = true)
        ∨ (no = -1 ∧ has_marker embedded_args marker_out args = true)) →
      ∃ ni1 no1, scan_args embedded_args args ni no = .ok (ni1, no1))
  | [], ni, no, _, _ => by
    simp [has_marker, scan_args]
  | a :: rest, ni, no, hi, ho => by
    have sa := scan_arg_spec embedded_args a ni no hi ho
    by_cases c : (ni = -1 ∧ arg_has_marker embedded_args marker_in a = true)
        ∨ (no = -1 ∧ arg_has_marker embedded_args marker_out a = true)
    · constructor
      · intro _
        simp only [scan_args, sa.1 c]
      · intro h
        exfalso
        apply h
        rcases c with c | c
        · exact Or.inl ⟨c.1, by simp [has_marker, c.2]⟩
        · exact Or.inr ⟨c.1, by simp [has_marker, c.2]⟩
    · obtain ⟨ni1, no1, e, i1, o1, i2, o2⟩ := sa.2 c
      have ih := scan_args_spec embedded_args rest ni1 no1 i2 o2
      simp only [scan_args, e]
      constructor
      · intro h
        apply ih.1
        rcases h with h | h
        · left
          refine ⟨i1.mpr h.1, ?_⟩
          have := h.2
          simp only [has_marker, List.any_cons, Bool.or_eq_true] at this
          rcases this with t | t
          · exact absurd (Or.inl ⟨h.1, t⟩) c
          · simpa [has_marker] using t
        · right
          refine ⟨o1.mpr h.1, ?_⟩
          have := h.2
          simp only [has_marker, List.any_cons, Bool.or_eq_true] at this
          rcases this with t | t
          · exact absurd (Or.inr ⟨h.1, t⟩) c
          · simpa [has_marker] using t
      · intro h
        apply ih.2
        intro g
        apply h
        rcases g with g | g
        · exact Or.inl ⟨i1.mp g.1, by
            have := g.2
            simp only [has_marker] at this
            simp [has_marker, this]⟩
        · exact Or.inr ⟨o1.mp g.1, by
            have := g.2
            simp only [has_marker] at this
            simp [has_marker, this]⟩

/-! ## The option loop -/

theorem option_case_counts (f f1 : Flags) (ch : Char) (optarg : CStr)
    (h : option_case f ch optarg = some f1) (hi : -1 ≤ f.ninputs) (ho : -1 ≤ f.noutputs) :
    -1 ≤ f1.ninputs ∧ -1 ≤ f1.noutputs := by
  unfold option_case at h
  repeat' split at h
  all_goals first
    | (simp at h; done)
    | (simp only [Option.some.injEq] at h; subst h; simp_all)

theorem parse_options_counts : ∀ (evs : List (Char × CStr)) (f f1 : Flags),
    parse_options f evs = some f1 → -1 ≤ f.ninputs → -1 ≤ f.noutputs →
    -1 ≤ f1.ninputs ∧ -1 ≤ f1.noutputs
  | [], f, f1, h, hi, ho => by
    simp only [parse_options, Option.some.injEq] at h
    subst h
    exact ⟨hi, ho⟩
  | (ch, optarg) :: rest, f, f1, h, hi, ho => by
    simp only [parse_options] at h
    cases hc : option_case f ch optarg with
    | none => simp [hc] at h
    | some f2 =>
      simp only [hc] at h
      obtain ⟨h1, h2⟩ := option_case_counts f f2 ch optarg hc hi ho
      exact parse_options_counts rest f2 f1 h h1 h2

theorem main_options_counts (os_splits : Bool) (argv0 : List CStr) (f : Flags) (optind : Nat)
    (argv2 : List CStr) (prog : CStr)
    (h : main_options os_splits argv0 = .ok (f, optind, argv2, prog)) :
    -1 ≤ f.ninputs ∧ -1 ≤ f.noutputs := by
  unfold main_options at h
  split at h
  · simp at h
  · rename_i argv1 _
    simp only [] at h
    split at h
    · simp at h
    · rename_i f0 hf0
      split at h
      · simp at h
      · split at h
        · simp at h
        · split at h
          · simp at h
          · simp only [Except.ok.injEq, Prod.mk.injEq] at h
            obtain ⟨h1, _⟩ := h
            subst h1
            exact parse_options_counts _ _ _ hf0 (by decide) (by decide)

/-! ## Shebang splitting -/

theorem memmove_shift_right {α : Type} (pre : List α) (c p0 junk : α) (post : List α) :
    memmove (pre ++ c :: p0 :: post ++ [junk]) (pre.length + 2) (pre.length + 1)
        ((p0 :: post).length)
      = (pre ++ [c]) ++ p0 :: p0 :: post := by
  have e1 : pre ++ c :: p0 :: post ++ [junk] = (pre ++ [c, p0]) ++ (post ++ [junk]) := by simp
  have e2 : pre ++ c :: p0 :: post ++ [junk] = (pre ++ [c]) ++ ((p0 :: post) ++ [junk]) := by simp
  have e3 : pre ++ c :: p0 :: post ++ [junk] = (pre ++ c :: p0 :: post ++ [junk]) ++ [] := by simp
  unfold memmove
  have t1 : (pre ++ c :: p0 :: post ++ [junk]).take (pre.length + 2) = pre ++ [c, p0] := by
    rw [e1]; exact List.take_left' (by simp)
  have t2 : (pre ++ c :: p0 :: post ++ [junk]).drop (pre.length + 1) = (p0 :: post) ++ [junk] := by
    rw [e2]; exact List.drop_left' (by simp)
  have t3 : (pre ++ c :: p0 :: post ++ [junk]).drop (pre.length + 2 + (p0 :: post).length) = [] := by
    apply List.drop_eq_nil_of_le
    simp; omega
  rw [t1, t2, t3, List.take_left' rfl]
  simp

/-- The loop of `split_argv` writes the tokens from cell `i` on and moves the
later cells behind them. -/
theorem split_argv_loop_spec : ∀ (rest : List CStr) (argc i : Nat) (p : CStr)
    (pre : Argv) (c p0 : Option CStr) (post : Argv),
    pre.length = i → (pre ++ c :: p0 :: post).length = argc + 1 →
    split_argv_loop argc i (pre ++ c :: p0 :: post) p rest
      = (argc + rest.length, pre ++ some p :: rest.map some ++ p0 :: post)
  | [], argc, i, p, pre, c, p0, post, hi, _ => by
    subst hi
    simp [split_argv_loop]
  | q :: rest, argc, i, p, pre, c, p0, post, hi, hl => by
    subst hi
    have hn : argc + 1 - pre.length - 1 = (p0 :: post).length := by
      simp at hl ⊢; omega
    have hset : (pre ++ c :: p0 :: post).set pre.length (some p) = pre ++ some p :: p0 :: post := by
      simp
    have ih := split_argv_loop_spec rest (argc + 1) (pre.length + 1) q (pre ++ [some p]) p0 p0 post
      (by simp) (by simp at hl ⊢; omega)
    simp only [split_argv_loop, hset, hn]
    rw [memmove_shift_right pre (some p) p0 none post, ih]
    simp [Nat.add_assoc, Nat.add_comm 1]

theorem split_argv_spec (a0 a1 : CStr) (rest : List CStr) (t : CStr) (ts : List CStr)
    (htok : strtok_all delim a1 [] = t :: ts) :
    split_argv (rest.length + 2) (mkArgv (a0 :: a1 :: rest))
      = some (rest.length + 2 + ts.length, mkArgv (a0 :: (t :: ts) ++ rest)) := by
  have h1 : (mkArgv (a0 :: a1 :: rest))[1]? = some (some a1) := by simp [mkArgv]
  have h2 : (mkArgv (a0 :: a1 :: rest)).take (rest.length + 2 + 1) = mkArgv (a0 :: a1 :: rest) := by
    apply List.take_of_length_le
    simp [mkArgv]
  simp only [split_argv, h1, htok, h2]
  cases rest with
  | nil =>
    have := split_argv_loop_spec ts 2 1 t [some a0] (some a1) none [] rfl rfl
    simpa [mkArgv] using this
  | cons r rs =>
    have := split_argv_loop_spec ts (rs.length + 1 + 2) 1 t [some a0] (some a1) (some r)
      (rs.map some ++ [none]) rfl (by simp)
    simpa [mkArgv] using this

theorem remove_os_script_path_spec (pre : List CStr) (x : CStr) (post : List CStr)
    (beyond : Option CStr) (hpre : pre ≠ []) :
    remove_os_script_path (mkArgv (pre ++ x :: post)) (pre.length + post.length + 1)
        (pre.length - 1) beyond
      = (mkArgv (pre ++ post) ++ [beyond], pre.length + post.length) := by
  have hp : pre.length - 1 + 1 = pre.length := by
    have : 0 < pre.length := List.length_pos.mpr hpre
    omega
  have e0 : mkArgv (pre ++ x :: post) ++ [beyond]
      = pre.map some ++ (some x :: (post.map some ++ [none, beyond])) := by simp [mkArgv]
  have t1 : (mkArgv (pre ++ x :: post) ++ [beyond]).take (pre.length - 1 + 1) = pre.map some := by
    rw [e0, hp]; exact List.take_left' (by simp)
  have t2 : (mkArgv (pre ++ x :: post) ++ [beyond]).drop (pre.length - 1 + 2)
      = post.map some ++ [none, beyond] := by
    have : pre.length - 1 + 2 = (pre.map some ++ [some x]).length := by simp; omega
    rw [this]
    have e1 : mkArgv (pre ++ x :: post) ++ [beyond]
        = (pre.map some ++ [some x]) ++ (post.map some ++ [none, beyond]) := by simp [mkArgv]
    rw [e1]; exact List.drop_left' rfl
  have t3 : (post.map some ++ [none, beyond]).take (pre.length + post.length + 1 - (pre.length - 1))
      = post.map some ++ [none, beyond] := by
    apply List.take_of_length_le
    simp; omega
  have t4 : (mkArgv (pre ++ x :: post) ++ [beyond]).drop
      (pre.length - 1 + 1 + (pre.length + post.length + 1 - (pre.length - 1))) = [beyond] := by
    have : pre.length - 1 + 1 + (pre.length + post.length + 1 - (pre.length - 1))
        = (mkArgv (pre ++ x :: post)).length := by simp [mkArgv]; omega
    rw [this]; exact List.drop_left' rfl
  unfold remove_os_script_path memmove
  simp only [t1, t2, t3, t4]
  have hs : (pre.map some ++ (post.map some ++ [none, beyond]) ++ [beyond]).set
      (pre.length + post.length + 1 - 1) none
      = pre.map some ++ (post.map some ++ [none, beyond]) ++ [beyond] := by
    have e2 : pre.map some ++ (post.map some ++ [none, beyond]) ++ [beyond]
        = (pre.map some ++ post.map some) ++ (none :: [beyond, beyond]) := by simp
    rw [e2]
    have : pre.length + post.length + 1 - 1 = (pre.map some ++ post.map some).length := by simp
    rw [this, List.set_append_right _ _ (Nat.le_refl _)]
    simp
  rw [hs]
  have hl : (mkArgv (pre ++ x :: post)).length
      = (pre.map some ++ (post.map some ++ [none, beyond])).length := by simp [mkArgv]
  rw [hl, List.take_left' rfl]
  simp [mkArgv]

/-! ## What `strtok` returns -/

theorem strtok_all_token (dl : CStr) : ∀ (t rest cur : CStr), (∀ c ∈ t, c ∉ dl) →
    strtok_all dl (t ++ rest) cur = strtok_all dl rest (t.reverse ++ cur)
  | [], rest, cur, _ => by simp
  | c :: t, rest, cur, h => by
    have hc : c ∉ dl := h c (by simp)
    have ih := strtok_all_token dl t rest (c :: cur) (fun d hd => h d (by simp [hd]))
    show strtok_all dl (c :: (t ++ rest)) cur = _
    rw [strtok_all, if_neg hc, ih]
    simp

theorem strtok_all_seps (dl : CStr) : ∀ (s rest : CStr), (∀ c ∈ s, c ∈ dl) →
    strtok_all dl (s ++ rest) [] = strtok_all dl rest []
  | [], rest, _ => by simp
  | c :: s, rest, h => by
    have hc : c ∈ dl := h c (by simp)
    have ih := strtok_all_seps dl s rest (fun d hd => h d (by simp [hd]))
    show strtok_all dl (c :: (s ++ rest)) [] = _
    rw [strtok_all, if_pos hc, if_pos rfl, ih]

/-- The model of `strtok` returns the tokens of a string put together from
tokens and separators: after leading delimiters, each token (non-empty, free of
delimiters) is followed by a non-empty run of delimiters, except that the
string may end in a last token. -/
theorem strtok_all_join (dl : CStr) : ∀ (pieces : List (CStr × CStr)) (lead last : CStr),
    (∀ c ∈ lead, c ∈ dl) →
    (∀ ts ∈ pieces, ts.1 ≠ [] ∧ (∀ c ∈ ts.1, c ∉ dl) ∧ ts.2 ≠ [] ∧ (∀ c ∈ ts.2, c ∈ dl)) →
    (∀ c ∈ last, c ∉ dl) →
    strtok_all dl (lead ++ ((pieces.map (fun ts => ts.1 ++ ts.2)).flatten ++ last)) []
      = pieces.map Prod.fst ++ (if last = [] then [] else [last])
  | [], lead, last, hl, _, hlast => by
    rw [strtok_all_seps dl lead _ hl]
    have := strtok_all_token dl last [] [] hlast
    simp only [List.append_nil] at this
    simp only [List.map_nil, List.flatten_nil, List.nil_append, this, strtok_all]
    by_cases h : last = [] <;> simp [h]
  | (t, s) :: pieces, lead, last, hl, hp, hlast => by
    obtain ⟨h1, h2, h3, h4⟩ := hp (t, s) (by simp)
    have ih := strtok_all_join dl pieces s last h4 (fun ts hts => hp ts (by simp [hts])) hlast
    rw [strtok_all_seps dl lead _ hl]
    simp only [List.map_cons, List.flatten_cons, List.append_assoc]
    rw [strtok_all_token dl t _ [] h2]
    cases s with
    | nil => exact absurd rfl h3
    | cons c s =>
      have hc : c ∈ dl := h4 c (by simp)
      have ht : t.reverse ++ [] ≠ [] := by simpa using h1
      have ih2 : strtok_all dl (s ++ ((pieces.map (fun ts => ts.1 ++ ts.2)).flatten ++ last)) []
          = pieces.map Prod.fst ++ (if last = [] then [] else [last]) := by
        rw [← ih]
        show _ = strtok_all dl (c :: (s ++ _)) []
        rw [strtok_all, if_pos hc, if_pos rfl]
      show strtok_all dl (c :: (s ++ _)) (t.reverse ++ []) = _
      rw [strtok_all, if_pos hc, if_neg ht, ih2]
      simp

/-! ## The loop budgets are never used up -/

/-- The replacement loop never uses up a budget of calls that exceeds the
number of descriptors left: every call that replaces a marker reads one. -/
theorem embedded_while_within_budget (special : CStr) (fds : List Int) :
    ∀ (fuel : Nat) (arg : CStr) (fdptr : Nat), 1 ≤ fuel → fds.length < fuel + fdptr →
    embedded_while special fds fuel arg fdptr ≠ .error .timeout
  | 0, _, _, h, _ => by omega
  | fuel + 1, arg, fdptr, _, hf => by
    unfold embedded_while process_embedded_io_arg
    cases hs : strstr arg special with
    | none => simp
    | some p =>
      cases hd : fds[fdptr]? with
      | none => simp
      | some d =>
        have hlt : fdptr < fds.length := by
          by_contra hn
          rw [List.getElem?_eq_none_iff.mpr (by omega)] at hd
          exact Option.noConfusion hd
        simp only []
        exact embedded_while_within_budget special fds fuel _ (fdptr + 1) (by omega) (by omega)

/-- The counting loop for a two-character marker never uses up a budget of
`p.length + 1` calls. -/
theorem scan_embedded_within_budget (x y : Char) (p : CStr) (var : Int) (hv : -1 ≤ var) :
    scan_embedded [x, y] (p.length + 1) p var ≠ .error (.fault .timeout) := by
  by_cases h : var = -1
  · subst h
    rw [scan_embedded_arbitrary]
    split <;> simp
  · obtain ⟨v, h1, _⟩ := scan_embedded_counts x y (p.length + 1) p var (by omega) (by omega)
    rw [h1]
    simp

/-! ## What `remove_from_path` and the option loop do get right -/

theorem back_to_colon_run : ∀ (l rest : CStr) (cur : Option Char), (∀ c ∈ l, c ≠ ':') →
    cur ≠ some ':' → back_to_colon (l ++ ':' :: rest) cur = l.length + 1
  | [], rest, cur, _, hc => by
    cases rest <;> simp [back_to_colon, hc]
  | c :: l, rest, cur, hl, hc => by
    have h1 : (some c : Option Char) ≠ some ':' := by
      simpa using hl c (by simp)
    have ih := back_to_colon_run l rest (some c) (fun d hd => hl d (by simp [hd])) h1
    show back_to_colon (c :: (l ++ ':' :: rest)) cur = _
    rw [back_to_colon, if_neg hc, ih]
    simp only [List.length_cons]
    omega

theorem back_to_colon_all : ∀ (l : CStr) (cur : Option Char), (∀ c ∈ l, c ≠ ':') →
    cur ≠ some ':' → back_to_colon l cur = l.length
  | [], _, _, _ => by simp [back_to_colon]
  | c :: l, cur, hl, hc => by
    have h1 : (some c : Option Char) ≠ some ':' := by
      simpa using hl c (by simp)
    have ih := back_to_colon_all l (some c) (fun d hd => hl d (by simp [hd])) h1
    rw [back_to_colon, if_neg hc, ih]
    simp only [List.length_cons]
    omega

/-- A matching entry that is the last of several is removed together with the
`':'` before it. -/
theorem remove_from_path_last_entry (string pre m : CStr) (p : Nat) (hm : ':' ∉ m)
    (hp : strstr (pre ++ ':' :: m) string = some p) (hin : pre.length < p) :
    remove_from_path string (some (pre ++ ':' :: m)) = some pre := by
  have hle := strstr_le_length _ _ p hp
  obtain ⟨k, hk⟩ : ∃ k, p = pre.length + 1 + k := ⟨p - pre.length - 1, by omega⟩
  subst hk
  have hkm : k ≤ m.length := by simp at hle; omega
  have e0 : pre ++ ':' :: m = (pre ++ [':']) ++ m := by simp
  have hdrop : (pre ++ ':' :: m).drop (pre.length + 1 + k) = m.drop k := by
    rw [e0, List.drop_append_eq_append_drop]
    simp
  have htake : (pre ++ ':' :: m).take (pre.length + 1 + k) = pre ++ ':' :: m.take k := by
    rw [e0, List.take_append_eq_append_take]
    have : (pre ++ [':']).take (pre.length + 1 + k) = pre ++ [':'] :=
      List.take_of_length_le (by simp)
    rw [this]
    simp
  have hnc : ':' ∉ (pre ++ ':' :: m).drop (pre.length + 1 + k) := by
    rw [hdrop]
    exact fun h => hm (List.mem_of_mem_drop h)
  have hcur : (pre ++ ':' :: m)[pre.length + 1 + k]? ≠ some ':' := by
    intro h
    have : ':' ∈ (pre ++ ':' :: m).drop (pre.length + 1 + k) := by
      have hlt : pre.length + 1 + k < (pre ++ ':' :: m).length := by
        by_contra hn
        rw [List.getElem?_eq_none_iff.mpr (by omega)] at h
        exact Option.noConfusion h
      rw [List.drop_eq_getElem_cons hlt]
      rw [List.getElem?_eq_getElem hlt] at h
      simp only [Option.some.injEq] at h
      simp [h]
    exact hnc this
  have hback : back_to_colon ((pre ++ ':' :: m).take (pre.length + 1 + k)).reverse
      ((pre ++ ':' :: m)[pre.length + 1 + k]?) = k + 1 := by
    rw [htake]
    have : (pre ++ ':' :: m.take k).reverse = (m.take k).reverse ++ ':' :: pre.reverse := by simp
    rw [this, back_to_colon_run _ _ _ _ hcur]
    · simp [hkm]
    · intro c hc
      have : c ∈ m := List.mem_of_mem_take (List.mem_reverse.mp hc)
      exact fun e => hm (e ▸ this)
  have hend : (pre ++ ':' :: m)[pre.length + 1 + k
      + forward_to_colon ((pre ++ ':' :: m).drop (pre.length + 1 + k))]? = none := by
    rw [forward_to_colon_no_colon _ hnc, List.getElem?_eq_none_iff]
    simp; omega
  simp only [remove_from_path, hp, hend, hback, if_true]
  have : pre.length + 1 + k - (k + 1) = pre.length := by omega
  rw [this, List.take_left' rfl]

/-- The only entry of `PATH`, when it matches, is removed: `PATH` becomes empty. -/
theorem remove_from_path_only_entry (string path : CStr) (p : Nat) (hm : ':' ∉ path)
    (hp : strstr path string = some p) :
    remove_from_path string (some path) = some [] := by
  have hle := strstr_le_length _ _ p hp
  have hnc : ':' ∉ path.drop p := fun h => hm (List.mem_of_mem_drop h)
  have hcur : path[p]? ≠ some ':' := by
    intro h
    exact hm (List.getElem?_mem h)
  have hback : back_to_colon (path.take p).reverse (path[p]?) = p := by
    rw [back_to_colon_all _ _ _ hcur]
    · simp [hle]
    · intro c hc
      have : c ∈ path := List.mem_of_mem_take (List.mem_reverse.mp hc)
      exact fun e => hm (e ▸ this)
  have hend : path[p + forward_to_colon (path.drop p)]? = none := by
    rw [forward_to_colon_no_colon _ hnc, List.getElem?_eq_none_iff]
    simp; omega
  simp only [remove_from_path, hp, hend, hback, if_true]
  simp

theorem parse_options_append : ∀ (pre rest : List (Char × CStr)) (f : Flags),
    parse_options f (pre ++ rest) = (parse_options f pre).bind (fun f1 => parse_options f1 rest)
  | [], rest, f => by simp [parse_options]
  | (ch, optarg) :: pre, rest, f => by
    show parse_options f ((ch, optarg) :: (pre ++ rest)) = _
    rw [parse_options, parse_options]
    cases option_case f ch optarg with
    | none => rfl
    | some f1 => exact parse_options_append pre rest f1

theorem option_case_nflags (f f1 : Flags) (ch : Char) (optarg : CStr)
    (h : option_case f ch optarg = some f1) :
    f.nflags ≤ f1.nflags ∧ (ch ≠ 'x' → 1 ≤ f1.nflags) := by
  unfold option_case at h
  repeat' split at h
  all_goals first
    | (simp at h; done)
    | (simp only [Option.some.injEq] at h; subst h; simp_all)

theorem parse_options_nflags : ∀ (evs : List (Char × CStr)) (f f1 : Flags),
    parse_options f evs = some f1 →
    f.nflags ≤ f1.nflags ∧ ((∃ e ∈ evs, e.1 ≠ 'x') → 1 ≤ f1.nflags)
  | [], f, f1, h => by
    simp only [parse_options, Option.some.injEq] at h
    subst h
    simp
  | (ch, optarg) :: rest, f, f1, h => by
    simp only [parse_options] at h
    cases hc : option_case f ch optarg with
    | none => simp [hc] at h
    | some f2 =>
      simp only [hc] at h
      obtain ⟨a1, a2⟩ := option_case_nflags f f2 ch optarg hc
      obtain ⟨b1, b2⟩ := parse_options_nflags rest f2 f1 h
      refine ⟨Nat.le_trans a1 b1, ?_⟩
      rintro ⟨e, he, hx⟩
      rcases List.mem_cons.mp he with rfl | he
      · have := a2 hx
        omega
      · exact b2 ⟨e, he, hx⟩

/-- A flag `-S` or `-s` given after any flag other than `-x` makes the option
loop call `usage()`. -/
theorem script_flag_after_counted_flag (pre rest : List (Char × CStr)) (ch : Char)
    (optarg : CStr) (hch : ch = 'S' ∨ ch = 's') (hpre : ∃ e ∈ pre, e.1 ≠ 'x') :
    parse_options init_flags (pre ++ (ch, optarg) :: rest) = none := by
  rw [parse_options_append]
  cases h : parse_options init_flags pre with
  | none => rfl
  | some f1 =>
    have hn := (parse_options_nflags pre init_flags f1 h).2 hpre
    have hne : f1.nflags ≠ 0 := by omega
    have : option_case f1 ch optarg = none := by
      rcases hch with rfl | rfl <;> simp [option_case, hne]
    simp [parse_options, this]

/-! ## The flags after the option loop -/

/-- What one pass of the `switch` leaves in each variable. -/
theorem option_case_fields (f f1 : Flags) (ch : Char) (optarg : CStr)
    (h : option_case f ch optarg = some f1) :
    f1.xflag = (f.xflag || decide (ch = 'x'))
    ∧ f1.negotiation_flags
        = (f.negotiation_flags || decide (ch ∈ ['i', 'o', 'e', 'I', 'O']))
    ∧ f1.embedded_args = (f.embedded_args || decide (ch = 'e'))
    ∧ f1.stdin_as_arg = (f.stdin_as_arg && !decide (ch = 'I'))
    ∧ f1.stdout_as_arg = (f.stdout_as_arg && !decide (ch = 'O'))
    ∧ f1.supply_input_args = (f.supply_input_args || decide ((ch, optarg) = ('i', ['a'])))
    ∧ f1.supply_output_args = (f.supply_output_args || decide ((ch, optarg) = ('o', ['a'])))
    ∧ f1.ninputs = (if ch = 'i' then (if optarg = ['0'] then 0 else -1) else f.ninputs)
    ∧ f1.noutputs = (if ch = 'o' then (if optarg = ['0'] then 0 else -1) else f.noutputs) := by
  unfold option_case at h
  repeat' split at h
  all_goals first
    | (simp at h; done)
    | (simp only [Option.some.injEq] at h; subst h; simp_all)

theorem last_count_of_not_mem (ch : Char) : ∀ (evs : List (Char × CStr)) (dflt : Int),
    (∀ e ∈ evs, e.1 ≠ ch) → last_count ch dflt evs = dflt
  | [], _, _ => rfl
  | (c, optarg) :: rest, dflt, h => by
    have hc : c ≠ ch := h (c, optarg) (by simp)
    rw [last_count, if_neg hc]
    exact last_count_of_not_mem ch rest dflt (fun e he => h e (by simp [he]))

/-- What the option loop leaves in each variable. -/
theorem parse_options_fields : ∀ (evs : List (Char × CStr)) (f f1 : Flags),
    parse_options f evs = some f1 →
    f1.xflag = (f.xflag || evs.any (fun e => decide (e.1 = 'x')))
    ∧ f1.negotiation_flags
        = (f.negotiation_flags || evs.any (fun e => decide (e.1 ∈ ['i', 'o', 'e', 'I', 'O'])))
    ∧ f1.embedded_args = (f.embedded_args || evs.any (fun e => decide (e.1 = 'e')))
    ∧ f1.stdin_as_arg = (f.stdin_as_arg && !evs.any (fun e => decide (e.1 = 'I')))
    ∧ f1.stdout_as_arg = (f.stdout_as_arg && !evs.any (fun e => decide (e.1 = 'O')))
    ∧ f1.supply_input_args
        = (f.supply_input_args || evs.any (fun e => decide (e = ('i', ['a']))))
    ∧ f1.supply_output_args
        = (f.supply_output_args || evs.any (fun e => decide (e = ('o', ['a']))))
    ∧ f1.ninputs = last_count 'i' f.ninputs evs
    ∧ f1.noutputs = last_count 'o' f.noutputs evs
  | [], f, f1, h => by
    simp only [parse_options, Option.some.injEq] at h
    subst h
    simp [last_count]
  | (ch, optarg) :: rest, f, f1, h => by
    simp only [parse_options] at h
    cases hc : option_case f ch optarg with
    | none => simp [hc] at h
    | some f2 =>
      simp only [hc] at h
      obtain ⟨a1, a2, a3, a4, a5, a6, a7, a8, a9⟩ := option_case_fields f f2 ch optarg hc
      obtain ⟨b1, b2, b3, b4, b5, b6, b7, b8, b9⟩ := parse_options_fields rest f2 f1 h
      refine ⟨?_, ?_, ?_, ?_, ?_, ?_, ?_, ?_, ?_⟩
      · rw [b1, a1]; simp [Bool.or_assoc]
      · rw [b2, a2]; simp [Bool.or_assoc]
      · rw [b3, a3]; simp [Bool.or_assoc]
      · rw [b4, a4]; simp [Bool.and_assoc]
      · rw [b5, a5]; simp [Bool.and_assoc]
      · rw [b6, a6]; simp [Bool.or_assoc]
      · rw [b7, a7]; simp [Bool.or_assoc]
      · rw [b8, a8]; rfl
      · rw [b9, a9]; rfl

/-! ## The structure of `main` -/

theorem main_options_eq (os_splits : Bool) (argv0 : List CStr) :
    main_options os_splits argv0
      = match main_split os_splits argv0 with
        | none => .error .aborted
        | some argv1 =>
          match parse_options init_flags (getopt_all (argv1.drop 1) 1 false).1 with
          | none => .error .exit_usage
          | some f =>
            if (getopt_all (argv1.drop 1) 1 false).2 ≥ argv1.length then .error .exit_usage
            else if f.xflag ∧ f.negotiation_flags then .error .exit_usage
            else
              match (if f.program_supplied ∧ argv1.length > (getopt_all (argv1.drop 1) 1 false).2
                     then argv_strings
                       (remove_os_script_path (mkArgv argv1) argv1.length
                          (getopt_all (argv1.drop 1) 1 false).2 none).2
                       (remove_os_script_path (mkArgv argv1) argv1.length
                          (getopt_all (argv1.drop 1) 1 false).2 none).1
                     else if f.program_from_os then
                       match argv1[(getopt_all (argv1.drop 1) 1 false).2]? with
                       | some s =>
                         argv1.set (getopt_all (argv1.drop 1) 1 false).2 (remove_absolute_path s)
                       | none => argv1
                     else argv1)[(getopt_all (argv1.drop 1) 1 false).2]? with
              | none => .error (.fault .null)
              | some prog =>
                .ok (f, (getopt_all (argv1.drop 1) 1 false).2,
                     (if f.program_supplied
                          ∧ argv1.length > (getopt_all (argv1.drop 1) 1 false).2
                      then argv_strings
                        (remove_os_script_path (mkArgv argv1) argv1.length
                           (getopt_all (argv1.drop 1) 1 false).2 none).2
                        (remove_os_script_path (mkArgv argv1) argv1.length
                           (getopt_all (argv1.drop 1) 1 false).2 none).1
                      else if f.program_from_os then
                        match argv1[(getopt_all (argv1.drop 1) 1 false).2]? with
                        | some s =>
                          argv1.set (getopt_all (argv1.drop 1) 1 false).2 (remove_absolute_path s)
                        | none => argv1
                      else argv1), prog) := by
  rfl

/-- The flags `main` works with are those the option loop computes from the
values `getopt` returns. -/
theorem main_options_flags (os_splits : Bool) (argv0 : List CStr) (f : Flags) (optind : Nat)
    (argv2 : List CStr) (prog : CStr)
    (h : main_options os_splits argv0 = .ok (f, optind, argv2, prog)) :
    parse_options init_flags (main_events os_splits argv0) = some f
    ∧ ¬ (f.xflag = true ∧ f.negotiation_flags = true) := by
  rw [main_options_eq] at h
  unfold main_events
  split at h
  · simp at h
  · rename_i argv1 hs
    split at h
    · simp at h
    · rename_i f0 hf0
      split at h
      · simp at h
      · split at h
        · simp at h
        · rename_i hxn
          split at h
          · simp at h
          · simp only [Except.ok.injEq, Prod.mk.injEq] at h
            obtain ⟨h1, _⟩ := h
            subst h1
            exact ⟨hf0, hxn⟩

/-- When `main` reaches `dgsh_negotiate`, the state it is in. -/
theorem main_before_negotiate_reaches (os_splits : Bool) (argv0 : List CStr) (st : Setup)
    (h : main_before_negotiate os_splits argv0 = .negotiate st) :
    ∃ f optind argv2 prog ni no,
      main_options os_splits argv0 = .ok (f, optind, argv2, prog)
      ∧ f.xflag = false
      ∧ scan_args f.embedded_args (argv2.drop (optind + 1)) f.ninputs f.noutputs = .ok (ni, no)
      ∧ st = { flags := { f with
                          ninputs := if f.stdin_as_arg ∧ ni > 1 then ni - 1 else ni
                          noutputs := if f.stdout_as_arg ∧ no > 1 then no - 1 else no }
               optind := optind
               argv := argv2
               guest_program_name := remove_absolute_path prog } := by
  unfold main_before_negotiate at h
  split at h
  · rename_i e he
    subst h
    -- `main_options` never returns `negotiate` as an error
    exfalso
    rw [main_options_eq] at he
    repeat' split at he
    all_goals simp at he
  · rename_i f optind argv2 prog hm
    split at h
    · simp at h
    · rename_i hx
      split at h
      · rename_i e hsc
        subst h
        exfalso
        have := main_options_counts os_splits argv0 f optind argv2 prog hm
        have sp := scan_args_spec f.embedded_args (argv2.drop (optind + 1)) f.ninputs f.noutputs
          this.1 this.2
        by_cases c : (f.ninputs = -1 ∧ has_marker f.embedded_args marker_in
            (argv2.drop (optind + 1)) = true) ∨ (f.noutputs = -1 ∧ has_marker f.embedded_args
            marker_out (argv2.drop (optind + 1)) = true)
        · rw [sp.1 c] at hsc
          simp at hsc
        · obtain ⟨a, b, hab⟩ := sp.2 c
          rw [hab] at hsc
          simp at hsc
      · rename_i ni no hsc
        simp only [Before.negotiate.injEq] at h
        exact ⟨f, optind, argv2, prog, ni, no, hm, by simpa using hx, hsc, h.symm⟩

/-! ## `split_argv` never aborts in `main` -/

theorem strtok_all_ne_nil (dl : CStr) : ∀ (s cur : CStr), cur ≠ [] → strtok_all dl s cur ≠ []
  | [], cur, h => by simp [strtok_all, h]
  | c :: cs, cur, h => by
    by_cases hc : c ∈ dl
    · rw [strtok_all, if_pos hc, if_neg h]
      simp
    · rw [strtok_all, if_neg hc]
      exact strtok_all_ne_nil dl cs (c :: cur) (by simp)

theorem main_split_is_some (os_splits : Bool) (argv0 : List CStr) :
    ∃ argv1, main_split os_splits argv0 = some argv1 := by
  unfold main_split
  split
  · rename_i h
    have hs : is_shebang_arg argv0 = true := by
      simp only [Bool.and_eq_true] at h
      exact h.2
    unfold is_shebang_arg at hs
    split at hs
    · rename_i a0 c r rest
      have h1 : (mkArgv (a0 :: ('-' :: c :: r) :: rest))[1]? = some (some ('-' :: c :: r)) := by
        simp [mkArgv]
      have h2 : strtok_all delim ('-' :: c :: r) [] ≠ [] := by
        have hd : '-' ∉ delim := by decide
        rw [strtok_all, if_neg hd]
        exact strtok_all_ne_nil delim _ _ (by simp)
      simp only [split_argv, h1]
      cases ht : strtok_all delim ('-' :: c :: r) [] with
      | nil => exact absurd ht h2
      | cons p ps => exact ⟨_, rfl⟩
    · simp at hs
  · exact ⟨argv0, rfl⟩

/-! ## `strrchr` -/

theorem strrchr_none (c : Char) : ∀ (s : CStr), strrchr s c = none → c ∉ s
  | [], _ => by simp
  | x :: xs, h => by
    unfold strrchr at h
    cases hr : strrchr xs c with
    | some i => simp [hr] at h
    | none =>
      simp only [hr] at h
      have hx : ¬ x = c := by
        intro e
        simp [e] at h
      have := strrchr_none c xs hr
      simp only [List.mem_cons, not_or]
      exact ⟨fun e => hx e.symm, this⟩

theorem strrchr_some (c : Char) : ∀ (s : CStr) (i : Nat), strrchr s c = some i →
    s = s.take i ++ c :: s.drop (i + 1) ∧ c ∉ s.drop (i + 1)
  | [], i, h => by simp [strrchr] at h
  | x :: xs, i, h => by
    unfold strrchr at h
    cases hr : strrchr xs c with
    | some j =>
      simp only [hr, Option.some.injEq] at h
      subst h
      obtain ⟨h1, h2⟩ := strrchr_some c xs j hr
      constructor
      · simp only [List.take_succ_cons, List.drop_succ_cons, List.cons_append]
        rw [← h1]
      · simpa using h2
    | none =>
      simp only [hr] at h
      have hn := strrchr_none c xs hr
      by_cases hx : x = c
      · simp only [hx, if_true, Option.some.injEq] at h
        subst h
        subst hx
        simp [hn]
      · simp [hx] at h

/-! ## Counting occurrences -/

theorem occurrences_of_strstr_none (needle : CStr) : ∀ (s : CStr), strstr s needle = none →
    occurrences needle s = 0
  | [], _ => rfl
  | c :: cs, h => by
    unfold strstr at h
    split at h
    · simp at h
    · rename_i hp
      have hr : strstr cs needle = none := by simpa using h
      rw [occurrences, if_neg hp, occurrences_of_strstr_none needle cs hr]

theorem occurrences_pair_after (x y : Char) (hxy : x ≠ y) (rest : CStr) :
    occurrences [x, y] (x :: y :: rest) = 1 + occurrences [x, y] rest := by
  have h1 : List.isPrefixOf [x, y] (x :: y :: rest) = true := by simp [List.isPrefixOf]
  have h2 : ¬ List.isPrefixOf [x, y] (y :: rest) = true := by
    simp [List.isPrefixOf]
    intro e
    exact absurd e hxy
  rw [occurrences, if_pos h1, occurrences, if_neg h2]
  omega

theorem occurrences_of_strstr_some (x y : Char) (hxy : x ≠ y) : ∀ (s : CStr) (off : Nat),
    strstr s [x, y] = some off →
    occurrences [x, y] s = 1 + occurrences [x, y] (s.drop (off + 2))
  | [], off, h => by simp [strstr] at h
  | c :: cs, off, h => by
    unfold strstr at h
    split at h
    · rename_i hp
      simp only [Option.some.injEq] at h
      subst h
      have hpre : [x, y] <+: c :: cs := List.isPrefixOf_iff_prefix.mp hp
      obtain ⟨r, hr⟩ := hpre
      simp only [List.cons_append, List.nil_append] at hr
      rw [← hr]
      simpa using occurrences_pair_after x y hxy r
    · rename_i hp
      cases hr : strstr cs [x, y] with
      | none => simp [hr] at h
      | some o =>
        simp only [hr, Option.map_some', Option.some.injEq] at h
        subst h
        rw [occurrences, if_neg hp, occurrences_of_strstr_some x y hxy cs o hr]
        simp

/-- The embedded counting loop adds the number of occurrences of the marker. -/
theorem scan_embedded_total (x y : Char) (hxy : x ≠ y) : ∀ (fuel : Nat) (p : CStr) (var : Int),
    0 ≤ var → p.length < fuel →
    scan_embedded [x, y] fuel p var = .ok (var + (occurrences [x, y] p : Nat))
  | 0, _, _, _, hf => by simp at hf
  | fuel + 1, p, var, hv, hf => by
    cases hs : strstr p [x, y] with
    | none =>
      simp [scan_embedded, hs, occurrences_of_strstr_none _ p hs]
    | some off =>
      have hb := strstr_pair_bound x y p off hs
      have ih := scan_embedded_total x y hxy fuel (p.drop (off + 2)) (var + 1)
        (by omega) (by simp; omega)
      simp only [scan_embedded, hs, increment_channels_nonneg var hv, ih,
        occurrences_of_strstr_some x y hxy p off hs]
      congr 1
      push_cast
      omega

/-- With counts that are not `-1` the scanning loop adds to each count the
number of markers of its direction. -/
theorem scan_args_total (embedded_args : Bool) : ∀ (args : List CStr) (ni no : Int),
    0 ≤ ni → 0 ≤ no →
    scan_args embedded_args args ni no
      = .ok (ni + (marker_total embedded_args marker_in args : Nat),
             no + (marker_total embedded_args marker_out args : Nat)) := by
  cases embedded_args with
  | false =>
    intro args ni no hi ho
    simpa [marker_total] using scan_args_standalone args ni no hi ho
  | true =>
    intro args
    induction args with
    | nil => intro ni no _ _; simp [scan_args, marker_total]
    | cons a rest ih =>
      intro ni no hi ho
      have h1 := scan_embedded_total '<' '|' (by decide) (a.length + 1) a ni hi (by omega)
      have h2 := scan_embedded_total '>' '|' (by decide) (a.length + 1) a no ho (by omega)
      have hih := ih (ni + (occurrences ['<', '|'] a : Nat)) (no + (occurrences ['>', '|'] a : Nat))
        (by omega) (by omega)
      simp only [scan_args, scan_arg, if_true, marker_in, marker_out] at hih ⊢
      rw [h1]
      simp only []
      rw [h2]
      simp only []
      rw [hih]
      simp only [marker_total, if_true, List.map_cons, List.sum_cons]
      congr 1
      push_cast
      simp only [Int.add_assoc]

/-! ## Supplying descriptors as added arguments -/

theorem supply_args_all (fds : List Int) : ∀ (n fdptr : Nat), fdptr + n ≤ fds.length →
    supply_args fds n fdptr = .ok (((fds.drop fdptr).take n).map fd_path, fdptr + n)
  | 0, fdptr, _ => by simp [supply_args]
  | n + 1, fdptr, h => by
    have hlt : fdptr < fds.length := by omega
    have ih := supply_args_all fds n (fdptr + 1) (by omega)
    have hd : fds.drop fdptr = fds[fdptr] :: fds.drop (fdptr + 1) := List.drop_eq_getElem_cons hlt
    simp only [supply_args, process_standalone_io_arg, Option.isSome_none, Bool.false_eq_true,
      false_and, if_false, List.getElem?_eq_getElem hlt, ih, hd, List.take_succ_cons,
      List.map_cons]
    congr 2
    omega

/-- The supplying branch of the rewriting, with the standard stream among the
supplied descriptors: when the cells the `memset` clears lie in the array, every
resolved descriptor becomes an added argument. -/
theorem rewrite_direction_supply (embedded_args : Bool) (special : CStr) (optind : Nat)
    (argv : List CStr) (n : Int) (fds : List Int) (cells : Nat) (hn : n = fds.length) :
    rewrite_direction true true embedded_args special optind argv n fds cells
      = if argv.length + fds.length + 1 ≤ cells
        then .ok (argv ++ fds.map fd_path, fds.length)
        else .error .oob := by
  have h := supply_args_all fds fds.length 0 (by omega)
  have h1 : ¬ (n + 1 < 0) := by omega
  have h2 : ¬ (n < 0) := by omega
  have h3 : n.toNat = fds.length := by omega
  have h4 : (n + 1).toNat = fds.length + 1 := by omega
  by_cases hc : argv.length + fds.length + 1 ≤ cells
  · have h5 : ¬ (argv.length + (fds.length + 1) > cells) := by omega
    simp only [rewrite_direction, if_true, h1, h2, if_false, h3, h4, h5, h, if_pos hc]
    simp
  · have h5 : argv.length + (fds.length + 1) > cells := by omega
    simp only [rewrite_direction, if_true, h1, if_false, h4, h5, if_neg hc]

/-- The supplying branch without the standard stream, when the cells the
`memset` clears lie in the array: the descriptors after the first become added
arguments; with no resolved descriptor at all the last argument of the vector
is lost. -/
theorem rewrite_direction_supply_rest (embedded_args : Bool) (special : CStr) (optind : Nat)
    (argv : List CStr) (n : Int) (fds : List Int) (cells : Nat) (hn : n = fds.length) :
    rewrite_direction false true embedded_args special optind argv n fds cells
      = if argv.length + fds.length ≤ cells
        then .ok ((if fds.length = 0 then argv.take (argv.length - 1) else argv)
                    ++ (fds.drop 1).map fd_path,
                  if fds.length = 0 then 1 else fds.length)
        else .error .oob := by
  have h6 : (n - 1 + 1).toNat = fds.length := by omega
  have h1 : ¬ (n - 1 + 1 < 0) := by omega
  by_cases hc : argv.length + fds.length ≤ cells
  · have h5 : ¬ (argv.length + fds.length > cells) := by omega
    by_cases h0 : fds.length = 0
    · have hnil : fds = [] := List.length_eq_zero.mp h0
      subst hnil
      have hn0 : n = 0 := by simpa using hn
      subst hn0
      simp only [List.length_nil, Nat.add_zero] at hc
      have h7 : ¬ (argv.length > cells) := by omega
      simp [rewrite_direction, h7, hc]
    · have h := supply_args_all fds (fds.length - 1) 1 (by omega)
      have h2 : ¬ (n - 1 < 0) := by omega
      have h3 : (n - 1).toNat = fds.length - 1 := by omega
      have h4 : (fds.drop 1).take (fds.length - 1) = fds.drop 1 :=
        List.take_of_length_le (by simp)
      simp only [rewrite_direction, Bool.false_eq_true, if_false, if_true, h1, h2, h3, h, h4, h0,
        h5, h6, if_pos hc]
      congr 2
      omega
  · have h5 : argv.length + fds.length > cells := by omega
    simp only [rewrite_direction, Bool.false_eq_true, if_false, if_true, h1, h5, h6, if_neg hc]

/-! ## The last flag of a direction -/

theorem last_count_append (ch : Char) : ∀ (pre rest : List (Char × CStr)) (dflt : Int),
    last_count ch dflt (pre ++ rest) = last_count ch (last_count ch dflt pre) rest
  | [], _, _ => rfl
  | (c, optarg) :: pre, rest, dflt => by
    show last_count ch dflt ((c, optarg) :: (pre ++ rest)) = _
    rw [last_count, last_count, last_count_append ch pre rest]

theorem last_count_arbitrary (ch : Char) (pre post : List (Char × CStr)) (dflt : Int)
    (hpost : ∀ e ∈ post, e.1 ≠ ch) :
    last_count ch dflt (pre ++ (ch, ['a']) :: post) = -1 := by
  rw [last_count_append, last_count, if_pos rfl, last_count_of_not_mem ch post _ hpost]
  decide

theorem any_of_mem_append {α : Type} (p : α → Bool) (pre post : List α) (a : α) (h : p a = true) :
    (pre ++ a :: post).any p = true := by
  simp [h]

/-! ## The pieces of a string between its markers -/

theorem pieces_fuel_enough (x y : Char) : ∀ (fuel1 fuel2 : Nat) (s : CStr),
    s.length ≤ fuel1 → s.length ≤ fuel2 →
    pieces_fuel [x, y] fuel1 s = pieces_fuel [x, y] fuel2 s
  | 0, fuel2, s, h1, _ => by
    have hs : s = [] := List.length_eq_zero.mp (by omega)
    subst hs
    cases fuel2 <;> simp [pieces_fuel, strstr]
  | fuel1 + 1, 0, s, _, h2 => by
    have hs : s = [] := List.length_eq_zero.mp (by omega)
    subst hs
    simp [pieces_fuel, strstr]
  | fuel1 + 1, fuel2 + 1, s, h1, h2 => by
    cases hs : strstr s [x, y] with
    | none => simp [pieces_fuel, hs]
    | some off =>
      have hb := strstr_pair_bound x y s off hs
      have ih := pieces_fuel_enough x y fuel1 fuel2 (s.drop (off + 2))
        (by simp; omega) (by simp; omega)
      simp only [pieces_fuel, hs, List.length_cons, List.length_nil]
      rw [ih]

theorem pieces_of_none (x y : Char) (s : CStr) (h : strstr s [x, y] = none) :
    pieces [x, y] s = [s] := by
  unfold pieces
  cases hl : s.length with
  | zero => simp [pieces_fuel]
  | succ n => simp [pieces_fuel, h]

theorem pieces_of_some (x y : Char) (s : CStr) (off : Nat) (h : strstr s [x, y] = some off) :
    pieces [x, y] s = s.take off :: pieces [x, y] (s.drop (off + 2)) := by
  have hb := strstr_pair_bound x y s off h
  unfold pieces
  cases hl : s.length with
  | zero => omega
  | succ n =>
    simp only [pieces_fuel, h, List.length_cons, List.length_nil]
    rw [pieces_fuel_enough x y n (s.drop (off + 2)).length (s.drop (off + 2))
      (by simp; omega) (Nat.le_refl _)]

theorem pieces_length (x y : Char) (hxy : x ≠ y) : ∀ (n : Nat) (s : CStr), s.length ≤ n →
    (pieces [x, y] s).length = occurrences [x, y] s + 1
  | n, s, hn => by
    cases hs : strstr s [x, y] with
    | none => rw [pieces_of_none x y s hs, occurrences_of_strstr_none _ s hs]; rfl
    | some off =>
      have hb := strstr_pair_bound x y s off hs
      cases n with
      | zero => omega
      | succ n =>
        rw [pieces_of_some x y s off hs, occurrences_of_strstr_some x y hxy s off hs,
          List.length_cons, pieces_length x y hxy n (s.drop (off + 2)) (by simp; omega)]
        omega

theorem fill_arg_of_none (pfx : CStr) (x y : Char) (s : CStr) (ds : List Int)
    (h : strstr s [x, y] = none) : fill_arg pfx [x, y] s ds = s := by
  simp [fill_arg, pieces_of_none x y s h]

theorem pieces_ne_nil (x y : Char) (s : CStr) : pieces [x, y] s ≠ [] := by
  cases hs : strstr s [x, y] with
  | none => rw [pieces_of_none x y s hs]; simp
  | some off => rw [pieces_of_some x y s off hs]; simp

theorem fill_arg_of_some (pfx : CStr) (x y : Char) (s : CStr) (off : Nat) (d : Int)
    (ds : List Int) (h : strstr s [x, y] = some off) :
    fill_arg pfx [x, y] s (d :: ds)
      = s.take off ++ (pfx ++ fmt_d d ++ fill_arg pfx [x, y] (s.drop (off + 2)) ds) := by
  unfold fill_arg
  rw [pieces_of_some x y s off h]
  cases hp : pieces [x, y] (s.drop (off + 2)) with
  | nil => exact absurd hp (pieces_ne_nil x y _)
  | cons t1 ts => simp

/-- The replacement loop of the structured variant computes `fill_arg`. -/
theorem embedded_while_fill (x y : Char) (hxy : x ≠ y) (hx : x ∉ fd_chars) (hy : y ≠ '/')
    (fds : List Int) : ∀ (k : Nat) (s pre : CStr) (fdptr fuel : Nat),
    occurrences [x, y] s = k → strstr pre [x, y] = none →
    (pre = [] ∨ pre.getLast? ≠ some x ∨ s.head? ≠ some y) →
    fdptr + k ≤ fds.length → k < fuel →
    embedded_while [x, y] fds fuel (pre ++ s) fdptr
      = .ok (pre ++ fill_arg dev_fd [x, y] s (fds.drop fdptr), fdptr + k) := by
  intro k
  induction k with
  | zero =>
    intro s pre fdptr fuel hk hpre hj _ hf
    have hs : strstr s [x, y] = none := by
      cases h : strstr s [x, y] with
      | none => rfl
      | some off =>
        rw [occurrences_of_strstr_some x y hxy s off h] at hk
        omega
    have hps : strstr (pre ++ s) [x, y] = none := by
      rcases hj with rfl | hj
      · simpa using hs
      · exact strstr_pair_append_none x y s hs pre hpre hj
    cases fuel with
    | zero => omega
    | succ fuel =>
      simp [embedded_while, process_embedded_io_arg, hps, fill_arg_of_none dev_fd x y s _ hs]
  | succ k ih =>
    intro s pre fdptr fuel hk hpre hj hle hf
    have hs : ∃ off, strstr s [x, y] = some off := by
      cases h : strstr s [x, y] with
      | none => rw [occurrences_of_strstr_none _ s h] at hk; omega
      | some off => exact ⟨off, rfl⟩
    obtain ⟨off, hs⟩ := hs
    have hlt : fdptr < fds.length := by omega
    have hocc := occurrences_of_strstr_some x y hxy s off hs
    have hfound := strstr_found s [x, y] off hs
    obtain ⟨r, hr⟩ := hfound
    have hsplit : s = s.take off ++ x :: y :: s.drop (off + 2) := by
      have h1 : s = s.take off ++ s.drop off := (List.take_append_drop off s).symm
      have h2 : s.drop (off + 2) = r := by
        rw [← List.drop_drop, ← hr]
        simp
      rw [h2]
      rw [← hr] at h1
      simpa using h1
    have htake : strstr (s.take off) [x, y] = none :=
      strstr_take_none [x, y] s off off hs (Nat.le_refl _) (by simp)
    have hpt : strstr (pre ++ s.take off) [x, y] = none := by
      by_cases hto : s.take off = []
      · rw [hto]; simpa using hpre
      · rcases hj with rfl | hj
        · simpa using htake
        · apply strstr_pair_append_none x y _ htake pre hpre
          rcases hj with hj | hj
          · exact Or.inl hj
          · right
            intro hh
            apply hj
            have : (s.take off).head? = s.head? := by
              cases s with
              | nil => simp at hto
              | cons c cs =>
                cases off with
                | zero => simp at hto
                | succ o => simp
            rw [← this]
            exact hh
    cases fuel with
    | zero => omega
    | succ fuel =>
      have hd : fds.drop fdptr = fds[fdptr] :: fds.drop (fdptr + 1) :=
        List.drop_eq_getElem_cons hlt
      have hstep : process_embedded_io_arg (pre ++ s) [x, y] fds fdptr
          = .ok (true, (pre ++ s.take off) ++ fd_path fds[fdptr] ++ s.drop (off + 2),
                 fdptr + 1) := by
        have := process_embedded_at x y hxy (pre ++ s.take off) (s.drop (off + 2)) fds fdptr
          fds[fdptr] hpt (List.getElem?_eq_getElem hlt)
        rw [List.append_assoc, ← hsplit] at this
        exact this
      have hnext := ih (s.drop (off + 2)) ((pre ++ s.take off) ++ fd_path fds[fdptr]) (fdptr + 1)
        fuel (by omega)
        (by
          have := strstr_pair_step x y hx hy (pre ++ s.take off) [] fds[fdptr] hpt
            (by simp [strstr])
          simpa using this)
        (Or.inr (Or.inl (by
          intro hl
          have hmem : x ∈ fd_path fds[fdptr] := by
            have h1 : ((pre ++ s.take off) ++ fd_path fds[fdptr]).getLast?
                = (fd_path fds[fdptr]).getLast? :=
              List.getLast?_append_of_ne_nil _ (fd_path_ne_nil _)
            rw [h1] at hl
            exact List.mem_of_getLast?_eq_some hl
          exact hx (fd_path_mem _ x hmem))))
        (by omega) (by omega)
      rw [embedded_while, hstep]
      simp only []
      rw [hnext, hd, fill_arg_of_some dev_fd x y s off _ _ hs]
      simp [fd_path, Nat.add_assoc, Nat.add_comm 1]

/-! ## The embedded replacement over a vector -/

/-- In embedded mode the substituting loop computes `fill_args`. -/
theorem substitute_embedded_fill (x y : Char) (hxy : x ≠ y) (hx : x ∉ fd_chars) (hy : y ≠ '/')
    (fds : List Int) : ∀ (args : List CStr) (fdptr : Nat),
    fdptr + (args.map (occurrences [x, y])).sum ≤ fds.length →
    substitute_args true [x, y] fds args fdptr
      = .ok (fill_args dev_fd [x, y] args (fds.drop fdptr),
             fdptr + (args.map (occurrences [x, y])).sum)
  | [], fdptr, _ => by simp [substitute_args, fill_args]
  | a :: rest, fdptr, h => by
    simp only [List.map_cons, List.sum_cons] at h
    have h1 := embedded_while_fill x y hxy hx hy fds (occurrences [x, y] a) a [] fdptr
      (fds.length + 1) rfl (by simp [strstr]) (Or.inl rfl) (by omega) (by omega)
    simp only [List.nil_append] at h1
    have ih := substitute_embedded_fill x y hxy hx hy fds rest (fdptr + occurrences [x, y] a)
      (by omega)
    have hp : (pieces [x, y] a).length - 1 = occurrences [x, y] a := by
      rw [pieces_length x y hxy a.length a (Nat.le_refl _)]
      omega
    have hdd : (fds.drop fdptr).drop (occurrences [x, y] a)
        = fds.drop (fdptr + occurrences [x, y] a) := by
      rw [List.drop_drop]
    rw [fill_args, hp, hdd]
    simp only [substitute_args, if_true, h1, ih, List.map_cons, List.sum_cons, Nat.add_assoc]

/-- The substituting branch of the rewriting in embedded mode. -/
theorem rewrite_direction_embedded (as_arg : Bool) (x y : Char) (hxy : x ≠ y)
    (hx : x ∉ fd_chars) (hy : y ≠ '/') (optind : Nat) (argv : List CStr) (n : Int)
    (fds : List Int)
    (h : (if as_arg then 0 else 1) + marker_total true [x, y] (argv.drop (optind + 1))
          ≤ fds.length) (cells : Nat) :
    rewrite_direction as_arg false true [x, y] optind argv n fds cells
      = .ok (argv.take (optind + 1)
              ++ fill_args dev_fd [x, y] (argv.drop (optind + 1))
                   (fds.drop (if as_arg then 0 else 1)),
             (if as_arg then 0 else 1) + marker_total true [x, y] (argv.drop (optind + 1))) := by
  simp only [marker_total, if_true] at h ⊢
  have hs := substitute_embedded_fill x y hxy hx hy fds (argv.drop (optind + 1))
    (if as_arg then 0 else 1) h
  simp only [rewrite_direction, Bool.false_eq_true, if_false, hs]

/-- The substituting branch of the rewriting in standalone mode. -/
theorem rewrite_direction_standalone (as_arg : Bool) (special : CStr)
    (hsp : ∀ d, fd_path d ≠ special) (optind : Nat) (argv : List CStr) (n : Int)
    (fds : List Int)
    (h : (if as_arg then 0 else 1) + marker_total false special (argv.drop (optind + 1))
          ≤ fds.length) (cells : Nat) :
    ∃ args1,
      rewrite_direction as_arg false false special optind argv n fds cells
        = .ok (argv.take (optind + 1) ++ args1,
               (if as_arg then 0 else 1) + marker_total false special (argv.drop (optind + 1)))
      ∧ args1.length = (argv.drop (optind + 1)).length
      ∧ (∀ (i : Nat) (a : CStr), (argv.drop (optind + 1))[i]? = some a → a ≠ special →
          args1[i]? = some a)
      ∧ (∀ (i : Nat), (argv.drop (optind + 1))[i]? = some special →
          ∃ d, fds[(if as_arg then 0 else 1)
                    + ((argv.drop (optind + 1)).take i).count special]? = some d
            ∧ args1[i]? = some (fd_path d)) := by
  simp only [marker_total, Bool.false_eq_true, if_false] at h ⊢
  obtain ⟨args1, h1, h2, h3, h4, _, _⟩ :=
    substitute_standalone special hsp fds (argv.drop (optind + 1)) (if as_arg then 0 else 1) h
  refine ⟨args1, ?_, h2, h3, h4⟩
  simp only [rewrite_direction, Bool.false_eq_true, if_false, h1]

/-! ## The counts the scanner returns -/

theorem scan_arg_counts (embedded_args : Bool) (a : CStr) (ni no ni1 no1 : Int)
    (h : scan_arg embedded_args a ni no = .ok (ni1, no1)) :
    (0 ≤ ni → ni1 = ni + (marker_total embedded_args marker_in [a] : Nat))
    ∧ (0 ≤ no → no1 = no + (marker_total embedded_args marker_out [a] : Nat)) := by
  rw [scan_arg_eq] at h
  cases embedded_args with
  | true =>
    simp only [if_true] at h
    constructor
    · intro hi
      rw [scan_embedded_total '<' '|' (by decide) (a.length + 1) a ni hi (by omega)] at h
      simp only [] at h
      split at h
      · simp at h
      · simp only [Except.ok.injEq, Prod.mk.injEq] at h
        rw [← h.1]
        simp [marker_total, marker_in]
    · intro ho
      rw [scan_embedded_total '>' '|' (by decide) (a.length + 1) a no ho (by omega)] at h
      split at h
      · simp at h
      · simp only [] at h
        simp only [Except.ok.injEq, Prod.mk.injEq] at h
        rw [← h.2]
        simp [marker_total, marker_out]
  | false =>
    simp only [Bool.false_eq_true, if_false] at h
    constructor
    · intro hi
      by_cases ha : a = ['<', '|']
      · simp only [ha, if_true, increment_channels_nonneg ni hi] at h
        split at h
        · simp at h
        · simp only [Except.ok.injEq, Prod.mk.injEq] at h
          rw [← h.1, ha]
          simp [marker_total, marker_in]
      · simp only [ha, if_false] at h
        split at h
        · simp at h
        · simp only [Except.ok.injEq, Prod.mk.injEq] at h
          rw [← h.1]
          have : (a == marker_in) = false := by simpa [marker_in] using ha
          simp [marker_total, List.count_cons, this]
    · intro ho
      split at h
      · simp at h
      · rename_i v hv
        by_cases ha : a = ['>', '|']
        · simp only [ha, if_true, increment_channels_nonneg no ho] at h
          simp only [Except.ok.injEq, Prod.mk.injEq] at h
          rw [← h.2, ha]
          simp [marker_total, marker_out]
        · simp only [ha, if_false] at h
          simp only [Except.ok.injEq, Prod.mk.injEq] at h
          rw [← h.2]
          have : (a == marker_out) = false := by simpa [marker_out] using ha
          simp [marker_total, List.count_cons, this]

theorem marker_total_cons (embedded_args : Bool) (special a : CStr) (rest : List CStr) :
    marker_total embedded_args special (a :: rest)
      = marker_total embedded_args special [a] + marker_total embedded_args special rest := by
  cases embedded_args with
  | true => simp [marker_total]
  | false =>
    simp only [marker_total, Bool.false_eq_true, if_false, List.count_cons, List.count_nil]
    omega

/-- Whatever the other direction does, a count that is not `-1` grows by the
number of markers of its direction. -/
theorem scan_args_counts (embedded_args : Bool) : ∀ (args : List CStr) (ni no ni1 no1 : Int),
    scan_args embedded_args args ni no = .ok (ni1, no1) →
    (0 ≤ ni → ni1 = ni + (marker_total embedded_args marker_in args : Nat))
    ∧ (0 ≤ no → no1 = no + (marker_total embedded_args marker_out args : Nat))
  | [], ni, no, ni1, no1, h => by
    simp only [scan_args, Except.ok.injEq, Prod.mk.injEq] at h
    obtain ⟨h1, h2⟩ := h
    subst h1 h2
    cases embedded_args <;> simp [marker_total]
  | a :: rest, ni, no, ni1, no1, h => by
    simp only [scan_args] at h
    cases hs : scan_arg embedded_args a ni no with
    | error e => simp [hs] at h
    | ok p =>
      obtain ⟨x1, y1⟩ := p
      simp only [hs] at h
      obtain ⟨a1, a2⟩ := scan_arg_counts embedded_args a ni no x1 y1 hs
      obtain ⟨b1, b2⟩ := scan_args_counts embedded_args rest x1 y1 ni1 no1 h
      constructor
      · intro hi
        have e1 := a1 hi
        have e2 := b1 (by omega)
        rw [marker_total_cons, e2, e1]
        push_cast
        omega
      · intro ho
        have e1 := a2 ho
        have e2 := b2 (by omega)
        rw [marker_total_cons, e2, e1]
        push_cast
        omega

/-! ## Facts about the top-level variant -/

theorem fmt_d_length_le (d : Int) (h0 : 0 ≤ d) (h1 : d ≤ 99999) : (fmt_d d).length ≤ 5 := by
  cases d with
  | negSucc n => exact absurd h0 (by simp [Int.negSucc_lt_zero])
  | ofNat n =>
    have hn : n < 10 ^ 5 := by
      have : (n : Int) ≤ 99999 := h1
      omega
    show (Nat.toDigitsCore 10 (n + 1) n []).length ≤ 5
    exact Nat.toDigitsCore_length 10 (by decide) (n + 1) n 5 hn (by decide)

theorem proc_path_length_lt (d : Int) (h0 : 0 ≤ d) (h1 : d ≤ 99999) :
    (Toplevel.proc_path d).length < 20 := by
  have := fmt_d_length_le d h0 h1
  have hp : Toplevel.proc_fd.length = 14 := by decide
  simp only [Toplevel.proc_path, List.length_append, hp]
  omega

theorem toplevel_count_while : ∀ (fuel : Nat) (s : CStr) (n : Int), s.length < fuel →
    Toplevel.count_while fuel (Toplevel.strstr_ptr s) n
      = .ok (n + (occurrences marker_in s : Nat))
  | 0, _, _, h => by omega
  | fuel + 1, s, n, h => by
    cases hs : strstr s marker_in with
    | none =>
      have ho := occurrences_of_strstr_none _ s hs
      simp [Toplevel.strstr_ptr, hs, Toplevel.count_while, ho]
    | some off =>
      have hb := strstr_pair_bound '<' '|' s off hs
      have ho := occurrences_of_strstr_some '<' '|' (by decide) s off hs
      have hl : (s.drop (off + 2)).length < fuel := by
        rw [List.length_drop]
        omega
      have ih := toplevel_count_while fuel (s.drop (off + 2)) (n + 1) hl
      have hd : (s.drop off).drop 2 = s.drop (off + 2) := by
        rw [List.drop_drop]
      have hp : Toplevel.strstr_ptr s = some (s.drop off) := by
        simp [Toplevel.strstr_ptr, hs]
      rw [hp, Toplevel.count_while, hd, ih]
      have ho2 : occurrences marker_in s = 1 + occurrences marker_in (s.drop (off + 2)) := ho
      rw [ho2]
      congr 1
      push_cast
      omega

theorem toplevel_count_arg (arg : CStr) (ninputs : Option Int) :
    Toplevel.count_arg arg ninputs
      = .ok (if occurrences marker_in arg = 0 then ninputs
             else some (ninputs.getD 1 + (occurrences marker_in arg : Nat))) := by
  by_cases ha : arg = marker_in
  · subst ha
    cases ninputs <;> simp [Toplevel.count_arg, Toplevel.count_while, occurrences, marker_in]
  · cases hs : strstr arg marker_in with
    | none =>
      have ho := occurrences_of_strstr_none _ arg hs
      simp [Toplevel.count_arg, ha, Toplevel.strstr_ptr, hs, ho]
    | some off =>
      have ho := occurrences_of_strstr_some '<' '|' (by decide) arg off hs
      have ho2 : occurrences marker_in arg ≠ 0 := by
        have : occurrences marker_in arg = 1 + occurrences marker_in (arg.drop (off + 2)) := ho
        omega
      have hp : Toplevel.strstr_ptr arg = some (arg.drop off) := by
        simp [Toplevel.strstr_ptr, hs]
      have hw := fun n => toplevel_count_while (arg.length + 1) arg n (by omega)
      rw [hp] at hw
      cases ninputs <;>
        simp [Toplevel.count_arg, ha, hp, hw, ho2]

theorem toplevel_count_args : ∀ (args : List CStr) (ninputs : Option Int),
    Toplevel.count_args args ninputs
      = .ok (if marker_total true marker_in args = 0 then ninputs
             else some (ninputs.getD 1 + (marker_total true marker_in args : Nat)))
  | [], ninputs => by simp [Toplevel.count_args, marker_total]
  | a :: rest, ninputs => by
    rw [Toplevel.count_args, toplevel_count_arg]
    simp only []
    rw [toplevel_count_args rest]
    rw [marker_total_cons true marker_in a rest]
    have h1 : marker_total true marker_in [a] = occurrences marker_in a := by
      simp [marker_total]
    rw [h1]
    by_cases ha : occurrences marker_in a = 0
    · simp [ha]
    · by_cases hr : marker_total true marker_in rest = 0
      · simp [ha, hr]
      · have hne : occurrences marker_in a + marker_total true marker_in rest ≠ 0 := by omega
        simp only [ha, hr, hne, if_false, Option.getD_some]
        congr 2
        push_cast
        omega

theorem occurrences_le_length (needle : CStr) : ∀ (s : CStr),
    occurrences needle s ≤ s.length
  | [] => by simp [occurrences]
  | c :: cs => by
    have ih := occurrences_le_length needle cs
    rw [occurrences, List.length_cons]
    split <;> omega

theorem fill_arg_no_descriptor (pfx : CStr) (x y : Char) (s : CStr) :
    (fill_arg pfx [x, y] s []).length ≤ s.length := by
  cases hs : strstr s [x, y] with
  | none => rw [fill_arg_of_none pfx x y s [] hs]
  | some off =>
    unfold fill_arg
    rw [pieces_of_some x y s off hs]
    simp

theorem fill_arg_proc_length : ∀ (n : Nat) (s : CStr) (ds : List Int), s.length ≤ n →
    (∀ d ∈ ds, 0 ≤ d ∧ d ≤ 99999) →
    (fill_arg Toplevel.proc_fd marker_in s ds).length
      ≤ s.length + 17 * occurrences marker_in s
  | n, s, [], _, _ => by
    have := fill_arg_no_descriptor Toplevel.proc_fd '<' '|' s
    have e : marker_in = ['<', '|'] := rfl
    rw [e]
    omega
  | n, s, d :: ds, hn, hd => by
    cases hs : strstr s marker_in with
    | none =>
      rw [show marker_in = ['<', '|'] from rfl] at hs ⊢
      rw [fill_arg_of_none _ '<' '|' s _ hs]
      omega
    | some off =>
      have hb := strstr_pair_bound '<' '|' s off hs
      have ho : occurrences marker_in s = 1 + occurrences marker_in (s.drop (off + 2)) :=
        occurrences_of_strstr_some '<' '|' (by decide) s off hs
      have hf : fill_arg Toplevel.proc_fd marker_in s (d :: ds)
          = s.take off ++ (Toplevel.proc_fd ++ fmt_d d
              ++ fill_arg Toplevel.proc_fd marker_in (s.drop (off + 2)) ds) :=
        fill_arg_of_some _ '<' '|' s off d ds hs
      have hl : (s.drop (off + 2)).length = s.length - (off + 2) := List.length_drop _ _
      cases n with
      | zero => omega
      | succ n =>
        have ih := fill_arg_proc_length n (s.drop (off + 2)) ds (by omega)
          (fun e he => hd e (List.mem_cons_of_mem _ he))
        have hdl := fmt_d_length_le d (hd d (List.mem_cons_self _ _)).1
          (hd d (List.mem_cons_self _ _)).2
        have hp : Toplevel.proc_fd.length = 14 := by decide
        rw [hf, ho]
        simp only [List.length_append, List.length_take, hp]
        omega

theorem toplevel_subst_while (fds : List Int) (hr : ∀ d ∈ fds, 0 ≤ d ∧ d ≤ 99999) :
    ∀ (fuel : Nat) (base : CStr) (off : Nat) (acc : CStr) (n : Nat),
    strstr base marker_in = some off → occurrences marker_in base ≤ fuel →
    n + occurrences marker_in base ≤ fds.length →
    Toplevel.subst_while fds fuel base (some off) acc n
      = .ok (acc ++ fill_arg Toplevel.proc_fd marker_in base (fds.drop n),
             n + occurrences marker_in base)
  | fuel, base, off, acc, n, hs, hf, hn => by
    have ho : occurrences marker_in base = 1 + occurrences marker_in (base.drop (off + 2)) :=
      occurrences_of_strstr_some '<' '|' (by decide) base off hs
    cases fuel with
    | zero => omega
    | succ fuel =>
      have hlt : n < fds.length := by omega
      have hget : fds[n]? = some fds[n] := List.getElem?_eq_getElem hlt
      have hdrop : fds.drop n = fds[n] :: fds.drop (n + 1) := List.drop_eq_getElem_cons hlt
      have hrange := hr fds[n] (List.getElem_mem hlt)
      have hpl : ¬ (Toplevel.proc_path fds[n]).length ≥ 20 := by
        have := proc_path_length_lt fds[n] hrange.1 hrange.2
        omega
      have hfill : fill_arg Toplevel.proc_fd marker_in base (fds[n] :: fds.drop (n + 1))
          = base.take off ++ (Toplevel.proc_fd ++ fmt_d fds[n]
              ++ fill_arg Toplevel.proc_fd marker_in (base.drop (off + 2)) (fds.drop (n + 1))) :=
        fill_arg_of_some _ '<' '|' base off _ _ hs
      have hacc : (if acc.length > 0 then acc ++ base.take off ++ Toplevel.proc_path fds[n]
          else base.take off ++ Toplevel.proc_path fds[n])
          = acc ++ base.take off ++ Toplevel.proc_path fds[n] := by
        split
        · rfl
        · have : acc = [] := List.length_eq_zero.mp (by omega)
          rw [this]
          rfl
      rw [Toplevel.subst_while, hget]
      simp only [if_neg hpl, hacc]
      rw [hdrop, hfill]
      cases hs1 : strstr (base.drop (off + 2)) marker_in with
      | none =>
        have ho1 := occurrences_of_strstr_none _ _ hs1
        have hf1 : fill_arg Toplevel.proc_fd marker_in (base.drop (off + 2)) (fds.drop (n + 1))
            = base.drop (off + 2) := fill_arg_of_none _ '<' '|' _ _ hs1
        rw [hf1, ho, ho1]
        simp [Toplevel.subst_while, Toplevel.proc_path]
      | some off1 =>
        have ih := toplevel_subst_while fds hr fuel (base.drop (off + 2)) off1
          (acc ++ base.take off ++ Toplevel.proc_path fds[n]) (n + 1) hs1 (by omega) (by omega)
        simp only [Option.isNone_some, Bool.false_eq_true, if_false]
        rw [ih, ho]
        simp only [Toplevel.proc_path, List.append_assoc]
        congr 2
        omega
termination_by fuel => fuel

theorem toplevel_subst_arg (fds : List Int) (hr : ∀ d ∈ fds, 0 ≤ d ∧ d ≤ 99999)
    (ninputs : Int) (k : Nat) (hk : 17 * (k : Int) < 20 * ninputs) (fds_cells : Nat) (arg : CStr)
    (idx n : Nat) (hidx : idx < fds_cells)
    (hocc : occurrences marker_in arg ≤ k) (hn : n + occurrences marker_in arg ≤ fds.length) :
    Toplevel.subst_arg fds ninputs fds_cells arg idx n
      = .ok (fill_arg Toplevel.proc_fd marker_in arg (fds.drop n),
             n + occurrences marker_in arg) := by
  have hlen := fill_arg_proc_length arg.length arg (fds.drop n) (Nat.le_refl _)
    (fun d hd => hr d (List.mem_of_mem_drop hd))
  have hge : ¬ idx ≥ fds_cells := by omega
  by_cases ha : arg = marker_in
  · subst ha
    have ho : occurrences marker_in marker_in = 1 := by decide
    rw [ho] at hn hocc hlen ⊢
    have hlt : n < fds.length := by omega
    have hget : fds[n]? = some fds[n] := List.getElem?_eq_getElem hlt
    have hdrop : fds.drop n = fds[n] :: fds.drop (n + 1) := List.drop_eq_getElem_cons hlt
    have hfill : fill_arg Toplevel.proc_fd marker_in marker_in (fds.drop n)
        = Toplevel.proc_path fds[n] := by
      rw [hdrop]
      have h0 : fill_arg Toplevel.proc_fd marker_in marker_in (fds[n] :: fds.drop (n + 1))
          = marker_in.take 0 ++ (Toplevel.proc_fd ++ fmt_d fds[n]
              ++ fill_arg Toplevel.proc_fd marker_in (marker_in.drop (0 + 2))
                   (fds.drop (n + 1))) :=
        fill_arg_of_some Toplevel.proc_fd '<' '|' marker_in 0 fds[n] (fds.drop (n + 1))
          (by decide)
      rw [h0]
      simp [Toplevel.proc_path, marker_in, fill_arg, pieces, pieces_fuel]
    rw [hfill] at hlen ⊢
    have hsz : ¬ (((Toplevel.proc_path fds[n]).length : Int) + 1
        > ((marker_in.length : Nat) : Int) + 20 * ninputs) := by
      have : marker_in.length = 2 := rfl
      rw [this] at hlen ⊢
      omega
    simp only [Toplevel.subst_arg, if_true, true_or, Option.isNone_none, hget, hsz, if_false,
      hge]
  · cases hs : strstr arg marker_in with
    | none =>
      have ho := occurrences_of_strstr_none _ arg hs
      have hf : fill_arg Toplevel.proc_fd marker_in arg (fds.drop n) = arg :=
        fill_arg_of_none _ '<' '|' _ _ hs
      simp [Toplevel.subst_arg, ha, hs, ho, hf]
    | some off =>
      have hw := toplevel_subst_while fds hr (arg.length + 1) arg off [] n hs
        (Nat.le_succ_of_le (occurrences_le_length marker_in arg)) hn
      simp only [List.nil_append] at hw
      have hsz : ¬ (((fill_arg Toplevel.proc_fd marker_in arg (fds.drop n)).length : Int) + 1
          > (arg.length : Int) + 20 * ninputs) := by
        omega
      simp only [Toplevel.subst_arg, ha, hs, if_false, false_or, Option.isSome_some, if_true,
        Option.isNone_some, Bool.false_eq_true, hw, hsz, hge]

/-! ## Both variants up to the negotiation -/

theorem toplevel_subst_args (fds : List Int) (hr : ∀ d ∈ fds, 0 ≤ d ∧ d ≤ 99999)
    (ninputs : Int) (k : Nat) (hk : 17 * (k : Int) < 20 * ninputs) (fds_cells : Nat) :
    ∀ (args : List CStr) (idx n : Nat), idx + args.length ≤ fds_cells →
    marker_total true marker_in args ≤ k →
    n + marker_total true marker_in args ≤ fds.length →
    Toplevel.subst_args fds ninputs fds_cells args idx n
      = .ok (fill_args Toplevel.proc_fd marker_in args (fds.drop n),
             n + marker_total true marker_in args)
  | [], idx, n, _, _, _ => by simp [Toplevel.subst_args, fill_args, marker_total]
  | a :: rest, idx, n, hidx, hocc, hn => by
    rw [marker_total_cons true marker_in a rest] at hocc hn ⊢
    have h1 : marker_total true marker_in [a] = occurrences marker_in a := by
      simp [marker_total]
    rw [h1] at hocc hn ⊢
    simp only [List.length_cons] at hidx
    have ha := toplevel_subst_arg fds hr ninputs k hk fds_cells a idx n (by omega) (by omega)
      (by omega)
    have ih := toplevel_subst_args fds hr ninputs k hk fds_cells rest (idx + 1)
      (n + occurrences marker_in a) (by omega) (by omega) (by omega)
    have hp : (pieces marker_in a).length - 1 = occurrences marker_in a := by
      have := pieces_length '<' '|' (by decide) a.length a (Nat.le_refl _)
      have e : marker_in = ['<', '|'] := rfl
      rw [e]
      omega
    have hdd : (fds.drop n).drop (occurrences marker_in a)
        = fds.drop (n + occurrences marker_in a) := by rw [List.drop_drop]
    rw [Toplevel.subst_args, ha]
    simp only [ih]
    rw [fill_args, hp, hdd, Nat.add_assoc]

/-- The title is built from entries that exist when `exec_argv` holds the
program name and all the arguments but one of a call without flag. -/
theorem toplevel_make_title (prog : CStr) (args : List CStr) :
    ∃ title, Toplevel.make_title (args.length + 3) prog (prog :: args) = .ok title := by
  cases args with
  | nil => exact ⟨prog.take 99, by simp [Toplevel.make_title]⟩
  | cons x rest =>
    cases rest with
    | nil => exact ⟨(prog ++ ' ' :: x).take 99, by simp [Toplevel.make_title]⟩
    | cons y rest =>
      exact ⟨(prog ++ ' ' :: x ++ ' ' :: y).take 99, by simp [Toplevel.make_title]⟩

/-- A call without flag whose argument after the program name starts with the
characters `argv[0]` has before its last nine: that argument is skipped, the
stores to `exec_argv` stay inside the array, and `main` reaches the
negotiation. -/
theorem toplevel_before_negotiate (a0 prog a1 : CStr) (args : List CStr)
    (ninputs1 : Option Int) (hprog : prog.head? ≠ some '-')
    (hskip : 9 < a0.length ∧ a1.take (a0.length - 9) = a0.take (a0.length - 9))
    (hcount : Toplevel.count_args (prog :: args) none = .ok ninputs1) :
    ∃ title, Toplevel.main_before_negotiate (a0 :: prog :: a1 :: args)
      = .negotiate
          { argc := args.length + 3
            ninputs := ninputs1
            noutputs := none
            exec_argv := prog :: args
            guest_program_name := prog
            negotiation_title := title } := by
  obtain ⟨hc, hp⟩ := hskip
  obtain ⟨title, ht⟩ := toplevel_make_title prog args
  have hcc : ((a0.length : Int) - 9 > 0) := by omega
  have htn : ((a0.length : Int) - 9).toNat = a0.length - 9 := by omega
  refine ⟨title, ?_⟩
  simp [Toplevel.main_before_negotiate, hprog, hcc, htn, hp, hcount, ht]

/-- A call without flag in which no argument is skipped does not reach the
negotiation in a defined way: the `NULL` that ends `exec_argv` is stored behind
the array (or, with nothing after the program name and a long `argv[0]`,
`strncmp` is handed `NULL`). -/
theorem toplevel_without_skip_is_fault (a0 prog : CStr) (args : List CStr)
    (hprog : prog.head? ≠ some '-')
    (hns : ∀ a1 rest, args = a1 :: rest →
      ¬ (9 < a0.length ∧ a1.take (a0.length - 9) = a0.take (a0.length - 9))) :
    Toplevel.main_before_negotiate (a0 :: prog :: args)
      = .fault (if args = [] ∧ 9 < a0.length then .null else .oob) := by
  cases args with
  | nil =>
    by_cases hc : 9 < a0.length
    · have hcc : ((a0.length : Int) - 9 > 0) := by omega
      simp [Toplevel.main_before_negotiate, hprog, hcc, hc]
    · have hcc : ¬ ((a0.length : Int) - 9 > 0) := by omega
      simp [Toplevel.main_before_negotiate, hprog, hcc, hc]
  | cons a1 rest =>
    have hn := hns a1 rest rfl
    by_cases hc : 9 < a0.length
    · have hcc : ((a0.length : Int) - 9 > 0) := by omega
      have htn : ((a0.length : Int) - 9).toNat = a0.length - 9 := by omega
      have hp : ¬ a1.take (a0.length - 9) = a0.take (a0.length - 9) := fun e => hn ⟨hc, e⟩
      simp [Toplevel.main_before_negotiate, hprog, hcc, htn, hp]
    · have hcc : ¬ ((a0.length : Int) - 9 > 0) := by omega
      simp [Toplevel.main_before_negotiate, hprog, hcc]

theorem structured_embedded_inputs (os_splits : Bool) (w prog : CStr) (args : List CStr)
    (hprog : prog.head? ≠ some '-') :
    main_before_negotiate os_splits (w :: ['-', 'e'] :: ['-', 'I'] :: prog :: args)
      = .negotiate
          { flags := { init_flags with
                        nflags := 2
                        negotiation_flags := true
                        embedded_args := true
                        stdin_as_arg := false
                        ninputs := 1 + (marker_total true marker_in args : Nat)
                        noutputs := implicit_adjust (marker_total true marker_out args) }
            optind := 3
            argv := w :: ['-', 'e'] :: ['-', 'I'] :: prog :: args
            guest_program_name := remove_absolute_path prog } := by
  have hs : main_split os_splits (w :: ['-', 'e'] :: ['-', 'I'] :: prog :: args)
      = some (w :: ['-', 'e'] :: ['-', 'I'] :: prog :: args) := by
    have : is_shebang_arg (w :: ['-', 'e'] :: ['-', 'I'] :: prog :: args) = false := by
      simp [is_shebang_arg]
    simp [main_split, this]
  have hg : getopt_all ((w :: ['-', 'e'] :: ['-', 'I'] :: prog :: args).drop 1) 1 false
      = ([('e', []), ('I', [])], 3) := by
    have h1 := getopt_all_no_dash prog args 3 hprog
    have h2 : getopt_all (['-', 'I'] :: prog :: args) 2 false = ([('I', [])], 3) := by
      rw [getopt_all]
      simp [getopt_cluster, h1]
    show getopt_all (['-', 'e'] :: ['-', 'I'] :: prog :: args) 1 false = _
    rw [getopt_all]
    simp [getopt_cluster, h2]
  have hopt : main_options os_splits (w :: ['-', 'e'] :: ['-', 'I'] :: prog :: args)
      = .ok ({ init_flags with
                nflags := 2, negotiation_flags := true, embedded_args := true,
                stdin_as_arg := false },
             3, w :: ['-', 'e'] :: ['-', 'I'] :: prog :: args, prog) := by
    rw [main_options_eq, hs]
    simp only [hg]
    simp [parse_options, option_case, init_flags]
  have hsc := scan_args_total true args 1 1 (by decide) (by decide)
  simp only [main_before_negotiate, hopt]
  have hd : (w :: ['-', 'e'] :: ['-', 'I'] :: prog :: args).drop (3 + 1) = args := rfl
  simp only [init_flags, Bool.false_eq_true, if_false, hd, hsc, false_and, true_and]
  have adj : ∀ k : Nat, (if (1 : Int) + (k : Nat) > 1 then (1 : Int) + (k : Nat) - 1
      else (1 : Int) + (k : Nat)) = implicit_adjust k := by
    intro k
    by_cases hk : 1 ≤ k
    · have h1 : (1 : Int) + (k : Nat) > 1 := by omega
      rw [if_pos h1, implicit_adjust, if_pos hk]
      omega
    · have h1 : ¬ ((1 : Int) + (k : Nat) > 1) := fun h => hk (by omega)
      rw [if_neg h1, implicit_adjust, if_neg hk]
      omega
  simp only [adj]

/-! ## Replacing the input markers brings in no output marker -/

theorem strstr_drop_none (s needle : CStr) (n : Nat) (h : strstr s needle = none) :
    strstr (s.drop n) needle = none := by
  apply strstr_eq_none_of
  intro q hq
  rw [List.drop_drop] at hq
  exact strstr_none s needle h _ hq

theorem strstr_take_of_none (s needle : CStr) (n : Nat) (h : strstr s needle = none) :
    strstr (s.take n) needle = none := by
  apply strstr_eq_none_of
  intro q hq
  rw [List.drop_take] at hq
  exact strstr_none s needle h q (hq.trans (List.take_prefix _ _))

theorem occurrences_eq_zero (x y : Char) (hxy : x ≠ y) (s : CStr) :
    occurrences [x, y] s = 0 ↔ strstr s [x, y] = none := by
  constructor
  · intro h
    cases hs : strstr s [x, y] with
    | none => rfl
    | some off =>
      have := occurrences_of_strstr_some x y hxy s off hs
      omega
  · exact occurrences_of_strstr_none _ s

theorem fill_arg_keeps_none (x y : Char) (hx : x ∉ fd_chars) (hy : y ≠ '/') (u v : Char) :
    ∀ (n : Nat) (s : CStr) (ds : List Int), s.length ≤ n → strstr s [x, y] = none →
    strstr (fill_arg dev_fd [u, v] s ds) [x, y] = none
  | n, s, ds, hn, h => by
    cases hs : strstr s [u, v] with
    | none => rw [fill_arg_of_none _ u v s ds hs]; exact h
    | some off =>
      have hb := strstr_pair_bound u v s off hs
      cases ds with
      | nil =>
        have : fill_arg dev_fd [u, v] s [] = s.take off := by
          unfold fill_arg
          rw [pieces_of_some u v s off hs]
          simp
        rw [this]
        exact strstr_take_of_none s _ off h
      | cons d ds =>
        cases n with
        | zero => omega
        | succ n =>
          have ih := fill_arg_keeps_none x y hx hy u v n (s.drop (off + 2)) ds
            (by rw [List.length_drop]; omega) (strstr_drop_none s _ _ h)
          rw [fill_arg_of_some _ u v s off d ds hs]
          have := strstr_pair_step x y hx hy (s.take off) _ d
            (strstr_take_of_none s _ off h) ih
          simpa [fd_path, List.append_assoc] using this

theorem fill_args_keeps_none (x y : Char) (hxy : x ≠ y) (hx : x ∉ fd_chars) (hy : y ≠ '/')
    (u v : Char) : ∀ (args : List CStr) (ds : List Int),
    marker_total true [x, y] args = 0 →
    marker_total true [x, y] (fill_args dev_fd [u, v] args ds) = 0
  | [], _, _ => by simp [fill_args, marker_total]
  | a :: rest, ds, h => by
    rw [marker_total_cons] at h
    have h1 : marker_total true [x, y] [a] = occurrences [x, y] a := by simp [marker_total]
    rw [h1] at h
    have ha : strstr a [x, y] = none := (occurrences_eq_zero x y hxy a).mp (by omega)
    have ih := fill_args_keeps_none x y hxy hx hy u v rest
      (ds.drop ((pieces [u, v] a).length - 1)) (by omega)
    have hf := fill_arg_keeps_none x y hx hy u v a.length a ds (Nat.le_refl _) ha
    rw [fill_args, marker_total_cons, ih]
    simp only [marker_total, if_true, List.map_cons, List.map_nil, List.sum_cons, List.sum_nil]
    rw [(occurrences_eq_zero x y hxy _).mpr hf]
    rfl

theorem fill_args_of_none (pfx : CStr) (x y : Char) (hxy : x ≠ y) : ∀ (args : List CStr)
    (ds : List Int), marker_total true [x, y] args = 0 → fill_args pfx [x, y] args ds = args
  | [], _, _ => by simp [fill_args]
  | a :: rest, ds, h => by
    rw [marker_total_cons] at h
    have h1 : marker_total true [x, y] [a] = occurrences [x, y] a := by simp [marker_total]
    rw [h1] at h
    have ha : strstr a [x, y] = none := (occurrences_eq_zero x y hxy a).mp (by omega)
    rw [fill_args, fill_arg_of_none pfx x y a ds ha,
      fill_args_of_none pfx x y hxy rest _ (by omega)]

/-! ## With `-I` or `-O` the leading descriptor stays out of the arguments -/

/-- When `main` reaches the negotiation with `-I` among the flags, the leading
resolved input descriptor never becomes a path argument. Without any `-i` flag
the count requested for `k` input markers is `k + 1`, and given at least `k + 1`
resolved descriptors the markers are replaced, in order, by the paths of
`input_fds[1]`, `input_fds[2]`, ...: with `-e` the result is `fill_args` over the
descriptors after the first, without `-e` the `"<|"` preceded by `j` others
becomes `"/dev/fd/"` followed by `input_fds[j + 1]` and the other arguments stay.
With `-i a`, as long as the cells the `memset` clears lie in the array, the
arguments added are the paths of `input_fds[1 .. N-1]` only (when `N = 0` none is
added, and the last argument of the vector is lost); otherwise the store leaves
the array. The same holds for `-O`, `-o a`, `">|"` and the output descriptors, on
whatever vector the input rewriting left. -/
theorem leading_descriptor_never_an_argument (os_splits : Bool) (argv : List CStr)
    (st : Setup) (r : Negotiated) (h : main_before_negotiate os_splits argv = .negotiate st) :
    ((∃ e ∈ main_events os_splits argv, e.1 = 'I') →
      ((∀ e ∈ main_events os_splits argv, e.1 ≠ 'i') →
        st.flags.ninputs
          = (marker_total st.flags.embedded_args marker_in (st.argv.drop (st.optind + 1)) : Nat)
            + 1
        ∧ (1 + marker_total st.flags.embedded_args marker_in (st.argv.drop (st.optind + 1))
              ≤ r.input_fds.length →
            (st.flags.embedded_args = true →
              rewrite_inputs st r
                = .ok (st.argv.take (st.optind + 1)
                        ++ fill_args dev_fd marker_in (st.argv.drop (st.optind + 1))
                             (r.input_fds.drop 1),
                       1 + marker_total true marker_in (st.argv.drop (st.optind + 1))))
            ∧ (st.flags.embedded_args = false →
              ∃ args1,
                rewrite_inputs st r
                  = .ok (st.argv.take (st.optind + 1) ++ args1,
                         1 + marker_total false marker_in (st.argv.drop (st.optind + 1)))
                ∧ args1.length = (st.argv.drop (st.optind + 1)).length
                ∧ (∀ (i : Nat) (a : CStr), (st.argv.drop (st.optind + 1))[i]? = some a →
                    a ≠ marker_in → args1[i]? = some a)
                ∧ (∀ (i : Nat), (st.argv.drop (st.optind + 1))[i]? = some marker_in →
                    ∃ d, r.input_fds[1 + ((st.argv.drop (st.optind + 1)).take i).count
                                         marker_in]? = some d
                      ∧ args1[i]? = some (fd_path d)))))
      ∧ ((('i', ['a']) ∈ main_events os_splits argv) → r.ninputs = r.input_fds.length →
          rewrite_inputs st r
            = if st.argv.length + r.input_fds.length ≤ argv_cells st
              then .ok ((if r.input_fds.length = 0 then st.argv.take (st.argv.length - 1)
                         else st.argv) ++ (r.input_fds.drop 1).map fd_path,
                        if r.input_fds.length = 0 then 1 else r.input_fds.length)
              else .error .oob))
    ∧ ((∃ e ∈ main_events os_splits argv, e.1 = 'O') →
      ((∀ e ∈ main_events os_splits argv, e.1 ≠ 'o') →
        st.flags.noutputs
          = (marker_total st.flags.embedded_args marker_out (st.argv.drop (st.optind + 1)) : Nat)
            + 1
        ∧ ∀ argv1 : List CStr,
          1 + marker_total st.flags.embedded_args marker_out (argv1.drop (st.optind + 1))
              ≤ r.output_fds.length →
            (st.flags.embedded_args = true →
              rewrite_outputs st argv1 r
                = .ok (argv1.take (st.optind + 1)
                        ++ fill_args dev_fd marker_out (argv1.drop (st.optind + 1))
                             (r.output_fds.drop 1),
                       1 + marker_total true marker_out (argv1.drop (st.optind + 1))))
            ∧ (st.flags.embedded_args = false →
              ∃ args1,
                rewrite_outputs st argv1 r
                  = .ok (argv1.take (st.optind + 1) ++ args1,
                         1 + marker_total false marker_out (argv1.drop (st.optind + 1)))
                ∧ args1.length = (argv1.drop (st.optind + 1)).length
                ∧ (∀ (i : Nat) (a : CStr), (argv1.drop (st.optind + 1))[i]? = some a →
                    a ≠ marker_out → args1[i]? = some a)
                ∧ (∀ (i : Nat), (argv1.drop (st.optind + 1))[i]? = some marker_out →
                    ∃ d, r.output_fds[1 + ((argv1.drop (st.optind + 1)).take i).count
                                          marker_out]? = some d
                      ∧ args1[i]? = some (fd_path d))))
      ∧ ((('o', ['a']) ∈ main_events os_splits argv) → r.noutputs = r.output_fds.length →
          ∀ argv1 : List CStr,
            rewrite_outputs st argv1 r
              = if argv1.length + r.output_fds.length
                    ≤ (if st.flags.supply_input_args then argv1.length + 1 else argv_cells st)
                then .ok ((if r.output_fds.length = 0 then argv1.take (argv1.length - 1)
                           else argv1) ++ (r.output_fds.drop 1).map fd_path,
                          if r.output_fds.length = 0 then 1 else r.output_fds.length)
                else .error .oob)) := by
  obtain ⟨f, optind, argv2, prog, ni, no, hm, _, hsc, hst⟩ :=
    main_before_negotiate_reaches os_splits argv st h
  obtain ⟨hp, _⟩ := main_options_flags os_splits argv f optind argv2 prog hm
  obtain ⟨_, _, _, b4, b5, b6, b7, b8, b9⟩ := parse_options_fields _ _ _ hp
  obtain ⟨c1, c2⟩ := scan_args_counts f.embedded_args _ _ _ _ _ hsc
  have many : ∀ (p : Char × CStr → Bool) (e : Char × CStr),
      e ∈ main_events os_splits argv → p e = true → (main_events os_splits argv).any p = true :=
    fun p e he hpe => List.any_eq_true.mpr ⟨e, he, hpe⟩
  have no_one : ∀ (c : Char), (∀ e ∈ main_events os_splits argv, e.1 ≠ c) →
      (main_events os_splits argv).any (fun e => decide (e = (c, ['a']))) = false := by
    intro c hc
    simp only [List.any_eq_false, decide_eq_true_eq]
    intro e he heq
    exact hc e he (by rw [heq])
  subst hst
  constructor
  · rintro ⟨e, he, hI⟩
    have hin : f.stdin_as_arg = false := by
      rw [b4, many (fun e => decide (e.1 = 'I')) e he (by simpa using hI)]
      simp
    constructor
    · intro hnoi
      have hni : f.ninputs = 1 := by
        rw [b8, last_count_of_not_mem 'i' _ _ hnoi]
        rfl
      have hsup : f.supply_input_args = false := by
        rw [b6, no_one 'i' hnoi]
        rfl
      have hreq := c1 (by omega)
      refine ⟨?_, ?_⟩
      · simp only [hin, Bool.false_eq_true, false_and, if_false]
        rw [hreq, hni]
        omega
      · intro hfds
        simp only [rewrite_inputs, hin, hsup]
        constructor
        · intro he1
          simp only [he1] at hfds ⊢
          have := rewrite_direction_embedded false '<' '|' (by decide) (by decide) (by decide)
            optind argv2 r.ninputs r.input_fds (by simpa [marker_in] using hfds)
          simpa [marker_in] using this _
        · intro he1
          simp only [he1] at hfds ⊢
          have := rewrite_direction_standalone false marker_in
            (fd_path_ne_marker '<' '|' (by decide)) optind argv2 r.ninputs r.input_fds
            (by simpa using hfds)
          simpa using this _
    · intro hia hn
      have hsup : f.supply_input_args = true := by
        rw [b6, many (fun e => decide (e = ('i', ['a']))) _ hia (by simp)]
        simp
      simp only [rewrite_inputs, hin, hsup]
      exact rewrite_direction_supply_rest _ _ _ _ _ _ _ hn
  · rintro ⟨e, he, hO⟩
    have hout : f.stdout_as_arg = false := by
      rw [b5, many (fun e => decide (e.1 = 'O')) e he (by simpa using hO)]
      simp
    constructor
    · intro hnoo
      have hno : f.noutputs = 1 := by
        rw [b9, last_count_of_not_mem 'o' _ _ hnoo]
        rfl
      have hsup : f.supply_output_args = false := by
        rw [b7, no_one 'o' hnoo]
        rfl
      have hreq := c2 (by omega)
      refine ⟨?_, ?_⟩
      · simp only [hout, Bool.false_eq_true, false_and, if_false]
        rw [hreq, hno]
        omega
      · intro argv1 hfds
        simp only [rewrite_outputs, hout, hsup]
        constructor
        · intro he1
          simp only [he1] at hfds ⊢
          have := rewrite_direction_embedded false '>' '|' (by decide) (by decide) (by decide)
            optind argv1 r.noutputs r.output_fds (by simpa [marker_out] using hfds)
          simpa [marker_out] using this _
        · intro he1
          simp only [he1] at hfds ⊢
          have := rewrite_direction_standalone false marker_out
            (fd_path_ne_marker '>' '|' (by decide)) optind argv1 r.noutputs r.output_fds
            (by simpa using hfds)
          simpa using this _
    · intro hoa hn argv1
      have hsup : f.supply_output_args = true := by
        rw [b7, many (fun e => decide (e = ('o', ['a']))) _ hoa (by simp)]
        simp
      simp only [rewrite_outputs, hout, hsup]
      exact rewrite_direction_supply_rest _ _ _ _ _ _ _ hn

/-- The invocation `dgsh-wrap -e -I paste "a<|b" "<|"` with the input descriptors 0, 5
and 6: the markers receive 5 and 6. -/
theorem leading_descriptor_example :
    ∃ st, main_before_negotiate false
        [cstr "dgsh-wrap", cstr "-e", cstr "-I", cstr "paste", cstr "a<|b", cstr "<|"]
        = .negotiate st
      ∧ st.flags.ninputs = 3
      ∧ rewrite_inputs st ⟨3, 1, [0, 5, 6], [1]⟩
        = .ok ([cstr "dgsh-wrap", cstr "-e", cstr "-I", cstr "paste", cstr "a/dev/fd/5b",
                cstr "/dev/fd/6"], 3) := by
  have h := ((leading_descriptor_never_an_argument false
    [cstr "dgsh-wrap", cstr "-e", cstr "-I", cstr "paste", cstr "a<|b", cstr "<|"]
    _ ⟨3, 1, [0, 5, 6], [1]⟩ rfl).1 ⟨('I', []), by decide, rfl⟩).1 (by decide)
  exact ⟨_, rfl, h.1.trans (by decide), ((h.2 (by decide)).1 rfl).trans (by decide)⟩

/-! ## The connection loop of `write_command` -/

theorem to_int_le (v : Int) : Kvstore.to_int v ≤ 2147483647 := by
  unfold Kvstore.to_int
  omega

theorem to_int_of_small (v : Int) (h0 : 0 ≤ v) (h1 : v ≤ 2147483647) : Kvstore.to_int v = v := by
  unfold Kvstore.to_int
  omega

theorem read_retry_limit_le (env_retry_limit : Option CStr) (retry_limit : Int)
    (h : retry_limit ≤ 2147483647) :
    Kvstore.read_retry_limit env_retry_limit retry_limit ≤ 2147483647 := by
  cases env_retry_limit with
  | none => exact h
  | some v => exact to_int_le _

/-- When every call of `connect` fails with `ENOENT` or `ECONNREFUSED` and
retrying is on, the loop entered with `counter ≤ retry_limit` calls `connect`
once for every value from `counter` to `retry_limit` and then gives up. -/
theorem connect_loop_all_fail (connect : Nat → Option Kvstore.Errno) (retry_limit : Int)
    (hmax : retry_limit ≤ 2147483647)
    (hfail : ∀ n, connect n = some .ENOENT ∨ connect n = some .ECONNREFUSED) :
    ∀ (fuel : Nat) (counter : Int) (n : Nat), 0 ≤ counter → counter ≤ retry_limit →
    (retry_limit - counter).toNat < fuel →
    Kvstore.connect_loop connect true retry_limit fuel counter n
      = some (false, n + (retry_limit - counter).toNat + 1, n + (retry_limit - counter).toNat)
  | 0, _, _, _, _, hf => by omega
  | fuel + 1, counter, n, h0, h1, hf => by
    obtain ⟨e, he, hr⟩ : ∃ e, connect n = some e ∧ (e = .ENOENT ∨ e = .ECONNREFUSED) := by
      rcases hfail n with h | h
      · exact ⟨_, h, Or.inl rfl⟩
      · exact ⟨_, h, Or.inr rfl⟩
    by_cases hc : counter < retry_limit
    · have hw : Kvstore.to_int (counter + 1) = counter + 1 :=
        to_int_of_small _ (by omega) (by omega)
      have ih := connect_loop_all_fail connect retry_limit hmax hfail fuel (counter + 1) (n + 1)
        (by omega) (by omega) (by omega)
      have hcond : True ∧ (e = .ENOENT ∨ e = .ECONNREFUSED) ∧ counter < retry_limit :=
        ⟨trivial, hr, hc⟩
      rw [Kvstore.connect_loop, he]
      simp only [if_pos hcond, hw, ih]
      have : (retry_limit - counter).toNat = (retry_limit - (counter + 1)).toNat + 1 := by omega
      rw [this]
      simp only [Option.some.injEq, Prod.mk.injEq, true_and]
      omega
    · have hcond : ¬ (True ∧ (e = .ENOENT ∨ e = .ECONNREFUSED)
          ∧ counter < retry_limit) := fun h => hc h.2.2
      have : (retry_limit - counter).toNat = 0 := by omega
      rw [Kvstore.connect_loop, he]
      simp only [if_neg hcond, this, Nat.add_zero]

/-- When the first call of `connect` fails and either retrying is off or the
error is neither `ENOENT` nor `ECONNREFUSED`, the loop gives up after that
call. -/
theorem connect_loop_no_retry (connect : Nat → Option Kvstore.Errno) (retry_connection : Bool)
    (retry_limit : Int) (fuel : Nat) (counter : Int) (n : Nat) (e : Kvstore.Errno)
    (he : connect n = some e)
    (h : retry_connection = false ∨ ∃ code, e = .other code) :
    Kvstore.connect_loop connect retry_connection retry_limit (fuel + 1) counter n
      = some (false, n + 1, n) := by
  have hcond : ¬ ((retry_connection = true) ∧ (e = .ENOENT ∨ e = .ECONNREFUSED)
      ∧ counter < retry_limit) := by
    rintro ⟨h1, h2, _⟩
    rcases h with h | ⟨code, h⟩
    · rw [h] at h1
      exact absurd h1 (by decide)
    · subst h
      rcases h2 with h2 | h2 <;> exact absurd h2 (by simp)
  rw [Kvstore.connect_loop, he]
  simp only [if_neg hcond]

/-- The budget `write_command` gives the loop is never used up. -/
theorem connect_loop_within_budget (connect : Nat → Option Kvstore.Errno)
    (retry_connection : Bool) (retry_limit : Int) (hmax : retry_limit ≤ 2147483647) :
    ∀ (fuel : Nat) (counter : Int) (n : Nat), 0 ≤ counter →
    (retry_limit - counter).toNat < fuel →
    Kvstore.connect_loop connect retry_connection retry_limit fuel counter n ≠ none
  | 0, _, _, _, hf => by omega
  | fuel + 1, counter, n, h0, hf => by
    rw [Kvstore.connect_loop]
    cases connect n with
    | none => simp
    | some e =>
      simp only []
      split
      · rename_i hc
        have hw : Kvstore.to_int (counter + 1) = counter + 1 :=
          to_int_of_small _ (by omega) (by omega)
        rw [hw]
        exact connect_loop_within_budget connect retry_connection retry_limit hmax fuel
          (counter + 1) (n + 1) (by omega) (by omega)
      · simp

/-! ## Occurrences of one marker while the other is replaced -/

theorem occurrences_append_pair (x y : Char) (b : CStr) : ∀ (a : CStr),
    (a.getLast? ≠ some x ∨ b.head? ≠ some y) →
    occurrences [x, y] (a ++ b) = occurrences [x, y] a + occurrences [x, y] b
  | [], _ => by simp [occurrences]
  | [c], hj => by
    have hp : ¬ List.isPrefixOf [x, y] (c :: b) = true := by
      intro hp
      cases b with
      | nil => simp [List.isPrefixOf] at hp
      | cons b0 bs =>
        simp only [List.isPrefixOf, Bool.and_eq_true, beq_iff_eq, Bool.and_true] at hp
        rcases hj with hj | hj
        · exact hj (by simp [hp.1])
        · exact hj (by simp [hp.2])
    have hq : ¬ List.isPrefixOf [x, y] [c] = true := by simp [List.isPrefixOf]
    show occurrences [x, y] (c :: b) = occurrences [x, y] [c] + occurrences [x, y] b
    rw [occurrences, if_neg hp]
    simp [occurrences, hq]
  | c :: c1 :: a, hj => by
    have ih := occurrences_append_pair x y b (c1 :: a) (by simpa using hj)
    have hp : List.isPrefixOf [x, y] (c :: c1 :: a ++ b)
        = List.isPrefixOf [x, y] (c :: c1 :: a) := by
      simp [List.isPrefixOf]
    show occurrences [x, y] (c :: (c1 :: a ++ b)) = _
    rw [occurrences, ih]
    have hp2 : List.isPrefixOf [x, y] (c :: (c1 :: a ++ b))
        = List.isPrefixOf [x, y] (c :: c1 :: a) := hp
    rw [hp2]
    conv_rhs => rw [occurrences]
    omega

theorem strstr_pair_split (u v : Char) (s : CStr) (p : Nat) (h : strstr s [u, v] = some p) :
    s = s.take p ++ u :: v :: s.drop (p + 2) := by
  obtain ⟨t, ht⟩ := strstr_found s [u, v] p h
  have h2 : s.drop (p + 2) = t := by
    have : s.drop (p + 2) = (s.drop p).drop 2 := by rw [List.drop_drop]
    rw [this, ← ht]
    rfl
  rw [h2]
  conv_lhs => rw [← List.take_append_drop p s, ← ht]
  rfl

theorem occurrences_over_marker (x y u v : Char) (hxu : x ≠ u) (hxv : x ≠ v) (hyu : y ≠ u)
    (t0 rest : CStr) :
    occurrences [x, y] (t0 ++ u :: v :: rest)
      = occurrences [x, y] t0 + occurrences [x, y] rest := by
  rw [occurrences_append_pair x y (u :: v :: rest) t0
    (Or.inr (by simpa using fun e => hyu e.symm))]
  have h1 : ¬ List.isPrefixOf [x, y] (u :: v :: rest) = true := by
    simp [List.isPrefixOf, hxu]
  have h2 : ¬ List.isPrefixOf [x, y] (v :: rest) = true := by
    cases rest <;> simp [List.isPrefixOf, hxv]
  rw [occurrences, if_neg h1, occurrences, if_neg h2]
  omega

theorem occurrences_over_path (x y : Char) (hx : x ∉ fd_chars) (hy : y ≠ '/') (t0 t : CStr)
    (d : Int) :
    occurrences [x, y] (t0 ++ fd_path d ++ t)
      = occurrences [x, y] t0 + occurrences [x, y] t := by
  have hxp : x ∉ fd_path d := fun h => hx (fd_path_mem d x h)
  have h0 : occurrences [x, y] (fd_path d) = 0 :=
    occurrences_of_strstr_none _ _ (strstr_pair_none_of_not_mem x y _ hxp)
  have hl : (fd_path d).getLast? ≠ some x := by
    intro e
    exact hxp (List.mem_of_getLast?_eq_some e)
  have hh : (fd_path d).head? ≠ some y := by
    rw [fd_path_head]
    simpa using fun e => hy e.symm
  rw [List.append_assoc, occurrences_append_pair x y (fd_path d ++ t) t0
    (Or.inr (by
      have : (fd_path d ++ t).head? = (fd_path d).head? := by
        cases hfd : fd_path d with
        | nil => exact absurd hfd (fd_path_ne_nil d)
        | cons c cs => rfl
      rw [this]
      exact hh)),
    occurrences_append_pair x y t (fd_path d) (Or.inl hl), h0]
  omega

theorem fill_arg_keeps_count (x y u v : Char) (huv : u ≠ v) (hx : x ∉ fd_chars) (hy : y ≠ '/')
    (hxu : x ≠ u) (hxv : x ≠ v) (hyu : y ≠ u) :
    ∀ (n : Nat) (s : CStr) (ds : List Int), s.length ≤ n → occurrences [u, v] s ≤ ds.length →
    occurrences [x, y] (fill_arg dev_fd [u, v] s ds) = occurrences [x, y] s
  | n, s, ds, hn, hd => by
    cases hs : strstr s [u, v] with
    | none => rw [fill_arg_of_none _ u v s ds hs]
    | some off =>
      have hb := strstr_pair_bound u v s off hs
      have ho := occurrences_of_strstr_some u v huv s off hs
      cases ds with
      | nil => simp at hd; omega
      | cons d ds =>
        cases n with
        | zero => omega
        | succ n =>
          have ih := fill_arg_keeps_count x y u v huv hx hy hxu hxv hyu n (s.drop (off + 2)) ds
            (by rw [List.length_drop]; omega) (by simp at hd; omega)
          have hsplit := strstr_pair_split u v s off hs
          have h1 := occurrences_over_marker x y u v hxu hxv hyu (s.take off) (s.drop (off + 2))
          rw [← hsplit] at h1
          have h2 := occurrences_over_path x y hx hy (s.take off)
            (fill_arg dev_fd [u, v] (s.drop (off + 2)) ds) d
          rw [fill_arg_of_some _ u v s off d ds hs, h1, ← ih, ← h2]
          simp [fd_path, List.append_assoc]

theorem fill_arg_leaves_none (u v : Char) (huv : u ≠ v) (hu : u ∉ fd_chars) (hv : v ≠ '/') :
    ∀ (n : Nat) (s : CStr) (ds : List Int), s.length ≤ n → occurrences [u, v] s ≤ ds.length →
    occurrences [u, v] (fill_arg dev_fd [u, v] s ds) = 0
  | n, s, ds, hn, hd => by
    cases hs : strstr s [u, v] with
    | none =>
      rw [fill_arg_of_none _ u v s ds hs]
      exact occurrences_of_strstr_none _ s hs
    | some off =>
      have hb := strstr_pair_bound u v s off hs
      have ho := occurrences_of_strstr_some u v huv s off hs
      cases ds with
      | nil => simp at hd; omega
      | cons d ds =>
        cases n with
        | zero => omega
        | succ n =>
          have ih := fill_arg_leaves_none u v huv hu hv n (s.drop (off + 2)) ds
            (by rw [List.length_drop]; omega) (by simp at hd; omega)
          have h0 : occurrences [u, v] (s.take off) = 0 :=
            occurrences_of_strstr_none _ _
              (strstr_take_none [u, v] s off off hs (Nat.le_refl _) (by simp))
          have h2 := occurrences_over_path u v hu hv (s.take off)
            (fill_arg dev_fd [u, v] (s.drop (off + 2)) ds) d
          rw [fill_arg_of_some _ u v s off d ds hs]
          rw [h0, ih] at h2
          simpa [fd_path, List.append_assoc] using h2

theorem fill_args_keeps_count (x y u v : Char) (huv : u ≠ v) (hx : x ∉ fd_chars) (hy : y ≠ '/')
    (hxu : x ≠ u) (hxv : x ≠ v) (hyu : y ≠ u) : ∀ (args : List CStr) (ds : List Int),
    marker_total true [u, v] args ≤ ds.length →
    marker_total true [x, y] (fill_args dev_fd [u, v] args ds) = marker_total true [x, y] args
  | [], _, _ => by simp [fill_args, marker_total]
  | a :: rest, ds, h => by
    rw [marker_total_cons] at h
    have h1 : ∀ z w : Char, ∀ b : CStr, marker_total true [z, w] [b] = occurrences [z, w] b := by
      intro z w b
      simp [marker_total]
    rw [h1] at h
    have hp : (pieces [u, v] a).length - 1 = occurrences [u, v] a := by
      have := pieces_length u v huv a.length a (Nat.le_refl _)
      omega
    have ih := fill_args_keeps_count x y u v huv hx hy hxu hxv hyu rest
      (ds.drop (occurrences [u, v] a)) (by rw [List.length_drop]; omega)
    have ha := fill_arg_keeps_count x y u v huv hx hy hxu hxv hyu a.length a ds (Nat.le_refl _)
      (by omega)
    rw [fill_args, hp, marker_total_cons, ih, h1, ha, marker_total_cons true [x, y] a rest, h1]

theorem fill_args_leaves_none (u v : Char) (huv : u ≠ v) (hu : u ∉ fd_chars) (hv : v ≠ '/') :
    ∀ (args : List CStr) (ds : List Int),
    marker_total true [u, v] args ≤ ds.length →
    marker_total true [u, v] (fill_args dev_fd [u, v] args ds) = 0
  | [], _, _ => by simp [fill_args, marker_total]
  | a :: rest, ds, h => by
    rw [marker_total_cons] at h
    have h1 : ∀ b : CStr, marker_total true [u, v] [b] = occurrences [u, v] b := by
      intro b
      simp [marker_total]
    rw [h1] at h
    have hp : (pieces [u, v] a).length - 1 = occurrences [u, v] a := by
      have := pieces_length u v huv a.length a (Nat.le_refl _)
      omega
    have ih := fill_args_leaves_none u v huv hu hv rest
      (ds.drop (occurrences [u, v] a)) (by rw [List.length_drop]; omega)
    have ha := fill_arg_leaves_none u v huv hu hv a.length a ds (Nat.le_refl _) (by omega)
    rw [fill_args, hp, marker_total_cons, ih, h1, ha]

/-- One successful call of `process_embedded_io_arg` takes away one occurrence of
its marker and leaves the occurrences of the other marker as they are. -/
theorem process_embedded_counts (x y u v : Char) (huv : u ≠ v) (hu : u ∉ fd_chars)
    (hv : v ≠ '/') (hx : x ∉ fd_chars) (hy : y ≠ '/') (hxu : x ≠ u) (hxv : x ≠ v) (hyu : y ≠ u)
    (arg arg1 : CStr) (fds : List Int) (fdptr fdptr1 : Nat)
    (h : process_embedded_io_arg arg [u, v] fds fdptr = .ok (true, arg1, fdptr1)) :
    occurrences [u, v] arg1 + 1 = occurrences [u, v] arg
    ∧ occurrences [x, y] arg1 = occurrences [x, y] arg
    ∧ fdptr1 = fdptr + 1 := by
  unfold process_embedded_io_arg at h
  cases hs : strstr arg [u, v] with
  | none => simp [hs] at h
  | some p =>
    cases hd : fds[fdptr]? with
    | none => simp [hs, hd] at h
    | some d =>
      simp only [hs, hd, Except.ok.injEq, Prod.mk.injEq, true_and] at h
      obtain ⟨h1, h2⟩ := h
      have ho := occurrences_of_strstr_some u v huv arg p hs
      have h0 : occurrences [u, v] (arg.take p) = 0 :=
        occurrences_of_strstr_none _ _
          (strstr_take_none [u, v] arg p p hs (Nat.le_refl _) (by simp))
      have hsplit := strstr_pair_split u v arg p hs
      have hm := occurrences_over_marker x y u v hxu hxv hyu (arg.take p) (arg.drop (p + 2))
      rw [← hsplit] at hm
      have hp1 := occurrences_over_path u v hu hv (arg.take p) (arg.drop (p + 2)) d
      have hp2 := occurrences_over_path x y hx hy (arg.take p) (arg.drop (p + 2)) d
      have e : arg1 = arg.take p ++ fd_path d ++ arg.drop (p + 2) := by
        rw [← h1]
        simp [fd_path, List.append_assoc]
      subst e
      refine ⟨?_, ?_, h2.symm⟩
      · rw [hp1, h0, ho]
        omega
      · rw [hp2, hm]

theorem main_options_prog (os_splits : Bool) (argv0 : List CStr) (f : Flags) (optind : Nat)
    (argv2 : List CStr) (prog : CStr)
    (h : main_options os_splits argv0 = .ok (f, optind, argv2, prog)) :
    argv2[optind]? = some prog := by
  rw [main_options_eq] at h
  split at h
  · simp at h
  · split at h
    · simp at h
    · split at h
      · simp at h
      · split at h
        · simp at h
        · split at h
          · simp at h
          · rename_i prog0 hprog
            simp only [Except.ok.injEq, Prod.mk.injEq] at h
            obtain ⟨_, h2, h3, h4⟩ := h
            rw [← h3, ← h4, ← h2]
            exact hprog

/-! ## Supplying all the descriptors of a direction -/

/-- When `main` reaches the rewriting with `-i a` among the flags and no `-I`, and
the negotiation has resolved `N` input descriptors: if the `N + 1` cells the
`memset` clears lie in the array, the vector after the input rewriting is the
vector before it followed by the paths of the `N` descriptors; otherwise the
store leaves the array. With `-o a` and no `-O` the same holds for the output
rewriting, on whatever vector the input rewriting left. -/
theorem supplied_descriptors_within_array (os_splits : Bool) (argv : List CStr) (st : Setup)
    (r : Negotiated) (h : main_before_negotiate os_splits argv = .negotiate st) :
    ((('i', ['a']) ∈ main_events os_splits argv) →
      (∀ e ∈ main_events os_splits argv, e.1 ≠ 'I') →
      r.ninputs = r.input_fds.length →
      rewrite_inputs st r
        = if st.argv.length + r.input_fds.length + 1 ≤ argv_cells st
          then .ok (st.argv ++ r.input_fds.map fd_path, r.input_fds.length)
          else .error .oob)
    ∧ ((('o', ['a']) ∈ main_events os_splits argv) →
      (∀ e ∈ main_events os_splits argv, e.1 ≠ 'O') →
      r.noutputs = r.output_fds.length →
      ∀ argv1, rewrite_outputs st argv1 r
        = if argv1.length + r.output_fds.length + 1
              ≤ (if st.flags.supply_input_args then argv1.length + 1 else argv_cells st)
          then .ok (argv1 ++ r.output_fds.map fd_path, r.output_fds.length)
          else .error .oob) := by
  obtain ⟨f, optind, argv2, prog, ni, no, hm, _, _, hst⟩ :=
    main_before_negotiate_reaches os_splits argv st h
  obtain ⟨hp, _⟩ := main_options_flags os_splits argv f optind argv2 prog hm
  obtain ⟨_, _, _, b4, b5, b6, b7, _, _⟩ := parse_options_fields _ _ _ hp
  subst hst
  constructor
  · intro hia hI hn
    have e1 : f.supply_input_args = true := by
      rw [b6]
      simp only [Bool.or_eq_true, List.any_eq_true, decide_eq_true_eq]
      exact Or.inr ⟨_, hia, rfl⟩
    have e2 : f.stdin_as_arg = true := by
      rw [b4]
      have : (main_events os_splits argv).any (fun e => decide (e.1 = 'I')) = false := by
        simp only [List.any_eq_false, decide_eq_true_eq]
        exact hI
      rw [this]
      rfl
    simp only [rewrite_inputs, e1, e2]
    exact rewrite_direction_supply _ _ _ _ _ _ _ hn
  · intro hoa hO hn argv1
    have e1 : f.supply_output_args = true := by
      rw [b7]
      simp only [Bool.or_eq_true, List.any_eq_true, decide_eq_true_eq]
      exact Or.inr ⟨_, hoa, rfl⟩
    have e2 : f.stdout_as_arg = true := by
      rw [b5]
      have : (main_events os_splits argv).any (fun e => decide (e.1 = 'O')) = false := by
        simp only [List.any_eq_false, decide_eq_true_eq]
        exact hO
      rw [this]
      rfl
    simp only [rewrite_outputs, e1, e2]
    exact rewrite_direction_supply _ _ _ _ _ _ _ hn

/-! ## The claims -/

/-- C1: without flags, when the target-program arguments hold `N ≥ 1` arguments
equal to `"<|"` and the negotiation resolved the input descriptors
`d_0 .. d_(N-1)`, the count requested from the negotiation is `N` and the input
rewriting leaves a vector of the same length in which every argument other
than `"<|"` is unchanged at its position, the `"<|"` preceded by `j` others is
`"/dev/fd/d_j"`, no `"<|"` remains, and all `N` descriptors were read. The same
holds of the vector passed to `execvp` once the output rewriting has replaced
the `">|"` arguments (given enough output descriptors). -/
theorem standalone_input_markers_replaced (os_splits : Bool) (w prog : CStr)
    (args : List CStr) (fds : List Int) (hprog : prog.head? ≠ some '-')
    (hN : args.count marker_in = fds.length) (h1 : 1 ≤ fds.length) :
    ∃ st, main_before_negotiate os_splits (w :: prog :: args) = .negotiate st
      ∧ st.flags.ninputs = fds.length
      ∧ ∀ r : Negotiated, r.input_fds = fds →
        (∃ args1, rewrite_inputs st r = .ok (w :: prog :: args1, fds.length)
          ∧ args1.length = args.length
          ∧ (∀ (i : Nat) (a : CStr), args[i]? = some a → a ≠ marker_in → args1[i]? = some a)
          ∧ (∀ (i : Nat), args[i]? = some marker_in →
              ∃ d, fds[(args.take i).count marker_in]? = some d
                ∧ args1[i]? = some (fd_path d))
          ∧ marker_in ∉ args1)
        ∧ (args.count marker_out ≤ r.output_fds.length →
          ∃ args2, main_after_negotiate st r = .ok (prog :: args2)
            ∧ args2.length = args.length
            ∧ (∀ (i : Nat) (a : CStr), args[i]? = some a → a ≠ marker_in → a ≠ marker_out →
                args2[i]? = some a)
            ∧ (∀ (i : Nat), args[i]? = some marker_in →
                ∃ d, fds[(args.take i).count marker_in]? = some d
                  ∧ args2[i]? = some (fd_path d))
            ∧ marker_in ∉ args2) := by
  refine ⟨_, main_before_negotiate_no_flags os_splits w prog args hprog, ?_, ?_⟩
  · simp [implicit_adjust, hN, h1]
  · intro r hr
    obtain ⟨args1, h2, h3, h4, h5, h6, h7⟩ :=
      substitute_standalone marker_in (fd_path_ne_marker '<' '|' (by decide)) fds args 0
        (by omega)
    have e1 : init_flags.stdin_as_arg = true := rfl
    have e2 : init_flags.supply_input_args = false := rfl
    have e3 : init_flags.embedded_args = false := rfl
    have e4 : init_flags.stdout_as_arg = true := rfl
    have e5 : init_flags.supply_output_args = false := rfl
    have hin : ∀ cells : Nat,
        rewrite_direction true false false marker_in 1 (w :: prog :: args) r.ninputs fds cells
          = .ok (w :: prog :: args1, fds.length) := by
      intro cells
      rw [rewrite_direction_in_place, h2]
      simp [hN]
    have h5a : ∀ (i : Nat), args[i]? = some marker_in →
        ∃ d, fds[(args.take i).count marker_in]? = some d ∧ args1[i]? = some (fd_path d) := by
      intro i hi
      simpa using h5 i hi
    constructor
    · refine ⟨args1, ?_, h3, h4, h5a, h6⟩
      simp only [rewrite_inputs, hr, e1, e2, e3]
      exact hin _
    · intro hout
      have hc : args1.count marker_out = args.count marker_out :=
        h7 marker_out (by decide) (fd_path_ne_marker '>' '|' (by decide))
      obtain ⟨args2, k2, k3, k4, _, _, k7⟩ :=
        substitute_standalone marker_out (fd_path_ne_marker '>' '|' (by decide)) r.output_fds
          args1 0 (by omega)
      refine ⟨args2, ?_, by rw [k3, h3], ?_, ?_, ?_⟩
      · simp only [main_after_negotiate, rewrite_inputs, rewrite_outputs, hr, e1, e2, e3, e4, e5]
        rw [hin]
        simp only []
        rw [rewrite_direction_in_place, k2]
        simp
      · intro i a hia ha hb
        exact k4 i a (h4 i a hia ha) hb
      · intro i hi
        obtain ⟨d, hd1, hd2⟩ := h5a i hi
        exact ⟨d, hd1, k4 i _ hd2 (fd_path_ne_marker '>' '|' (by decide) d)⟩
      · have h0 : args1.count marker_in = 0 := List.count_eq_zero.mpr h6
        have h00 : args2.count marker_in = 0 := by
          rw [k7 marker_in (by decide) (fd_path_ne_marker '<' '|' (by decide)), h0]
        exact List.count_eq_zero.mp h00

/-- C1, on `dgsh-wrap paste <| - <|` with the input descriptors 3 and 4. -/
theorem standalone_input_markers_replaced_witness :
    ∃ st, main_before_negotiate false
            [cstr "dgsh-wrap", cstr "paste", cstr "<|", cstr "-", cstr "<|"] = .negotiate st
      ∧ st.flags.ninputs = 2
      ∧ rewrite_inputs st ⟨2, 1, [3, 4], [1]⟩
          = .ok ([cstr "dgsh-wrap", cstr "paste", cstr "/dev/fd/3", cstr "-", cstr "/dev/fd/4"], 2)
      ∧ main_after_negotiate st ⟨2, 1, [3, 4], [1]⟩
          = .ok [cstr "paste", cstr "/dev/fd/3", cstr "-", cstr "/dev/fd/4"] := by
  obtain ⟨st, h1, h2, _⟩ := standalone_input_markers_replaced false (cstr "dgsh-wrap")
    (cstr "paste") [cstr "<|", cstr "-", cstr "<|"] [3, 4] (by decide) (by decide) (by decide)
  refine ⟨st, h1, h2, ?_⟩
  have hst : .negotiate st = main_before_negotiate false
      [cstr "dgsh-wrap", cstr "paste", cstr "<|", cstr "-", cstr "<|"] := h1.symm
  have hev : main_before_negotiate false
      [cstr "dgsh-wrap", cstr "paste", cstr "<|", cstr "-", cstr "<|"]
      = .negotiate
          { flags := { init_flags with ninputs := 2, noutputs := 1 }
            optind := 1
            argv := [cstr "dgsh-wrap", cstr "paste", cstr "<|", cstr "-", cstr "<|"]
            guest_program_name := cstr "paste" } := by decide
  rw [hev] at hst
  injection hst with hst
  subst hst
  decide

/-- C2: in embedded mode an argument `t_0 "<|" t_1 "<|" ... "<|" t_k` whose parts
`t_i` hold no `"<|"`, with `d_0 .. d_(k-1)` the next descriptors, is rewritten by
the loop over `process_embedded_io_arg` (any budget above `k` calls, `main`
allows `fds.length + 1`) to `t_0 "/dev/fd/d_0" t_1 ... "/dev/fd/d_(k-1)" t_k`, and
the descriptor index advances by exactly `k`. -/
theorem embedded_input_markers_replaced (fds : List Int) (t0 : CStr) (ts : List CStr)
    (ds : List Int) (fdptr fuel : Nat)
    (h0 : strstr t0 marker_in = none) (hts : ∀ t ∈ ts, strstr t marker_in = none)
    (hlen : ds.length = ts.length) (hds : ds <+: fds.drop fdptr) (hfuel : ts.length < fuel) :
    embedded_while marker_in fds fuel (t0 ++ (ts.map (marker_in ++ ·)).flatten) fdptr
      = .ok (t0 ++ (List.zipWith (fun d t => fd_path d ++ t) ds ts).flatten,
             fdptr + ts.length) :=
  embedded_while_pair '<' '|' (by decide) (by decide) (by decide) fds ts ds t0 fdptr fuel
    h0 hts hlen hds hfuel

/-- C2, on `"a<|b<|c"` with the descriptors `(5, 6)`. -/
theorem embedded_input_markers_replaced_witness :
    embedded_while marker_in [5, 6] ([5, 6].length + 1) (cstr "a<|b<|c") 0
      = .ok (cstr "a/dev/fd/5b/dev/fd/6c", 2) :=
  embedded_input_markers_replaced [5, 6] (cstr "a") [cstr "b", cstr "c"] [5, 6] 0 3
    (by decide) (by decide) rfl ⟨[], rfl⟩ (by decide)

/-- C3: without flags, with exactly one argument `"<|"` and exactly one `">|"` after
the program name, the counts passed to the negotiation are 1 input and 1
output; with one resolved descriptor in each direction (`[0]` and `[1]` in
particular) the vector passed to `execvp` is the program name followed by the
arguments, `"<|"` replaced by the input descriptor's path, `">|"` by the output
descriptor's, every other argument unchanged. -/
theorem one_marker_each_end_to_end (os_splits : Bool) (w prog : CStr) (args : List CStr)
    (d_in d_out : Int) (hprog : prog.head? ≠ some '-')
    (hi : args.count marker_in = 1) (ho : args.count marker_out = 1) :
    ∃ st, main_before_negotiate os_splits (w :: prog :: args) = .negotiate st
      ∧ st.flags.ninputs = 1 ∧ st.flags.noutputs = 1
      ∧ ∃ args2, main_after_negotiate st ⟨1, 1, [d_in], [d_out]⟩ = .ok (prog :: args2)
          ∧ args2.length = args.length
          ∧ ∀ (i : Nat) (a : CStr), args[i]? = some a →
              args2[i]? = some (if a = marker_in then fd_path d_in
                                else if a = marker_out then fd_path d_out else a) := by
  refine ⟨_, main_before_negotiate_no_flags os_splits w prog args hprog, ?_, ?_, ?_⟩
  · simp [implicit_adjust, hi]
  · simp [implicit_adjust, ho]
  · obtain ⟨args1, h2, h3, h4, h5, _, h7⟩ :=
      substitute_standalone marker_in (fd_path_ne_marker '<' '|' (by decide)) [d_in] args 0
        (by simp [hi])
    have hc : args1.count marker_out = 1 := by
      rw [h7 marker_out (by decide) (fd_path_ne_marker '>' '|' (by decide)), ho]
    obtain ⟨args2, k2, k3, k4, k5, _, _⟩ :=
      substitute_standalone marker_out (fd_path_ne_marker '>' '|' (by decide)) [d_out] args1 0
        (by simp [hc])
    refine ⟨args2, ?_, by rw [k3, h3], ?_⟩
    · have e1 : init_flags.stdin_as_arg = true := rfl
      have e2 : init_flags.supply_input_args = false := rfl
      have e3 : init_flags.embedded_args = false := rfl
      have e4 : init_flags.stdout_as_arg = true := rfl
      have e5 : init_flags.supply_output_args = false := rfl
      simp only [main_after_negotiate, rewrite_inputs, rewrite_outputs, e1, e2, e3, e4, e5]
      rw [rewrite_direction_in_place, h2]
      simp only []
      rw [rewrite_direction_in_place, k2]
      simp
    · intro i a hia
      by_cases ha : a = marker_in
      · subst ha
        obtain ⟨d, hd1, hd2⟩ := h5 i hia
        have hd : d = d_in := getElem?_singleton_some hd1
        subst hd
        rw [if_pos rfl]
        exact k4 i _ hd2 (fd_path_ne_marker '>' '|' (by decide) d)
      · have h1 := h4 i a hia ha
        rw [if_neg ha]
        by_cases hb : a = marker_out
        · subst hb
          obtain ⟨d, hd1, hd2⟩ := k5 i h1
          have hd : d = d_out := getElem?_singleton_some hd1
          subst hd
          rw [if_pos rfl]
          exact hd2
        · rw [if_neg hb]
          exact k4 i a h1 hb

/-- C3, on `dgsh-wrap tee <| x >|` with the input descriptors `[0]` and the
output descriptors `[1]`. -/
theorem one_marker_each_end_to_end_witness :
    ∃ st, main_before_negotiate false
            [cstr "dgsh-wrap", cstr "tee", cstr "<|", cstr "x", cstr ">|"] = .negotiate st
      ∧ st.flags.ninputs = 1 ∧ st.flags.noutputs = 1
      ∧ main_after_negotiate st ⟨1, 1, [0], [1]⟩
          = .ok [cstr "tee", cstr "/dev/fd/0", cstr "x", cstr "/dev/fd/1"] := by
  obtain ⟨st, h1, h2, h3, args2, h4, h5, h6⟩ := one_marker_each_end_to_end false
    (cstr "dgsh-wrap") (cstr "tee") [cstr "<|", cstr "x", cstr ">|"] 0 1
    (by decide) (by decide) (by decide)
  refine ⟨st, h1, h2, h3, ?_⟩
  rw [h4]
  have g0 := h6 0 (cstr "<|") rfl
  have g1 := h6 1 (cstr "x") rfl
  have g2 := h6 2 (cstr ">|") rfl
  match args2, h5, g0, g1, g2 with
  | [a, b, c], _, g0, g1, g2 =>
    simp only [List.getElem?_cons_zero, List.getElem?_cons_succ, Option.some.injEq] at g0 g1 g2
    subst g0 g1 g2
    decide

/-- C4 (as stated, refuted): `dgsh-wrap -i 0 cat "<|"` is no usage error: the
marker raises the input count from 0 to 1 and `dgsh_negotiate` is called with
`ninputs = 1`; likewise `dgsh-wrap -o 0 cat ">|"` with `noutputs = 1`. -/
theorem fixed_zero_with_marker_is_negotiated :
    (∃ st, main_before_negotiate false
        [cstr "dgsh-wrap", cstr "-i", cstr "0", cstr "cat", cstr "<|"] = .negotiate st
      ∧ st.flags.ninputs = 1)
    ∧ (∃ st, main_before_negotiate false
        [cstr "dgsh-wrap", cstr "-o", cstr "0", cstr "cat", cstr ">|"] = .negotiate st
      ∧ st.flags.noutputs = 1) := by
  refine ⟨⟨_, rfl, ?_⟩, ⟨_, rfl, ?_⟩⟩ <;> decide

/-- C4 (amended): for every invocation that passes the option loop and the checks
after it without `-x`, the wrapper exits with status 1 during scanning exactly
when a direction set to arbitrary (`-i a`: `ninputs = -1`, `-o a`:
`noutputs = -1`) meets a marker of that direction among the target-program
arguments; in every other case, `-i 0` or `-o 0` with markers included, the
markers are counted and `dgsh_negotiate` is called. -/
theorem markers_rejected_only_when_arbitrary (os_splits : Bool) (argv0 : List CStr)
    (f : Flags) (optind : Nat) (argv2 : List CStr) (prog : CStr)
    (h : main_options os_splits argv0 = .ok (f, optind, argv2, prog))
    (hx : f.xflag = false) :
    ((f.ninputs = -1 ∧ has_marker f.embedded_args marker_in (argv2.drop (optind + 1)) = true)
        ∨ (f.noutputs = -1
            ∧ has_marker f.embedded_args marker_out (argv2.drop (optind + 1)) = true) →
      main_before_negotiate os_splits argv0 = .exit_channels)
    ∧ (¬ ((f.ninputs = -1
            ∧ has_marker f.embedded_args marker_in (argv2.drop (optind + 1)) = true)
        ∨ (f.noutputs = -1
            ∧ has_marker f.embedded_args marker_out (argv2.drop (optind + 1)) = true)) →
      ∃ st, main_before_negotiate os_splits argv0 = .negotiate st) := by
  obtain ⟨hi, ho⟩ := main_options_counts os_splits argv0 f optind argv2 prog h
  have sp := scan_args_spec f.embedded_args (argv2.drop (optind + 1)) f.ninputs f.noutputs hi ho
  constructor
  · intro c
    simp only [main_before_negotiate, h, hx, Bool.false_eq_true, if_false, sp.1 c]
  · intro c
    obtain ⟨ni1, no1, e⟩ := sp.2 c
    simp only [main_before_negotiate, h, hx, Bool.false_eq_true, if_false, e]
    exact ⟨_, rfl⟩

/-- C4 (amended), on `dgsh-wrap -i 0 cat "<|" "<|"`. -/
theorem markers_rejected_only_when_arbitrary_witness :
    ∃ st, main_before_negotiate false
        [cstr "dgsh-wrap", cstr "-i", cstr "0", cstr "cat", cstr "<|", cstr "<|"]
      = .negotiate st :=
  (markers_rejected_only_when_arbitrary false
    [cstr "dgsh-wrap", cstr "-i", cstr "0", cstr "cat", cstr "<|", cstr "<|"]
    { init_flags with nflags := 1, negotiation_flags := true, ninputs := 0 } 3
    [cstr "dgsh-wrap", cstr "-i", cstr "0", cstr "cat", cstr "<|", cstr "<|"] (cstr "cat")
    (by decide) rfl).2 (by decide)

/-- C5: on `dgsh-wrap -i 0 cat "<|" "<|"` the scanner counts 2 from 0, the
adjustment for the implicit channel lowers the request to 1, and with the one
input descriptor the negotiation then resolves the rewriter reads
`input_fds[1]`, past the end of the array. -/
theorem rewriter_reads_past_resolved_inputs :
    ∃ st, main_before_negotiate false
        [cstr "dgsh-wrap", cstr "-i", cstr "0", cstr "cat", cstr "<|", cstr "<|"]
          = .negotiate st
      ∧ st.flags.ninputs = 1
      ∧ rewrite_inputs st ⟨1, 1, [3], [1]⟩ = .error .oob
      ∧ main_after_negotiate st ⟨1, 1, [3], [1]⟩ = .error .oob := by
  refine ⟨_, rfl, ?_, ?_, ?_⟩ <;> decide

/-- C6: on `PATH=/a:/x/libexec/dgsh:/b` the call `remove_from_path("libexec/dgsh")`
leaves `/a:/b/libexec/dgsh:/b`, not `/a:/b`: the `memmove` moves `strlen(end)`
bytes, so the terminating NUL stays where it was and the old tail survives. The
same happens when the matching entry is the first one. -/
theorem remove_from_path_keeps_old_tail :
    remove_from_path (cstr "libexec/dgsh") (some (cstr "/a:/x/libexec/dgsh:/b"))
      = some (cstr "/a:/b/libexec/dgsh:/b")
    ∧ remove_from_path (cstr "libexec/dgsh") (some (cstr "/x/libexec/dgsh:/b"))
      = some (cstr "/b/libexec/dgsh:/b") := by
  decide

/-- C7 (as stated, refuted): on `PATH=/x/libexec/dgsh:/y/libexec/dgsh:/z` the first
call of `remove_from_path("libexec/dgsh")` leaves
`/y/libexec/dgsh:/z/libexec/dgsh:/z`, and a second call changes that value to
`/z/libexec/dgsh:/z/libexec/dgsh:/z`. -/
theorem remove_from_path_not_idempotent :
    remove_from_path (cstr "libexec/dgsh") (some (cstr "/x/libexec/dgsh:/y/libexec/dgsh:/z"))
      = some (cstr "/y/libexec/dgsh:/z/libexec/dgsh:/z")
    ∧ remove_from_path (cstr "libexec/dgsh")
        (remove_from_path (cstr "libexec/dgsh")
          (some (cstr "/x/libexec/dgsh:/y/libexec/dgsh:/z")))
      = some (cstr "/z/libexec/dgsh:/z/libexec/dgsh:/z")
    ∧ remove_from_path (cstr "libexec/dgsh")
        (remove_from_path (cstr "libexec/dgsh")
          (some (cstr "/x/libexec/dgsh:/y/libexec/dgsh:/z")))
      ≠ remove_from_path (cstr "libexec/dgsh")
          (some (cstr "/x/libexec/dgsh:/y/libexec/dgsh:/z")) := by
  decide

/-- C7 (amended): `remove_from_path` is idempotent whenever `PATH` is unset, the
string does not occur in it, or its first occurrence lies in the last entry
(no `':'` from the occurrence to the end): the second call finds nothing left to
remove. -/
theorem remove_from_path_idempotent_last_entry (string path : CStr)
    (h : ∀ p, strstr path string = some p → ':' ∉ path.drop p) :
    remove_from_path string (remove_from_path string (some path))
        = remove_from_path string (some path)
    ∧ remove_from_path string (remove_from_path string none) = remove_from_path string none := by
  refine ⟨?_, rfl⟩
  cases hp : strstr path string with
  | none => rw [remove_from_path_no_match string path hp, remove_from_path_no_match string path hp]
  | some p =>
    obtain ⟨start, hs, heq⟩ := remove_from_path_last string path p hp (h p hp)
    rw [heq]
    by_cases hne : string = []
    · subst hne
      have hp0 : p = 0 := by
        cases path with
        | nil => simpa [strstr] using hp.symm
        | cons c cs => simpa [strstr] using hp.symm
      have hs0 : start = 0 := by omega
      subst hs0
      simp [remove_from_path, strstr, back_to_colon, forward_to_colon]
    · exact remove_from_path_no_match string _ (strstr_take_none string path p start hp hs hne)

/-- C7 (amended), at `PATH=/a:/x/libexec/dgsh`. -/
theorem remove_from_path_idempotent_last_entry_witness :
    remove_from_path (cstr "libexec/dgsh")
        (remove_from_path (cstr "libexec/dgsh") (some (cstr "/a:/x/libexec/dgsh")))
      = some (cstr "/a") :=
  ((remove_from_path_idempotent_last_entry (cstr "libexec/dgsh") (cstr "/a:/x/libexec/dgsh")
    (by
      intro p hp
      have h5 : strstr (cstr "/a:/x/libexec/dgsh") (cstr "libexec/dgsh") = some 6 := by decide
      rw [h5] at hp
      cases hp
      decide)).1).trans (by decide)

/-- C8: `split_argv` on `[a0, a1, a2, ..., a(n-1)]` (`n ≥ 2`), where `strtok` splits
`a1` on spaces and tabs into the tokens `t_1 .. t_k` (`k ≥ 1`), returns the
argument count `n + k - 1` and the array `a0, t_1, ..., t_k, a2, ..., a(n-1), NULL`. -/
theorem split_argv_splices_tokens (a0 a1 : CStr) (rest : List CStr) (t : CStr)
    (ts : List CStr) (htok : strtok_all delim a1 [] = t :: ts) :
    split_argv (a0 :: a1 :: rest).length (mkArgv (a0 :: a1 :: rest))
      = some ((a0 :: a1 :: rest).length + (t :: ts).length - 1,
              mkArgv (a0 :: (t :: ts) ++ rest)) := by
  have h := split_argv_spec a0 a1 rest t ts htok
  simp only [List.length_cons] at h ⊢
  rw [h]
  congr 2

/-- C8, on the example in the source. -/
theorem split_argv_splices_tokens_witness :
    split_argv 4
        (mkArgv [cstr "/usr/local/libexec/dgsh/dgsh-wrap", cstr "-S -d /bin/uname",
                 cstr "/usr/local/libexec/dgsh/uname", cstr "-s"])
      = some (6, [some (cstr "/usr/local/libexec/dgsh/dgsh-wrap"), some (cstr "-S"),
                  some (cstr "-d"), some (cstr "/bin/uname"),
                  some (cstr "/usr/local/libexec/dgsh/uname"), some (cstr "-s"), none]) :=
  split_argv_splices_tokens (cstr "/usr/local/libexec/dgsh/dgsh-wrap") (cstr "-S -d /bin/uname")
    [cstr "/usr/local/libexec/dgsh/uname", cstr "-s"] (cstr "-S") [cstr "-d", cstr "/bin/uname"]
    (by decide)

/-- C9: for a shebang-style vector `[w, D, script, r_1, ..., r_m]` whose directive
`D` is split by `strtok` into `t_1 .. t_k`, `split_argv` followed by
`remove_os_script_path` at the index `k` of `t_k` leaves the argument count
`k + m + 1` and the array `w, t_1, ..., t_k, r_1, ..., r_m, NULL`: the vector of the
direct invocation `w t_1 ... t_k r_1 ... r_m`. (One more cell follows the `NULL`;
it holds what the move read from behind the array.) -/
theorem shebang_vector_equals_direct (w D script : CStr) (rs : List CStr) (t : CStr)
    (ts : List CStr) (beyond : Option CStr) (htok : strtok_all delim D [] = t :: ts) :
    ∃ argc1 argv1,
      split_argv (w :: D :: script :: rs).length (mkArgv (w :: D :: script :: rs))
        = some (argc1, argv1)
      ∧ remove_os_script_path argv1 argc1 (t :: ts).length beyond
        = (mkArgv (w :: (t :: ts) ++ rs) ++ [beyond], (w :: (t :: ts) ++ rs).length) := by
  refine ⟨_, _, split_argv_spec w D (script :: rs) t ts htok, ?_⟩
  have h := remove_os_script_path_spec (w :: t :: ts) script rs beyond (by simp)
  have e1 : (script :: rs).length + 2 + ts.length
      = (w :: t :: ts).length + rs.length + 1 := by simp; omega
  have e2 : (t :: ts).length = (w :: t :: ts).length - 1 := by simp
  have e4 : (w :: (t :: ts) ++ rs).length = (w :: t :: ts).length + rs.length := by
    simp; omega
  rw [e1, e4, e2]
  exact h

/-- C9, on the example in the source. -/
theorem shebang_vector_equals_direct_witness :
    ∃ argc1 argv1,
      split_argv 4 (mkArgv [cstr "dgsh-wrap", cstr "-S -d /bin/uname",
                            cstr "/usr/local/libexec/dgsh/uname", cstr "-s"])
        = some (argc1, argv1)
      ∧ remove_os_script_path argv1 argc1 3 none
        = (mkArgv [cstr "dgsh-wrap", cstr "-S", cstr "-d", cstr "/bin/uname", cstr "-s"]
             ++ [none], 5) :=
  shebang_vector_equals_direct (cstr "dgsh-wrap") (cstr "-S -d /bin/uname")
    (cstr "/usr/local/libexec/dgsh/uname") [cstr "-s"] (cstr "-S") [cstr "-d", cstr "/bin/uname"]
    none (by decide)

/-- C10: `-x` does not count as a flag given before `-S`: the option loop accepts
`-x -S` (and `-x -s`), and `dgsh-wrap -x -S prog script arg` goes on to
`execvp`. -/
theorem x_before_S_is_accepted :
    parse_options init_flags [('x', []), ('S', [])]
        = some { init_flags with xflag := true, nflags := 1, program_supplied := true }
    ∧ parse_options init_flags [('x', []), ('s', [])]
        = some { init_flags with xflag := true, nflags := 1, program_from_os := true }
    ∧ main_before_negotiate false
        [cstr "dgsh-wrap", cstr "-x", cstr "-S", cstr "prog", cstr "script", cstr "arg"]
        = .exec [cstr "prog", cstr "arg"] := by
  decide

/-- C11 (as stated, refuted): the option loop accepts `-i 0` together with `-i a`
in either order (the later flag sets the count), and likewise `-o 0` with
`-o a`; `dgsh-wrap -i 0 -i a cat` goes on to `dgsh_negotiate` with
`ninputs = -1`. -/
theorem fixed_and_arbitrary_flags_accepted :
    parse_options init_flags [('i', ['0']), ('i', ['a'])]
        = some { init_flags with
                 nflags := 2, negotiation_flags := true, ninputs := -1,
                 supply_input_args := true }
    ∧ parse_options init_flags [('i', ['a']), ('i', ['0'])]
        = some { init_flags with
                 nflags := 2, negotiation_flags := true, ninputs := 0,
                 supply_input_args := true }
    ∧ parse_options init_flags [('o', ['0']), ('o', ['a'])]
        = some { init_flags with
                 nflags := 2, negotiation_flags := true, noutputs := -1,
                 supply_output_args := true }
    ∧ parse_options init_flags [('o', ['a']), ('o', ['0'])]
        = some { init_flags with
                 nflags := 2, negotiation_flags := true, noutputs := 0,
                 supply_output_args := true }
    ∧ (∃ st, main_before_negotiate false
          [cstr "dgsh-wrap", cstr "-i", cstr "0", cstr "-i", cstr "a", cstr "cat"]
          = .negotiate st ∧ st.flags.ninputs = -1) := by
  refine ⟨by decide, by decide, by decide, by decide, ⟨_, rfl, by decide⟩⟩

/-- C11 (amended): the option loop accepts every sequence of the flags `-i 0`,
`-i a`, `-o 0` and `-o a`, in any order and number; whenever the loop succeeds,
the count of a direction is that of the last flag given for it (`0` for `0`,
`-1` for `a`, unchanged when none was given), and a direction supplies its
descriptors as added arguments as soon as its flag was given with `a`. -/
theorem count_flags_last_one_wins (f : Flags) (evs : List (Char × CStr)) :
    ((∀ e ∈ evs, (e.1 = 'i' ∨ e.1 = 'o') ∧ (e.2 = ['0'] ∨ e.2 = ['a'])) →
      ∃ f1, parse_options f evs = some f1)
    ∧ (∀ f1, parse_options f evs = some f1 →
        f1.ninputs = last_count 'i' f.ninputs evs
        ∧ f1.noutputs = last_count 'o' f.noutputs evs
        ∧ f1.supply_input_args
            = (f.supply_input_args || evs.any (fun e => decide (e = ('i', ['a']))))
        ∧ f1.supply_output_args
            = (f.supply_output_args || evs.any (fun e => decide (e = ('o', ['a']))))) := by
  constructor
  · induction evs generalizing f with
    | nil => intro _; exact ⟨f, rfl⟩
    | cons e rest ih =>
      intro h
      obtain ⟨h1, h2⟩ := h e (by simp)
      obtain ⟨ch, optarg⟩ := e
      simp only at h1 h2
      have hstep : ∃ f2, option_case f ch optarg = some f2 := by
        cases hoc : option_case f ch optarg with
        | some f2 => exact ⟨f2, rfl⟩
        | none =>
          exfalso
          rcases h1 with rfl | rfl <;> rcases h2 with rfl | rfl <;>
            simp [option_case] at hoc
      obtain ⟨f2, hf2⟩ := hstep
      obtain ⟨f1, hf1⟩ := ih f2 (fun e he => h e (by simp [he]))
      exact ⟨f1, by simp [parse_options, hf2, hf1]⟩
  · intro f1 h
    obtain ⟨_, _, _, _, _, b6, b7, b8, b9⟩ := parse_options_fields evs f f1 h
    exact ⟨b8, b9, b6, b7⟩

/-- C11 (amended), on `-i 0 -o a -i a -o 0`. -/
theorem count_flags_last_one_wins_witness :
    ∃ f1, parse_options init_flags [('i', ['0']), ('o', ['a']), ('i', ['a']), ('o', ['0'])]
        = some f1
      ∧ f1.ninputs = -1 ∧ f1.noutputs = 0
      ∧ f1.supply_input_args = true ∧ f1.supply_output_args = true := by
  have h := count_flags_last_one_wins init_flags
    [('i', ['0']), ('o', ['a']), ('i', ['a']), ('o', ['0'])]
  obtain ⟨f1, hf1⟩ := h.1 (by decide)
  obtain ⟨h1, h2, h3, h4⟩ := h.2 f1 hf1
  exact ⟨f1, hf1, by rw [h1]; decide, by rw [h2]; decide, by rw [h3]; decide, by rw [h4]; decide⟩

/-- C12: an invocation whose flags hold `-x` and at least one of `-i`, `-o`, `-e`,
`-I`, `-O`, in any order, ends in `usage()` (exit 1): `main` reaches neither
`dgsh_negotiate` nor `execvp`. -/
theorem x_with_channel_flag_is_usage (os_splits : Bool)
    (dgsh_negotiate : CStr → Int → Int → Negotiated) (argv : List CStr)
    (hx : ∃ e ∈ main_events os_splits argv, e.1 = 'x')
    (hn : ∃ e ∈ main_events os_splits argv, e.1 ∈ ['i', 'o', 'e', 'I', 'O']) :
    main_before_negotiate os_splits argv = .exit_usage
    ∧ main os_splits dgsh_negotiate argv = .exit_usage := by
  have hopt : main_options os_splits argv = .error .exit_usage := by
    obtain ⟨argv1, hs⟩ := main_split_is_some os_splits argv
    rw [main_options_eq, hs]
    simp only [main_events, hs] at hx hn
    simp only []
    cases hp : parse_options init_flags (getopt_all (argv1.drop 1) 1 false).1 with
    | none => rfl
    | some f =>
      obtain ⟨b1, b2, _⟩ := parse_options_fields _ _ _ hp
      have hxf : f.xflag = true := by
        rw [b1]
        obtain ⟨e, he, hc⟩ := hx
        simp only [Bool.or_eq_true, List.any_eq_true, decide_eq_true_eq]
        exact Or.inr ⟨e, he, hc⟩
      have hnf : f.negotiation_flags = true := by
        rw [b2]
        obtain ⟨e, he, hc⟩ := hn
        simp only [Bool.or_eq_true, List.any_eq_true, decide_eq_true_eq]
        exact Or.inr ⟨e, he, hc⟩
      simp only []
      split
      · rfl
      · rw [if_pos ⟨hxf, hnf⟩]
  have hb : main_before_negotiate os_splits argv = .exit_usage := by
    simp only [main_before_negotiate, hopt]
  exact ⟨hb, by simp only [main, hb]⟩

/-- C12, on `dgsh-wrap -e -x cat`. -/
theorem x_with_channel_flag_is_usage_witness :
    main false (fun _ _ _ => ⟨1, 1, [0], [1]⟩) [cstr "dgsh-wrap", cstr "-e", cstr "-x", cstr "cat"]
      = .exit_usage :=
  (x_with_channel_flag_is_usage false (fun _ _ _ => ⟨1, 1, [0], [1]⟩)
    [cstr "dgsh-wrap", cstr "-e", cstr "-x", cstr "cat"]
    ⟨('x', []), by decide, rfl⟩ ⟨('e', []), by decide, by decide⟩).2

/-- C13: an invocation `dgsh-wrap -x program arguments...` calls no negotiation:
`main` passes to `execvp` the program name and the arguments as they were
given, in order, markers included. -/
theorem pass_through_keeps_arguments (os_splits : Bool)
    (dgsh_negotiate : CStr → Int → Int → Negotiated) (w prog : CStr) (args : List CStr)
    (hprog : prog.head? ≠ some '-') :
    main_before_negotiate os_splits (w :: ['-', 'x'] :: prog :: args) = .exec (prog :: args)
    ∧ main os_splits dgsh_negotiate (w :: ['-', 'x'] :: prog :: args)
        = .exec (prog :: args) := by
  have hs : main_split os_splits (w :: ['-', 'x'] :: prog :: args)
      = some (w :: ['-', 'x'] :: prog :: args) := by
    have : is_shebang_arg (w :: ['-', 'x'] :: prog :: args) = false := by
      simp [is_shebang_arg]
    simp [main_split, this]
  have hg : getopt_all ((w :: ['-', 'x'] :: prog :: args).drop 1) 1 false
      = ([('x', [])], 2) := by
    have h1 := getopt_all_no_dash prog args 2 hprog
    show getopt_all (['-', 'x'] :: prog :: args) 1 false = _
    rw [getopt_all]
    simp [getopt_cluster, h1]
  have hopt : main_options os_splits (w :: ['-', 'x'] :: prog :: args)
      = .ok ({ init_flags with xflag := true }, 2, w :: ['-', 'x'] :: prog :: args, prog) := by
    rw [main_options_eq, hs]
    simp only [hg]
    simp [parse_options, option_case, init_flags]
  have hb : main_before_negotiate os_splits (w :: ['-', 'x'] :: prog :: args)
      = .exec (prog :: args) := by
    simp [main_before_negotiate, hopt]
  exact ⟨hb, by simp only [main, hb]⟩

/-- C13, on `dgsh-wrap -x sh -c "a<|b" "<|" ">|"`. -/
theorem pass_through_keeps_arguments_witness :
    main false (fun _ _ _ => ⟨1, 1, [0], [1]⟩)
        [cstr "dgsh-wrap", cstr "-x", cstr "sh", cstr "-c", cstr "a<|b", cstr "<|", cstr ">|"]
      = .exec [cstr "sh", cstr "-c", cstr "a<|b", cstr "<|", cstr ">|"] :=
  (pass_through_keeps_arguments false (fun _ _ _ => ⟨1, 1, [0], [1]⟩) (cstr "dgsh-wrap")
    (cstr "sh") [cstr "-c", cstr "a<|b", cstr "<|", cstr ">|"] (by decide)).2

/-- C14 (code defect): the supplying branch clears `n + 1` cells with `memset` at
`argv + argc` before it switches to the new block, so the store goes to the old
array, which has one cell left. For `dgsh-wrap -i a -o a cat` with the resolved
inputs 0, 3 and outputs 1, 5 the input rewriting writes past the array `main`
was given, and the output rewriting, run on the vector the input rewriting is
meant to leave, writes past the block the input rewriting allocated; `main`
does not reach `execvp` in a defined way. `dgsh-wrap -i a cat` with one
resolved input leaves the array as well. Only with no resolved descriptor does
the store stay inside. -/
theorem supply_memset_leaves_array :
    (∃ st, main_before_negotiate false
          [cstr "dgsh-wrap", cstr "-i", cstr "a", cstr "-o", cstr "a", cstr "cat"]
          = .negotiate st
        ∧ rewrite_inputs st ⟨2, 2, [0, 3], [1, 5]⟩ = .error .oob
        ∧ rewrite_outputs st
            [cstr "dgsh-wrap", cstr "-i", cstr "a", cstr "-o", cstr "a", cstr "cat",
             cstr "/dev/fd/0", cstr "/dev/fd/3"] ⟨2, 2, [0, 3], [1, 5]⟩ = .error .oob
        ∧ main_after_negotiate st ⟨2, 2, [0, 3], [1, 5]⟩ = .error .oob
        ∧ main_after_negotiate st ⟨0, 0, [], []⟩ = .ok [cstr "cat"])
    ∧ (∃ st, main_before_negotiate false [cstr "dgsh-wrap", cstr "-i", cstr "a", cstr "cat"]
          = .negotiate st
        ∧ rewrite_inputs st ⟨1, 1, [0], [1]⟩ = .error .oob
        ∧ main_after_negotiate st ⟨1, 1, [0], [1]⟩ = .error .oob) := by
  refine ⟨⟨_, rfl, ?_, ?_, ?_, ?_⟩, ⟨_, rfl, ?_, ?_⟩⟩ <;> decide

/-- C15: with counts that are not arbitrary, the scanning loop without `-e` adds to
the input count the number of arguments that are exactly `"<|"` and to the
output count the number of arguments that are exactly `">|"`; with `-e` it adds
the number of occurrences of `"<|"`, and of `">|"`, in all the arguments. -/
theorem scanner_counts_markers (args : List CStr) (ni no : Int) (hi : 0 ≤ ni) (ho : 0 ≤ no) :
    scan_args false args ni no
      = .ok (ni + (args.count marker_in : Nat), no + (args.count marker_out : Nat))
    ∧ scan_args true args ni no
      = .ok (ni + ((args.map (occurrences marker_in)).sum : Nat),
             no + ((args.map (occurrences marker_out)).sum : Nat)) := by
  have h1 := scan_args_total false args ni no hi ho
  have h2 := scan_args_total true args ni no hi ho
  simp only [marker_total, Bool.false_eq_true, if_false, if_true] at h1 h2
  exact ⟨h1, h2⟩

/-- C15, on the arguments `x<|`, `<|`, `a<|b<|c>|`, `>|`: one input and one output
marker without `-e`, four and two occurrences with it. -/
theorem scanner_counts_markers_witness :
    scan_args false [cstr "x<|", cstr "<|", cstr "a<|b<|c>|", cstr ">|"] 1 1 = .ok (2, 2)
    ∧ scan_args true [cstr "x<|", cstr "<|", cstr "a<|b<|c>|", cstr ">|"] 1 1 = .ok (5, 3) := by
  have h := scanner_counts_markers [cstr "x<|", cstr "<|", cstr "a<|b<|c>|", cstr ">|"] 1 1
    (by decide) (by decide)
  exact ⟨h.1.trans (by decide), h.2.trans (by decide)⟩

/-- C16: when none of `-i`, `-o`, `-I`, `-O` is given and `main` reaches the
negotiation, the input count it requests for `k` input markers among the
target-program arguments is 1 when `k = 0` and `k` when `k ≥ 1`, and likewise the
output count for the output markers. -/
theorem implicit_stream_adjustment (os_splits : Bool) (argv : List CStr) (st : Setup)
    (h : main_before_negotiate os_splits argv = .negotiate st)
    (hflags : ∀ e ∈ main_events os_splits argv,
      e.1 ≠ 'i' ∧ e.1 ≠ 'o' ∧ e.1 ≠ 'I' ∧ e.1 ≠ 'O') :
    st.flags.ninputs
      = ((if marker_total st.flags.embedded_args marker_in (st.argv.drop (st.optind + 1)) = 0
          then 1
          else marker_total st.flags.embedded_args marker_in
                 (st.argv.drop (st.optind + 1)) : Nat) : Int)
    ∧ st.flags.noutputs
      = ((if marker_total st.flags.embedded_args marker_out (st.argv.drop (st.optind + 1)) = 0
          then 1
          else marker_total st.flags.embedded_args marker_out
                 (st.argv.drop (st.optind + 1)) : Nat) : Int) := by
  obtain ⟨f, optind, argv2, prog, ni, no, hm, _, hsc, hst⟩ :=
    main_before_negotiate_reaches os_splits argv st h
  obtain ⟨hp, _⟩ := main_options_flags os_splits argv f optind argv2 prog hm
  obtain ⟨_, _, _, b4, b5, _, _, b8, b9⟩ := parse_options_fields _ _ _ hp
  have hni : f.ninputs = 1 := by
    rw [b8, last_count_of_not_mem 'i' _ _ (fun e he => (hflags e he).1)]
    rfl
  have hno : f.noutputs = 1 := by
    rw [b9, last_count_of_not_mem 'o' _ _ (fun e he => (hflags e he).2.1)]
    rfl
  have hin : f.stdin_as_arg = true := by
    rw [b4]
    have : (main_events os_splits argv).any (fun e => decide (e.1 = 'I')) = false := by
      simp only [List.any_eq_false, decide_eq_true_eq]
      exact fun e he => (hflags e he).2.2.1
    rw [this]
    rfl
  have hout : f.stdout_as_arg = true := by
    rw [b5]
    have : (main_events os_splits argv).any (fun e => decide (e.1 = 'O')) = false := by
      simp only [List.any_eq_false, decide_eq_true_eq]
      exact fun e he => (hflags e he).2.2.2
    rw [this]
    rfl
  rw [hni, hno, scan_args_total f.embedded_args _ 1 1 (by decide) (by decide)] at hsc
  simp only [Except.ok.injEq, Prod.mk.injEq] at hsc
  obtain ⟨h1, h2⟩ := hsc
  subst h1 h2 hst
  have key : ∀ k : Nat, (if True ∧ (1 : Int) + (k : Nat) > 1 then (1 : Int) + (k : Nat) - 1
      else (1 : Int) + (k : Nat)) = ((if k = 0 then 1 else k : Nat) : Int) := by
    intro k
    by_cases hk : k = 0
    · have h1 : ¬ (True ∧ (1 : Int) + (k : Nat) > 1) := fun h => by omega
      rw [if_neg h1, if_pos hk]
      omega
    · have h1 : True ∧ (1 : Int) + (k : Nat) > 1 := ⟨trivial, by omega⟩
      rw [if_pos h1, if_neg hk]
      omega
  simp only [hin, hout]
  exact ⟨key _, key _⟩

/-- C16, on `dgsh-wrap cat <| <|`: two markers request 2 inputs, and no output
marker requests 1 output. -/
theorem implicit_stream_adjustment_witness :
    ∃ st, main_before_negotiate false [cstr "dgsh-wrap", cstr "cat", cstr "<|", cstr "<|"]
        = .negotiate st
      ∧ st.flags.ninputs = 2 ∧ st.flags.noutputs = 1 := by
  have h := implicit_stream_adjustment false
    [cstr "dgsh-wrap", cstr "cat", cstr "<|", cstr "<|"] _ rfl (by decide)
  exact ⟨_, rfl, h.1.trans (by decide), h.2.trans (by decide)⟩

/-- C17 (code defect): `dgsh-wrap -i 0 -I cat "<|"` has one input marker (`k = 1`),
yet `main` requests 1 input, not `k + 1 = 2`: `-i 0` starts the count at 0 and,
with `-I`, nothing accounts for the leading descriptor. The rewriting still
starts behind `input_fds[0]`: when the negotiation resolves the one descriptor
requested, the marker asks for `input_fds[1]`, past the end of the array; only
with two descriptors does it become the path of `input_fds[1]`. The same
happens with `-o 0 -O` and `">|"`. -/
theorem fixed_zero_with_I_requests_one_short :
    (∃ st, main_before_negotiate false
          [cstr "dgsh-wrap", cstr "-i", cstr "0", cstr "-I", cstr "cat", cstr "<|"]
          = .negotiate st
        ∧ st.flags.ninputs = 1
        ∧ rewrite_inputs st ⟨1, 1, [0], [1]⟩ = .error .oob
        ∧ main_after_negotiate st ⟨1, 1, [0], [1]⟩ = .error .oob
        ∧ rewrite_inputs st ⟨2, 1, [0, 3], [1]⟩
            = .ok ([cstr "dgsh-wrap", cstr "-i", cstr "0", cstr "-I", cstr "cat",
                    cstr "/dev/fd/3"], 2))
    ∧ (∃ st, main_before_negotiate false
          [cstr "dgsh-wrap", cstr "-o", cstr "0", cstr "-O", cstr "cat", cstr ">|"]
          = .negotiate st
        ∧ st.flags.noutputs = 1
        ∧ main_after_negotiate st ⟨1, 1, [0], [1]⟩ = .error .oob
        ∧ main_after_negotiate st ⟨1, 2, [0], [1, 4]⟩
            = .ok [cstr "cat", cstr "/dev/fd/4"]) := by
  refine ⟨⟨_, rfl, ?_, ?_, ?_, ?_⟩, ⟨_, rfl, ?_, ?_, ?_⟩⟩ <;> decide

/-- C18 (as stated, refuted): `dgsh-wrap -i a -i 0 cat "<|"` gives `-i a` and has an
input marker, yet it does not exit during scanning: the later `-i 0` resets the
count, the marker raises it to 1, and `dgsh_negotiate` is called; likewise
`dgsh-wrap -o a -o 0 cat ">|"`. -/
theorem arbitrary_then_fixed_is_negotiated :
    (∃ st, main_before_negotiate false
        [cstr "dgsh-wrap", cstr "-i", cstr "a", cstr "-i", cstr "0", cstr "cat", cstr "<|"]
        = .negotiate st ∧ st.flags.ninputs = 1)
    ∧ (∃ st, main_before_negotiate false
        [cstr "dgsh-wrap", cstr "-o", cstr "a", cstr "-o", cstr "0", cstr "cat", cstr ">|"]
        = .negotiate st ∧ st.flags.noutputs = 1) := by
  refine ⟨⟨_, rfl, ?_⟩, ⟨_, rfl, ?_⟩⟩ <;> decide

/-- C18 (amended): for every invocation that passes the option loop and the
checks after it, whose last `-i` flag is `-i a`, and that has at least one input
marker among the target-program arguments (an argument `"<|"`, or with `-e` an
occurrence of `"<|"` in an argument), `main` exits with status 1 during scanning
and never calls `dgsh_negotiate`; likewise when the last `-o` flag is `-o a` and
there is an output marker. -/
theorem arbitrary_direction_rejects_markers (os_splits : Bool)
    (dgsh_negotiate : CStr → Int → Int → Negotiated) (argv : List CStr)
    (f : Flags) (optind : Nat) (argv2 : List CStr) (prog : CStr)
    (pre post : List (Char × CStr)) (ch : Char)
    (h : main_options os_splits argv = .ok (f, optind, argv2, prog))
    (hev : main_events os_splits argv = pre ++ (ch, ['a']) :: post)
    (hlast : ∀ e ∈ post, e.1 ≠ ch)
    (hmark : (ch = 'i' ∧ has_marker f.embedded_args marker_in (argv2.drop (optind + 1)) = true)
      ∨ (ch = 'o' ∧ has_marker f.embedded_args marker_out (argv2.drop (optind + 1)) = true)) :
    main_before_negotiate os_splits argv = .exit_channels
    ∧ main os_splits dgsh_negotiate argv = .exit_channels := by
  obtain ⟨hp, hxn⟩ := main_options_flags os_splits argv f optind argv2 prog h
  obtain ⟨_, b2, _, _, _, _, _, b8, b9⟩ := parse_options_fields _ _ _ hp
  obtain ⟨hi, ho⟩ := main_options_counts os_splits argv f optind argv2 prog h
  have hneg : f.negotiation_flags = true := by
    rw [b2, hev]
    have : (pre ++ (ch, ['a']) :: post).any
        (fun e => decide (e.1 ∈ ['i', 'o', 'e', 'I', 'O'])) = true := by
      apply any_of_mem_append
      rcases hmark with ⟨rfl, _⟩ | ⟨rfl, _⟩ <;> decide
    rw [this]
    simp
  have hx : f.xflag = false := by
    cases hxf : f.xflag with
    | false => rfl
    | true => exact absurd ⟨hxf, hneg⟩ hxn
  have sp := scan_args_spec f.embedded_args (argv2.drop (optind + 1)) f.ninputs f.noutputs hi ho
  have hc : (f.ninputs = -1 ∧ has_marker f.embedded_args marker_in (argv2.drop (optind + 1)) = true)
      ∨ (f.noutputs = -1
          ∧ has_marker f.embedded_args marker_out (argv2.drop (optind + 1)) = true) := by
    rcases hmark with ⟨rfl, hm⟩ | ⟨rfl, hm⟩
    · left
      refine ⟨?_, hm⟩
      rw [b8, hev]
      exact last_count_arbitrary 'i' pre post _ hlast
    · right
      refine ⟨?_, hm⟩
      rw [b9, hev]
      exact last_count_arbitrary 'o' pre post _ hlast
  have hb : main_before_negotiate os_splits argv = .exit_channels := by
    simp only [main_before_negotiate, h, hx, Bool.false_eq_true, if_false, sp.1 hc]
  exact ⟨hb, by simp only [main, hb]⟩

/-- C18 (amended), on `dgsh-wrap -e -i 0 -i a cat "x<|y"`. -/
theorem arbitrary_direction_rejects_markers_witness :
    main false (fun _ _ _ => ⟨1, 1, [0], [1]⟩)
        [cstr "dgsh-wrap", cstr "-e", cstr "-i", cstr "0", cstr "-i", cstr "a", cstr "cat",
         cstr "x<|y"]
      = .exit_channels :=
  (arbitrary_direction_rejects_markers false (fun _ _ _ => ⟨1, 1, [0], [1]⟩)
    [cstr "dgsh-wrap", cstr "-e", cstr "-i", cstr "0", cstr "-i", cstr "a", cstr "cat",
     cstr "x<|y"]
    { init_flags with
      nflags := 3, negotiation_flags := true, embedded_args := true, ninputs := -1,
      supply_input_args := true }
    6
    [cstr "dgsh-wrap", cstr "-e", cstr "-i", cstr "0", cstr "-i", cstr "a", cstr "cat",
     cstr "x<|y"]
    (cstr "cat") [('e', []), ('i', ['0'])] [] 'i' (by decide) (by decide) (by decide)
    (Or.inl ⟨rfl, by decide⟩)).2

/-- C19: `remove_absolute_path` yields the base name: the result holds no `'/'`,
and it is the string itself when that holds no `'/'`, otherwise what follows
its last `'/'`; `"/usr/local/libexec/dgsh/uname"` becomes `"uname"`. -/
theorem remove_absolute_path_is_basename (s : CStr) :
    '/' ∉ remove_absolute_path s
    ∧ (('/' ∉ s ∧ remove_absolute_path s = s)
        ∨ ∃ dir, s = dir ++ '/' :: remove_absolute_path s)
    ∧ remove_absolute_path (cstr "/usr/local/libexec/dgsh/uname") = cstr "uname" := by
  refine ⟨?_, ?_, by decide⟩
  · unfold remove_absolute_path
    cases h : strrchr s '/' with
    | none => exact strrchr_none '/' s h
    | some p => exact (strrchr_some '/' s p h).2
  · unfold remove_absolute_path
    cases h : strrchr s '/' with
    | none => exact Or.inl ⟨strrchr_none '/' s h, rfl⟩
    | some p => exact Or.inr ⟨s.take p, (strrchr_some '/' s p h).1⟩

/-- C20 (as stated, refuted): `/usr/bin/dgsh-wrap cat /usr/bin/x "<|"` is a call
without wrapper flags, with a program name free of markers and one occurrence
of `"<|"`; with the descriptors 0 and 3 the top-level variant requests 2 inputs
but drops the argument `/usr/bin/x`, which starts with the directory of
`argv[0]`, and runs `cat /proc/self/fd/3`, where the structured variant with
`-e -I` runs `cat /usr/bin/x /dev/fd/3`. After the same skip
`/usr/bin/dgsh-wrap tee /usr/bin/tee "<|" ">|"` runs `tee /proc/self/fd/3 ">|"`,
where the structured variant with `-e -I` on `tee "<|" ">|"` also replaces the
output marker and runs `tee /dev/fd/3 /dev/fd/1`. And `dgsh-wrap cat "<|"`,
in which nothing is skipped, stores the `NULL` that ends `exec_argv` behind
that array. -/
theorem toplevel_differs_from_structured :
    (∃ st, Toplevel.main_before_negotiate
          [cstr "/usr/bin/dgsh-wrap", cstr "cat", cstr "/usr/bin/x", cstr "<|"]
          = .negotiate st
        ∧ st.ninputs = some 2
        ∧ Toplevel.main_after_negotiate st 2 [0, 3] = .ok [cstr "cat", cstr "/proc/self/fd/3"])
    ∧ (∃ st, main_before_negotiate false
          [cstr "/usr/bin/dgsh-wrap", cstr "-e", cstr "-I", cstr "cat", cstr "/usr/bin/x",
           cstr "<|"]
          = .negotiate st
        ∧ st.flags.ninputs = 2
        ∧ main_after_negotiate st ⟨2, 1, [0, 3], [1]⟩
            = .ok [cstr "cat", cstr "/usr/bin/x", cstr "/dev/fd/3"])
    ∧ (∃ st, Toplevel.main_before_negotiate
          [cstr "/usr/bin/dgsh-wrap", cstr "tee", cstr "/usr/bin/tee", cstr "<|", cstr ">|"]
          = .negotiate st
        ∧ st.ninputs = some 2
        ∧ Toplevel.main_after_negotiate st 2 [0, 3]
            = .ok [cstr "tee", cstr "/proc/self/fd/3", cstr ">|"])
    ∧ (∃ st, main_before_negotiate false
          [cstr "dgsh-wrap", cstr "-e", cstr "-I", cstr "tee", cstr "<|", cstr ">|"]
          = .negotiate st
        ∧ st.flags.ninputs = 2
        ∧ main_after_negotiate st ⟨2, 1, [0, 3], [1]⟩
            = .ok [cstr "tee", cstr "/dev/fd/3", cstr "/dev/fd/1"])
    ∧ Toplevel.main_before_negotiate [cstr "dgsh-wrap", cstr "cat", cstr "<|"]
        = .fault .oob := by
  refine ⟨⟨_, rfl, ?_, ?_⟩, ⟨_, rfl, ?_, ?_⟩, ⟨_, rfl, ?_, ?_⟩, ⟨_, rfl, ?_, ?_⟩, ?_⟩ <;> decide

/-- C20 (amended): take a call of the top-level variant without wrapper flags,
`argv[0] prog script args...`, in which `argv[0]` is longer than `"dgsh-wrap"`
and `script` starts with the characters `argv[0]` has before its last nine, so
that `script` is skipped, and whose program name contains no `"<|"`. When
`args` hold `k ≥ 1` occurrences of `"<|"` and the negotiation leaves at least
`k + 1` descriptors, all in `0..99999`, the top-level variant requests `k + 1`
inputs and runs `prog` with every occurrence replaced by `"/proc/self/fd/"` and
the next descriptor from `input_fds[1]` on. The structured variant run with
`-e -I` on `prog` and `args` requests `k + 1` inputs and its input rewriting
yields the same arguments with `"/dev/fd/"`; when `args` hold no `">|"`
either, these are the arguments it runs `prog` with. -/
theorem toplevel_matches_structured_inputs (os_splits : Bool) (a0 w prog a1 : CStr)
    (args : List CStr) (r : Negotiated)
    (hprog : prog.head? ≠ some '-') (hmark : strstr prog marker_in = none)
    (hskip : 9 < a0.length ∧ a1.take (a0.length - 9) = a0.take (a0.length - 9))
    (hk : 1 ≤ marker_total true marker_in args)
    (hn : r.ninputs = r.input_fds.length)
    (hlen : marker_total true marker_in args + 1 ≤ r.input_fds.length)
    (hr : ∀ d ∈ r.input_fds, 0 ≤ d ∧ d ≤ 99999) :
    (∃ st, Toplevel.main_before_negotiate (a0 :: prog :: a1 :: args) = .negotiate st
      ∧ st.ninputs = some ((marker_total true marker_in args : Nat) + 1)
      ∧ Toplevel.main_after_negotiate st r.ninputs r.input_fds
          = .ok (prog :: fill_args Toplevel.proc_fd marker_in args (r.input_fds.drop 1)))
    ∧ (∃ st, main_before_negotiate os_splits
          (w :: ['-', 'e'] :: ['-', 'I'] :: prog :: args) = .negotiate st
      ∧ st.flags.ninputs = (marker_total true marker_in args : Nat) + 1
      ∧ rewrite_inputs st r
          = .ok (w :: ['-', 'e'] :: ['-', 'I'] :: prog
                   :: fill_args dev_fd marker_in args (r.input_fds.drop 1),
                 1 + marker_total true marker_in args)
      ∧ (marker_total true marker_out args = 0 →
          main_after_negotiate st r
            = .ok (prog :: fill_args dev_fd marker_in args (r.input_fds.drop 1)))) := by
  have hp0 : occurrences marker_in prog = 0 := occurrences_of_strstr_none _ prog hmark
  have hm1 : marker_total true marker_in [prog] = 0 := by simp [marker_total, hp0]
  constructor
  · have hcount : Toplevel.count_args (prog :: args) none
        = .ok (some ((marker_total true marker_in args : Nat) + 1)) := by
      rw [toplevel_count_args, marker_total_cons, hm1]
      have hne : ¬ (0 + marker_total true marker_in args = 0) := by omega
      rw [if_neg hne]
      simp only [Option.getD_none]
      congr 2
      push_cast
      omega
    obtain ⟨title, hb⟩ := toplevel_before_negotiate a0 prog a1 args _ hprog hskip hcount
    refine ⟨_, hb, rfl, ?_⟩
    have hsub := toplevel_subst_args r.input_fds hr r.ninputs
      (marker_total true marker_in args) (by rw [hn]; omega) (args.length + 3 - 2)
      (prog :: args) 0 1 (by simp only [List.length_cons]; omega)
      (by rw [marker_total_cons, hm1]; omega) (by rw [marker_total_cons, hm1]; omega)
    have hfp : fill_arg Toplevel.proc_fd marker_in prog (r.input_fds.drop 1) = prog :=
      fill_arg_of_none _ '<' '|' prog _ hmark
    have hpp : (pieces marker_in prog).length - 1 = 0 := by
      have : pieces marker_in prog = [prog] := pieces_of_none '<' '|' prog hmark
      rw [this]
      rfl
    simp only [Toplevel.main_after_negotiate, hsub]
    rw [fill_args, hfp, hpp, List.drop_zero]
  · have hb := structured_embedded_inputs os_splits w prog args hprog
    refine ⟨_, hb, ?_, ?_, ?_⟩
    · show (1 : Int) + _ = _
      omega
    · have := rewrite_direction_embedded false '<' '|' (by decide) (by decide) (by decide) 3
        (w :: ['-', 'e'] :: ['-', 'I'] :: prog :: args) r.ninputs r.input_fds
        (by
          show 1 + marker_total true marker_in args ≤ _
          omega)
      exact this _
    · intro hout
      have hin := rewrite_direction_embedded false '<' '|' (by decide) (by decide) (by decide) 3
        (w :: ['-', 'e'] :: ['-', 'I'] :: prog :: args) r.ninputs r.input_fds
        (by
          show 1 + marker_total true marker_in args ≤ _
          omega)
      have hkeep := fill_args_keeps_none '>' '|' (by decide) (by decide) (by decide) '<' '|'
        args (r.input_fds.drop 1) hout
      have hout2 := rewrite_direction_embedded true '>' '|' (by decide) (by decide) (by decide) 3
        (w :: ['-', 'e'] :: ['-', 'I'] :: prog
          :: fill_args dev_fd marker_in args (r.input_fds.drop 1))
        r.noutputs r.output_fds
        (by
          show 0 + marker_total true marker_out
            (fill_args dev_fd marker_in args (r.input_fds.drop 1)) ≤ _
          rw [show marker_out = ['>', '|'] from rfl, show marker_in = ['<', '|'] from rfl, hkeep]
          omega)
      have hsame := fill_args_of_none dev_fd '>' '|' (by decide)
        (fill_args dev_fd ['<', '|'] args (r.input_fds.drop 1))
        (r.output_fds.drop 0) hkeep
      have e1 : marker_in = ['<', '|'] := rfl
      have e2 : marker_out = ['>', '|'] := rfl
      simp only [main_after_negotiate, rewrite_inputs, rewrite_outputs, init_flags]
      simp only [e1, e2, if_true, if_false, Bool.false_eq_true, List.drop_succ_cons,
        List.take_succ_cons, List.drop_zero, List.take_zero, List.nil_append, List.cons_append]
        at hout2 hin hsame ⊢
      rw [hin]
      simp only []
      rw [hout2]
      simp only [List.drop_succ_cons, List.drop_zero, hsame]

/-- C20 (amended), on `/l/dgsh-wrap paste /l/paste "a<|b<|c" "<|"` with the
descriptors 0, 5, 6 and 7. -/
theorem toplevel_matches_structured_inputs_witness :
    (∃ st, Toplevel.main_before_negotiate
          [cstr "/l/dgsh-wrap", cstr "paste", cstr "/l/paste", cstr "a<|b<|c", cstr "<|"]
          = .negotiate st
        ∧ st.ninputs = some 4
        ∧ Toplevel.main_after_negotiate st 4 [0, 5, 6, 7]
            = .ok [cstr "paste", cstr "a/proc/self/fd/5b/proc/self/fd/6c",
                   cstr "/proc/self/fd/7"])
    ∧ (∃ st, main_before_negotiate false
          [cstr "dgsh-wrap", cstr "-e", cstr "-I", cstr "paste", cstr "a<|b<|c", cstr "<|"]
          = .negotiate st
        ∧ st.flags.ninputs = 4
        ∧ main_after_negotiate st ⟨4, 1, [0, 5, 6, 7], [1]⟩
            = .ok [cstr "paste", cstr "a/dev/fd/5b/dev/fd/6c", cstr "/dev/fd/7"]) := by
  obtain ⟨⟨st, h1, h2, h3⟩, ⟨st2, g1, g2, _, g4⟩⟩ :=
    toplevel_matches_structured_inputs false (cstr "/l/dgsh-wrap") (cstr "dgsh-wrap")
      (cstr "paste") (cstr "/l/paste") [cstr "a<|b<|c", cstr "<|"] ⟨4, 1, [0, 5, 6, 7], [1]⟩
      (by decide) (by decide) (by decide) (by decide) (by decide) (by decide) (by decide)
  exact ⟨⟨st, h1, h2.trans (by decide), h3.trans (by decide)⟩,
    ⟨st2, g1, g2.trans (by decide), (g4 (by decide)).trans (by decide)⟩⟩

/-- C21: take a call of `write_command` that gets its socket and whose name fits
`sun_path`, and let `L` be the retry limit in force (the value of
`KVSTORE_RETRY_LIMIT` if set, else the global `retry_limit`). If `L ≥ 0`,
`retry_connection` is true and every call of `connect` fails with `ENOENT` or
`ECONNREFUSED`, the function calls `connect` exactly `L + 1` times, sleeping
between the calls, and ends in `exit(2)`. If the first call of `connect` fails
and `retry_connection` is false or the error is another one, it ends in
`exit(2)` after that one call. -/
theorem bounded_connection_retry (w : Kvstore.World) (retry_limit : Int) (name : CStr)
    (cmd : Char) (retry_connection : Bool) (s L : Int)
    (hint : retry_limit ≤ 2147483647)
    (hL : Kvstore.read_retry_limit w.env_retry_limit retry_limit = L)
    (hs : w.socket = some s) (hname : name.length < Kvstore.sun_path_size - 1) :
    (0 ≤ L → retry_connection = true →
      (∀ n, w.connect n = some .ENOENT ∨ w.connect n = some .ECONNREFUSED) →
      Kvstore.write_command w retry_limit name cmd retry_connection
        = ⟨.exit 2, L.toNat + 1, L.toNat, L, none⟩)
    ∧ (∀ e, w.connect 0 = some e → (retry_connection = false ∨ ∃ code, e = .other code) →
      Kvstore.write_command w retry_limit name cmd retry_connection
        = ⟨.exit 2, 1, 0, L, none⟩) := by
  have hmax : L ≤ 2147483647 := by
    rw [← hL]
    exact read_retry_limit_le _ _ hint
  have hn : ¬ name.length ≥ Kvstore.sun_path_size - 1 := by omega
  constructor
  · intro h0 hr hfail
    subst hr
    have hloop := connect_loop_all_fail w.connect L hmax hfail (L.toNat + 1) 0 0
      (by omega) h0 (by omega)
    have e1 : (L - 0).toNat = L.toNat := by simp
    rw [e1] at hloop
    simp only [Kvstore.write_command, hL, hs, if_neg hn, hloop, Nat.zero_add]
  · intro e he h
    have hloop := connect_loop_no_retry w.connect retry_connection L L.toNat 0 0 e he h
    simp only [Kvstore.write_command, hL, hs, if_neg hn, hloop, Nat.zero_add]

/-- C21, with `KVSTORE_RETRY_LIMIT=3` and a socket that always refuses: four calls
of `connect`, three of `sleep`, then `exit(2)`. -/
theorem bounded_connection_retry_witness :
    Kvstore.write_command ⟨some (cstr "3"), some 4, fun _ => some .ECONNREFUSED, true⟩ 10
        (cstr "/tmp/store") 'C' true
      = ⟨.exit 2, 4, 3, 3, none⟩ :=
  (bounded_connection_retry ⟨some (cstr "3"), some 4, fun _ => some .ECONNREFUSED, true⟩ 10
    (cstr "/tmp/store") 'C' true 4 3 (by decide) (by decide) rfl (by decide)).1
      (by decide) rfl (fun _ => Or.inr rfl)

/-- C22: take an invocation with `-e` and without `-i a` and `-o a` that reaches the
negotiation, and let `k_in` and `k_out` be the numbers of occurrences of `"<|"`
and `">|"` in the arguments after the program name. The scanning loop adds
`k_in` and `k_out` to the counts. When the descriptors the rewriting asks for
are there, the input rewriting reads exactly `k_in` descriptors and the output
rewriting, run on its result, exactly `k_out`: the arguments hold `k_out`
occurrences of `">|"` after the input rewriting as before it, and no marker of
either kind is left in the end. One replacement takes one occurrence of its
marker away and leaves the number of the other marker's occurrences as it is.
The loop over one argument ends after as many replacements as the argument has
occurrences, whatever the budget above that number; the budget of `main` is
never used up. -/
theorem scanner_and_rewriter_agree (os_splits : Bool) (argv : List CStr) (st : Setup)
    (r : Negotiated) (h : main_before_negotiate os_splits argv = .negotiate st)
    (he : ∃ e ∈ main_events os_splits argv, e.1 = 'e')
    (hna : ∀ e ∈ main_events os_splits argv, e ≠ ('i', ['a']) ∧ e ≠ ('o', ['a'])) :
    (∀ ni no : Int, 0 ≤ ni → 0 ≤ no →
      scan_args st.flags.embedded_args (st.argv.drop (st.optind + 1)) ni no
        = .ok (ni + (marker_total true marker_in (st.argv.drop (st.optind + 1)) : Nat),
               no + (marker_total true marker_out (st.argv.drop (st.optind + 1)) : Nat)))
    ∧ ((if st.flags.stdin_as_arg then 0 else 1)
          + marker_total true marker_in (st.argv.drop (st.optind + 1)) ≤ r.input_fds.length →
       (if st.flags.stdout_as_arg then 0 else 1)
          + marker_total true marker_out (st.argv.drop (st.optind + 1)) ≤ r.output_fds.length →
       ∃ argv1 argv2,
         rewrite_inputs st r
           = .ok (argv1, (if st.flags.stdin_as_arg then 0 else 1)
                    + marker_total true marker_in (st.argv.drop (st.optind + 1)))
         ∧ rewrite_outputs st argv1 r
           = .ok (argv2, (if st.flags.stdout_as_arg then 0 else 1)
                    + marker_total true marker_out (st.argv.drop (st.optind + 1)))
         ∧ marker_total true marker_out (argv1.drop (st.optind + 1))
             = marker_total true marker_out (st.argv.drop (st.optind + 1))
         ∧ marker_total true marker_in (argv1.drop (st.optind + 1)) = 0
         ∧ marker_total true marker_in (argv2.drop (st.optind + 1)) = 0
         ∧ marker_total true marker_out (argv2.drop (st.optind + 1)) = 0
         ∧ main_after_negotiate st r = .ok (argv2.drop st.optind))
    ∧ (∀ (arg arg1 : CStr) (fds : List Int) (fdptr fdptr1 : Nat),
        process_embedded_io_arg arg marker_in fds fdptr = .ok (true, arg1, fdptr1) →
        occurrences marker_in arg1 + 1 = occurrences marker_in arg
        ∧ occurrences marker_out arg1 = occurrences marker_out arg
        ∧ fdptr1 = fdptr + 1)
    ∧ (∀ (arg arg1 : CStr) (fds : List Int) (fdptr fdptr1 : Nat),
        process_embedded_io_arg arg marker_out fds fdptr = .ok (true, arg1, fdptr1) →
        occurrences marker_out arg1 + 1 = occurrences marker_out arg
        ∧ occurrences marker_in arg1 = occurrences marker_in arg
        ∧ fdptr1 = fdptr + 1)
    ∧ (∀ (fds : List Int) (a : CStr) (fdptr fuel : Nat),
        fdptr + occurrences marker_in a ≤ fds.length → occurrences marker_in a < fuel →
        embedded_while marker_in fds fuel a fdptr
          = .ok (fill_arg dev_fd marker_in a (fds.drop fdptr), fdptr + occurrences marker_in a))
    ∧ (∀ (fds : List Int) (a : CStr) (fdptr fuel : Nat),
        fdptr + occurrences marker_out a ≤ fds.length → occurrences marker_out a < fuel →
        embedded_while marker_out fds fuel a fdptr
          = .ok (fill_arg dev_fd marker_out a (fds.drop fdptr),
                 fdptr + occurrences marker_out a))
    ∧ (∀ (special : CStr) (fds : List Int) (a : CStr) (fdptr : Nat),
        embedded_while special fds (fds.length + 1) a fdptr ≠ .error .timeout) := by
  obtain ⟨f, optind, argv2, prog, ni, no, hm, _, _, hst⟩ :=
    main_before_negotiate_reaches os_splits argv st h
  obtain ⟨hp, _⟩ := main_options_flags os_splits argv f optind argv2 prog hm
  obtain ⟨_, _, b3, _, _, b6, b7, _, _⟩ := parse_options_fields _ _ _ hp
  have hprog := main_options_prog os_splits argv f optind argv2 prog hm
  have hlt : optind < argv2.length := by
    rcases Nat.lt_or_ge optind argv2.length with hlt | hge
    · exact hlt
    · rw [List.getElem?_eq_none hge] at hprog
      exact absurd hprog (by simp)
  have hemb : f.embedded_args = true := by
    rw [b3]
    obtain ⟨e, hmem, hc⟩ := he
    simp only [Bool.or_eq_true, List.any_eq_true, decide_eq_true_eq]
    exact Or.inr ⟨e, hmem, hc⟩
  have hsi : f.supply_input_args = false := by
    rw [b6]
    have : (main_events os_splits argv).any (fun e => decide (e = ('i', ['a']))) = false := by
      simp only [List.any_eq_false, decide_eq_true_eq]
      exact fun e hmem => (hna e hmem).1
    rw [this]
    rfl
  have hso : f.supply_output_args = false := by
    rw [b7]
    have : (main_events os_splits argv).any (fun e => decide (e = ('o', ['a']))) = false := by
      simp only [List.any_eq_false, decide_eq_true_eq]
      exact fun e hmem => (hna e hmem).2
    rw [this]
    rfl
  subst hst
  have e1 : marker_in = ['<', '|'] := rfl
  have e2 : marker_out = ['>', '|'] := rfl
  refine ⟨?_, ?_, ?_, ?_, ?_, ?_, ?_⟩
  · intro ni no hi ho
    simp only [hemb]
    exact scan_args_total true _ ni no hi ho
  · intro hin hout
    simp only [] at hin hout
    have hin1 := rewrite_direction_embedded f.stdin_as_arg '<' '|' (by decide) (by decide)
      (by decide) optind argv2 r.ninputs r.input_fds hin
    have hdl : ((r.input_fds.drop (if f.stdin_as_arg = true then 0 else 1)).length)
        = r.input_fds.length - (if f.stdin_as_arg = true then 0 else 1) := List.length_drop _ _
    have hkeep := fill_args_keeps_count '>' '|' '<' '|' (by decide) (by decide) (by decide)
      (by decide) (by decide) (by decide) (argv2.drop (optind + 1))
      (r.input_fds.drop (if f.stdin_as_arg = true then 0 else 1))
      (by rw [hdl]; rw [e1] at hin; omega)
    have hnone := fill_args_leaves_none '<' '|' (by decide) (by decide) (by decide)
      (argv2.drop (optind + 1)) (r.input_fds.drop (if f.stdin_as_arg = true then 0 else 1))
      (by rw [hdl]; rw [e1] at hin; omega)
    have htl : (argv2.take (optind + 1)).length = optind + 1 := by
      rw [List.length_take]
      omega
    have hd1 : ∀ X : List CStr, (argv2.take (optind + 1) ++ X).drop (optind + 1) = X := by
      intro X
      exact List.drop_left' htl
    have ht1 : ∀ X : List CStr, (argv2.take (optind + 1) ++ X).take (optind + 1)
        = argv2.take (optind + 1) := by
      intro X
      exact List.take_left' htl
    have hout1 := rewrite_direction_embedded f.stdout_as_arg '>' '|' (by decide) (by decide)
      (by decide) optind
      (argv2.take (optind + 1)
        ++ fill_args dev_fd ['<', '|'] (argv2.drop (optind + 1))
             (r.input_fds.drop (if f.stdin_as_arg = true then 0 else 1)))
      r.noutputs r.output_fds
      (by rw [hd1, hkeep]; exact hout)
    rw [hd1, ht1, hkeep] at hout1
    have hdl2 : ((r.output_fds.drop (if f.stdout_as_arg = true then 0 else 1)).length)
        = r.output_fds.length - (if f.stdout_as_arg = true then 0 else 1) :=
      List.length_drop _ _
    have hnone2 := fill_args_leaves_none '>' '|' (by decide) (by decide) (by decide)
      (fill_args dev_fd ['<', '|'] (argv2.drop (optind + 1))
        (r.input_fds.drop (if f.stdin_as_arg = true then 0 else 1)))
      (r.output_fds.drop (if f.stdout_as_arg = true then 0 else 1))
      (by rw [hkeep, hdl2]; rw [e2] at hout; omega)
    have hkeep2 := fill_args_keeps_count '<' '|' '>' '|' (by decide) (by decide) (by decide)
      (by decide) (by decide) (by decide)
      (fill_args dev_fd ['<', '|'] (argv2.drop (optind + 1))
        (r.input_fds.drop (if f.stdin_as_arg = true then 0 else 1)))
      (r.output_fds.drop (if f.stdout_as_arg = true then 0 else 1))
      (by rw [hkeep, hdl2]; rw [e2] at hout; omega)
    refine ⟨argv2.take (optind + 1)
        ++ fill_args dev_fd ['<', '|'] (argv2.drop (optind + 1))
             (r.input_fds.drop (if f.stdin_as_arg = true then 0 else 1)),
      argv2.take (optind + 1)
        ++ fill_args dev_fd ['>', '|']
             (fill_args dev_fd ['<', '|'] (argv2.drop (optind + 1))
               (r.input_fds.drop (if f.stdin_as_arg = true then 0 else 1)))
             (r.output_fds.drop (if f.stdout_as_arg = true then 0 else 1)),
      ?_, ?_, ?_, ?_, ?_, ?_, ?_⟩
    · simp only [rewrite_inputs, hsi, hemb]
      exact hin1 _
    · simp only [rewrite_outputs, hso, hemb]
      exact hout1 _
    · rw [hd1]
      exact hkeep
    · rw [hd1]
      exact hnone
    · rw [hd1]
      exact hkeep2.trans hnone
    · rw [hd1]
      exact hnone2
    · simp only [main_after_negotiate, rewrite_inputs, rewrite_outputs, hsi, hso, hemb, e1, e2]
      rw [hin1]
      simp only []
      rw [hout1]
  · intro arg arg1 fds fdptr fdptr1 hstep
    exact process_embedded_counts '>' '|' '<' '|' (by decide) (by decide) (by decide)
      (by decide) (by decide) (by decide) (by decide) (by decide) arg arg1 fds fdptr fdptr1 hstep
  · intro arg arg1 fds fdptr fdptr1 hstep
    exact process_embedded_counts '<' '|' '>' '|' (by decide) (by decide) (by decide)
      (by decide) (by decide) (by decide) (by decide) (by decide) arg arg1 fds fdptr fdptr1 hstep
  · intro fds a fdptr fuel hd hf
    have := embedded_while_fill '<' '|' (by decide) (by decide) (by decide) fds
      (occurrences ['<', '|'] a) a [] fdptr fuel rfl (by simp [strstr]) (Or.inl rfl) hd hf
    simpa using this
  · intro fds a fdptr fuel hd hf
    have := embedded_while_fill '>' '|' (by decide) (by decide) (by decide) fds
      (occurrences ['>', '|'] a) a [] fdptr fuel rfl (by simp [strstr]) (Or.inl rfl) hd hf
    simpa using this
  · intro special fds a fdptr
    exact embedded_while_within_budget special fds (fds.length + 1) a fdptr (by omega) (by omega)

/-- C22, on `dgsh-wrap -e paste "a<|b>|c" "<|"` with the input descriptors 3, 4 and
the output descriptor 5: two input descriptors and one output descriptor are
read. -/
theorem scanner_and_rewriter_agree_witness :
    ∃ st argv1 argv2,
      main_before_negotiate false
          [cstr "dgsh-wrap", cstr "-e", cstr "paste", cstr "a<|b>|c", cstr "<|"]
        = .negotiate st
      ∧ rewrite_inputs st ⟨2, 1, [3, 4], [5]⟩ = .ok (argv1, 2)
      ∧ rewrite_outputs st argv1 ⟨2, 1, [3, 4], [5]⟩ = .ok (argv2, 1)
      ∧ main_after_negotiate st ⟨2, 1, [3, 4], [5]⟩
          = .ok [cstr "paste", cstr "a/dev/fd/3b/dev/fd/5c", cstr "/dev/fd/4"] := by
  obtain ⟨argv1, argv2, h1, h2, _, _, _, _, _⟩ :=
    (scanner_and_rewriter_agree false
      [cstr "dgsh-wrap", cstr "-e", cstr "paste", cstr "a<|b>|c", cstr "<|"] _
      ⟨2, 1, [3, 4], [5]⟩ rfl ⟨('e', []), by decide, rfl⟩ (by decide)).2.1
      (by decide) (by decide)
  exact ⟨_, argv1, argv2, rfl, h1, h2, by decide⟩

/-- C23 (code defect): for `dgsh-wrap -S cat`, where nothing follows the program
name, `argc = 3` and `optind = 2` pass the guard `argc > optind` of `main`, and
`remove_os_script_path` stores `NULL` in `argv[optind]`: the program name is
gone, whatever the cell after the vector holds, and `main` goes on with a
`NULL` program name. -/
theorem script_path_removal_loses_program :
    remove_os_script_path (mkArgv [cstr "dgsh-wrap", cstr "-S", cstr "cat"]) 3 2 none
      = ([some (cstr "dgsh-wrap"), some (cstr "-S"), none, none], 2)
    ∧ remove_os_script_path (mkArgv [cstr "dgsh-wrap", cstr "-S", cstr "cat"]) 3 2
        (some (cstr "HOME=/root"))
      = ([some (cstr "dgsh-wrap"), some (cstr "-S"), none, some (cstr "HOME=/root")], 2)
    ∧ main_before_negotiate false [cstr "dgsh-wrap", cstr "-S", cstr "cat"] = .fault .null
    ∧ main_before_negotiate true [cstr "dgsh-wrap", cstr "-S", cstr "cat"] = .fault .null := by
  refine ⟨?_, ?_, ?_, ?_⟩ <;> decide

/-- C24 (code defect): for `dgsh-wrap -i a -I cat file`, when the negotiation
resolves no input, the count becomes `-1` after the decrement for `-I` and the
vector passed to `execvp` is `cat` alone: the caller's argument `file` is
dropped. With one resolved input the vector is `cat file`. The same happens
with `-o a -O` when no output is resolved. -/
theorem supply_with_no_descriptor_drops_argument :
    (∃ st, main_before_negotiate false
          [cstr "dgsh-wrap", cstr "-i", cstr "a", cstr "-I", cstr "cat", cstr "file"]
          = .negotiate st
        ∧ st.flags.ninputs = -1
        ∧ main_after_negotiate st ⟨0, 1, [], [1]⟩ = .ok [cstr "cat"]
        ∧ main_after_negotiate st ⟨1, 1, [0], [1]⟩ = .ok [cstr "cat", cstr "file"])
    ∧ (∃ st, main_before_negotiate false
          [cstr "dgsh-wrap", cstr "-o", cstr "a", cstr "-O", cstr "cat", cstr "file"]
          = .negotiate st
        ∧ st.flags.noutputs = -1
        ∧ main_after_negotiate st ⟨1, 0, [0], []⟩ = .ok [cstr "cat"]
        ∧ main_after_negotiate st ⟨1, 1, [0], [1]⟩ = .ok [cstr "cat", cstr "file"]) := by
  refine ⟨⟨_, rfl, ?_, ?_, ?_⟩, ⟨_, rfl, ?_, ?_, ?_⟩⟩ <;> decide

end DgshWrap
